import Mathlib

/-!
# Vector tile codec (`mvt.cpp`): shallow embedding and verified properties

The embedding follows `src/mvt.cpp` function by function.  C `int` values are
integers reduced with `toInt32`, `uint32_t` values are naturals below `2 ^ 32`,
`long long` coordinates are integers, a `std::string` holding text is a
`String` and a byte buffer is a list of naturals.  Code that ends in
`exit(EXIT_FAILURE)` returns `none`.  What `mvt.cpp` takes from `mvt.hpp`,
protozero, zlib and the C library is described where it is introduced.  The
first part of the file holds the definitions, the second part the theorems.
-/

namespace Mvt

/-! ## Definitions -/

/-- Conversion of an integer to a C `int` (two's complement, 32 bits): the low
32 bits, read as a signed value (`4294967296 = 2 ^ 32`, `2147483648 = 2 ^ 31`). -/
def toInt32 (v : Int) : Int :=
  if (v % 4294967296).toNat < 2147483648 then v % 4294967296 else v % 4294967296 - 4294967296

/-- Conversion of an integer to a C `uint32_t`. -/
def toUInt32 (v : Int) : Nat := (v % 4294967296).toNat

/-- Range of a signed 32-bit integer. -/
def fits_int32 (v : Int) : Prop := -2 ^ 31 ≤ v ∧ v < 2 ^ 31

instance (v : Int) : Decidable (fits_int32 v) := by
  unfold fits_int32; infer_instance

/-- Modelled from the spec: `protozero::encode_zigzag32` of the wire-codec
library, the zigzag transform of a signed 32-bit integer (`0, -1, 1, -2, ...`
become `0, 1, 2, 3, ...`). -/
def encode_zigzag32 (v : Int) : Nat :=
  toUInt32 (if 0 ≤ v then 2 * v else -2 * v - 1)

/-- Modelled from the spec: `protozero::decode_zigzag32` of the wire-codec
library, the inverse zigzag transform of a 32-bit word. -/
def decode_zigzag32 (w : Nat) : Int :=
  if w % 2 = 0 then ((w / 2 : Nat) : Int) else -((w / 2 : Nat) : Int) - 1

/-- Modelled from the spec: opcode `mvt_moveto` of `mvt.hpp`. -/
def mvt_moveto : Int := 1

/-- Modelled from the spec: opcode `mvt_lineto` of `mvt.hpp`. -/
def mvt_lineto : Int := 2

/-- Modelled from the spec: opcode `mvt_closepath` of `mvt.hpp`. -/
def mvt_closepath : Int := 7

/-- One drawing operation, as built by `mvt_geometry::mvt_geometry(int, long long, long long)`. -/
structure mvt_geometry where
  op : Int
  x : Int
  y : Int
deriving DecidableEq, Repr

/-- Result of the inner loop: the index `g`, the running position and the
geometry pushed so far. -/
structure decode_cursor where
  g : Nat
  px : Int
  py : Int
  geometry : List mvt_geometry
deriving DecidableEq, Repr

/-- The inner loop `for (k = 0; k < count && g + 2 < geoms.size(); k++)`; the
first argument is `count - k`.  A command stream of a feature has fewer than
`2 ^ 32` words (it sits in one length-delimited field), so the `long long`
sums `px`, `py` never leave 64 bits and are plain integers here. -/
def decode_coords (geoms : List Nat) (op : Nat) : Nat → decode_cursor → decode_cursor
  | 0, c => c
  | n + 1, c =>
    if h : c.g + 2 < geoms.length then
      let px := c.px + decode_zigzag32 geoms[c.g + 1]
      let py := c.py + decode_zigzag32 geoms[c.g + 2]
      decode_coords geoms op n
        { g := c.g + 2, px := px, py := py,
          geometry := c.geometry ++ [{ op := (op : Int), x := px, y := py }] }
    else c

/-- The outer loop `for (size_t g = 0; g < geoms.size(); g++)`.  The first
argument bounds the number of iterations; `none` means the bound was reached
before the loop ended. -/
def decode_loop (geoms : List Nat) : Nat → decode_cursor → Option (List mvt_geometry)
  | fuel, c =>
    if h : c.g < geoms.length then
      match fuel with
      | 0 => none
      | fuel + 1 =>
        let geom := geoms[c.g]
        let op := geom &&& 7
        let count := geom >>> 3
        if (op : Int) = mvt_moveto ∨ (op : Int) = mvt_lineto then
          let c1 := decode_coords geoms op count c
          decode_loop geoms fuel { c1 with g := c1.g + 1 }
        else
          decode_loop geoms fuel
            { c with g := c.g + 1,
                     geometry := c.geometry ++ [{ op := (op : Int), x := 0, y := 0 }] }
    else some c.geometry

/-- Geometry decoding of one feature: the loop started at `g = 0`,
`px = py = 0`, with one unit of iteration bound per command word. -/
def decode_geometry (geoms : List Nat) : Option (List mvt_geometry) :=
  decode_loop geoms geoms.length { g := 0, px := 0, py := 0, geometry := [] }

/-- The command word `(length << 3) | (cmd & ((1 << 3) - 1))`, computed in
`int` and stored into a `uint32_t`. -/
def command_word (length cmd : Int) : Nat :=
  toUInt32 (Int.lor (toInt32 (length <<< (3 : Int))) (Int.land cmd ((1 <<< (3 : Int)) - 1)))

/-- Local variables of the encoding loop. -/
structure encode_state where
  geometry : List Nat
  px : Int
  py : Int
  cmd_idx : Int
  cmd : Int
  length : Int
deriving DecidableEq, Repr

/-- Patch of the open command word: `if (cmd_idx >= 0) geometry[cmd_idx] = ...`. -/
def encode_patch (s : encode_state) : List Nat :=
  if s.cmd_idx ≥ 0 then s.geometry.set s.cmd_idx.toNat (command_word s.length s.cmd)
  else s.geometry

/-- One iteration of `for (size_t g = 0; g < geom.size(); g++)`; `none` is the
`exit(EXIT_FAILURE)` of the corrupted-geometry branch. -/
def encode_op (s : encode_state) (g : mvt_geometry) : Option encode_state :=
  let op := g.op
  let s1 : encode_state :=
    if op ≠ s.cmd then
      let patched := encode_patch s
      { s with geometry := patched ++ [0], cmd := op, length := 0,
               cmd_idx := toInt32 patched.length }
    else s
  if op = mvt_moveto ∨ op = mvt_lineto then
    let wwx := g.x
    let wwy := g.y
    let dx := toInt32 (wwx - s1.px)
    let dy := toInt32 (wwy - s1.py)
    some { s1 with geometry := s1.geometry ++ [encode_zigzag32 dx, encode_zigzag32 dy],
                   px := toInt32 wwx, py := toInt32 wwy,
                   length := toInt32 (s1.length + 1) }
  else if op = mvt_closepath then
    some { s1 with length := toInt32 (s1.length + 1) }
  else none

/-- The whole encoding loop over the geometry of a feature. -/
def encode_loop : encode_state → List mvt_geometry → Option encode_state
  | s, [] => some s
  | s, g :: gs =>
    match encode_op s g with
    | none => none
    | some s1 => encode_loop s1 gs

/-- Initial values `px = py = 0`, `cmd_idx = -1`, `cmd = -1`, `length = 0`. -/
def encode_init : encode_state :=
  { geometry := [], px := 0, py := 0, cmd_idx := -1, cmd := -1, length := 0 }

/-- Command stream of a feature: the loop followed by the final patch. -/
def encode_geometry (geom : List mvt_geometry) : Option (List Nat) :=
  match encode_loop encode_init geom with
  | none => none
  | some s => some (encode_patch s)

/-- Words that one operation adds after its command word: two zigzag-encoded
32-bit deltas for MoveTo and LineTo, nothing for the others. -/
def op_words (p : Int × Int) (g : mvt_geometry) : List Nat :=
  if g.op = mvt_moveto ∨ g.op = mvt_lineto then
    [encode_zigzag32 (toInt32 (g.x - p.1)), encode_zigzag32 (toInt32 (g.y - p.2))]
  else []

/-- Position after one operation: MoveTo and LineTo move to their
coordinates, the others leave the position unchanged. -/
def op_end (p : Int × Int) (g : mvt_geometry) : Int × Int :=
  if g.op = mvt_moveto ∨ g.op = mvt_lineto then (g.x, g.y) else p

/-- Coordinate words of a sequence of operations from position `p`. -/
def coord_words : Int × Int → List mvt_geometry → List Nat
  | _, [] => []
  | p, g :: gs => op_words p g ++ coord_words (op_end p g) gs

/-- Position after a sequence of operations from position `p`. -/
def end_pos : Int × Int → List mvt_geometry → Int × Int
  | p, [] => p
  | p, g :: gs => end_pos (op_end p g) gs

/-- Maximal runs of consecutive operations with the same opcode. -/
def runs : List mvt_geometry → List (List mvt_geometry)
  | [] => []
  | g :: gs =>
    match runs gs with
    | [] => [[g]]
    | [] :: rs => [g] :: rs
    | (h :: t) :: rs =>
      if g.op = h.op then (g :: h :: t) :: rs else [g] :: (h :: t) :: rs

/-- Command stream described run by run: for each run one command word
`(run length << 3) | opcode`, then the coordinate words of its operations. -/
def pack_runs : Int × Int → List (List mvt_geometry) → List Nat
  | _, [] => []
  | p, r :: rs =>
    match r with
    | [] => pack_runs p rs
    | g :: _ =>
      ((r.length <<< 3) ||| g.op.toNat) :: (coord_words p r ++ pack_runs (end_pos p r) rs)

/-- The deltas the encoder computes (each MoveTo and LineTo against the
previous MoveTo or LineTo, the first against the origin) fit in a signed
32-bit integer. -/
def deltas_fit : Int × Int → List mvt_geometry → Prop
  | _, [] => True
  | p, g :: gs =>
    ((g.op = mvt_moveto ∨ g.op = mvt_lineto) →
        fits_int32 (g.x - p.1) ∧ fits_int32 (g.y - p.2)) ∧
      deltas_fit (op_end p g) gs

/-- No two adjacent operations are both ClosePath. -/
def no_adjacent_closepath : List mvt_geometry → Prop
  | a :: b :: t =>
    ¬(a.op = mvt_closepath ∧ b.op = mvt_closepath) ∧ no_adjacent_closepath (b :: t)
  | _ => True

/-- Opcode of the closed set MoveTo, LineTo, ClosePath. -/
def valid_op (c : Int) : Prop := c = mvt_moveto ∨ c = mvt_lineto ∨ c = mvt_closepath

/-- Loop invariant of the encoder while a command is open: `closed` are the
words of the finished commands, `run` the operations of the open command and
`q` the position before the first of them. -/
structure enc_inv (s : encode_state) (closed : List Nat) (q : Int × Int)
    (run : List mvt_geometry) : Prop where
  geometry : s.geometry = closed ++ 0 :: coord_words q run
  cmd_idx : s.cmd_idx = (closed.length : Int)
  cmd_ok : valid_op s.cmd
  run_ne : run ≠ []
  run_op : ∀ a ∈ run, a.op = s.cmd
  length : s.length = (run.length : Int)
  px : s.px = toInt32 (end_pos q run).1
  py : s.py = toInt32 (end_pos q run).2

/-- The state after `if (op != cmd) { ... }` when a new command is opened. -/
def encode_open (s : encode_state) (op : Int) : encode_state :=
  { s with geometry := encode_patch s ++ [0], cmd := op, length := 0,
           cmd_idx := toInt32 (encode_patch s).length }

/-- A run that the decoder reads back: a non-empty MoveTo or LineTo run whose
deltas fit in 32 bits, or a single ClosePath with zero coordinates. -/
def run_ok (p : Int × Int) (r : List mvt_geometry) : Prop :=
  (∃ op : Nat, ((op : Int) = mvt_moveto ∨ (op : Int) = mvt_lineto) ∧ r ≠ [] ∧
      (∀ a ∈ r, a.op = (op : Int)) ∧ deltas_fit p r) ∨
    r = [{ op := mvt_closepath, x := 0, y := 0 }]

/-- Every run of a list of runs is read back, the position being threaded
from run to run. -/
def runs_ok : Int × Int → List (List mvt_geometry) → Prop
  | _, [] => True
  | p, r :: rs => run_ok p r ∧ runs_ok (end_pos p r) rs

/-- Decision procedure for `deltas_fit`, by recursion on the operations. -/
def deltas_fit_dec : (p : Int × Int) → (l : List mvt_geometry) → Decidable (deltas_fit p l)
  | _, [] => isTrue trivial
  | p, g :: gs =>
    match deltas_fit_dec (op_end p g) gs with
    | isTrue h =>
      if h1 : (g.op = mvt_moveto ∨ g.op = mvt_lineto) →
          fits_int32 (g.x - p.1) ∧ fits_int32 (g.y - p.2) then isTrue ⟨h1, h⟩
      else isFalse (fun hh => h1 hh.1)
    | isFalse h => isFalse (fun hh => h hh.2)

instance (p : Int × Int) (l : List mvt_geometry) : Decidable (deltas_fit p l) :=
  deltas_fit_dec p l

instance (c : Int) : Decidable (valid_op c) := by
  unfold valid_op; infer_instance

/-- Decision procedure for `no_adjacent_closepath`. -/
def no_adjacent_closepath_dec : (l : List mvt_geometry) → Decidable (no_adjacent_closepath l)
  | [] => isTrue trivial
  | [_] => isTrue trivial
  | a :: b :: t =>
    match no_adjacent_closepath_dec (b :: t) with
    | isTrue h =>
      if h1 : a.op = mvt_closepath ∧ b.op = mvt_closepath then isFalse (fun hh => hh.1 h1)
      else isTrue ⟨h1, h⟩
    | isFalse h => isFalse (fun hh => h hh.2)

instance (l : List mvt_geometry) : Decidable (no_adjacent_closepath l) :=
  no_adjacent_closepath_dec l

/-- Conversion of an integer to a C `uint64_t`. -/
def toUInt64 (v : Int) : Nat := (v % 18446744073709551616).toNat

/-- Conversion of an integer to a C `int64_t` (two's complement, 64 bits): the
low 64 bits, read as a signed value (`18446744073709551616 = 2 ^ 64`). -/
def toInt64 (v : Int) : Int :=
  if (v % 18446744073709551616).toNat < 9223372036854775808 then v % 18446744073709551616
  else v % 18446744073709551616 - 18446744073709551616

/-- Modelled from the spec: `protozero::decode_zigzag64` of the wire-codec
library, the inverse zigzag transform of a 64-bit word. -/
def decode_zigzag64 (w : Nat) : Int :=
  if w % 2 = 0 then ((w / 2 : Nat) : Int) else -((w / 2 : Nat) : Int) - 1

/-- Modelled from the spec: the attribute value `mvt_value` of `mvt.hpp`, a
variant with the six payload kinds of the data model and the three
alternatives (`std::nullptr_t`, vector, hash table) that the visitors of
`mvt.cpp` also handle.  A `float` or `double` is kept as its IEEE-754 bit
pattern; no code path of `mvt.cpp` reads the content of a vector or a hash
table, so these two carry none. -/
inductive mvt_value where
  | string (val : String)
  | float (bits : Nat)
  | double (bits : Nat)
  | int64 (val : Int)
  | uint64 (val : Nat)
  | bool (val : Bool)
  | null
  | vector
  | map
deriving DecidableEq, Repr

/-- Modelled from the spec: the feature `mvt_feature` of `mvt.hpp`: type
(0 = Unknown, 1 = Point, 2 = LineString, 3 = Polygon), tags and geometry. -/
structure mvt_feature where
  type : Int
  tags : List Nat
  geometry : List mvt_geometry
deriving DecidableEq, Repr

/-- Modelled from the spec: the layer `mvt_layer` of `mvt.hpp`.  The two
`std::map` indexes are kept as the list of their entries, see `map_find` and
`map_insert`. -/
structure mvt_layer where
  version : Nat
  name : String
  features : List mvt_feature
  keys : List String
  values : List mvt_value
  extent : Nat
  key_map : List (String × Nat)
  value_map : List (mvt_value × Nat)
deriving DecidableEq, Repr

/-- Modelled from the spec: the tile `mvt_tile` of `mvt.hpp`, its layers in order. -/
structure mvt_tile where
  layers : List mvt_layer
deriving DecidableEq, Repr

/-- Modelled from the spec: a default-constructed `mvt_feature` (`mvt_feature feature;`). -/
def mvt_feature_init : mvt_feature := { type := 0, tags := [], geometry := [] }

/-- Modelled from the spec: a default-constructed `mvt_layer` (`mvt_layer layer;`),
with the defaults of the data model: version 2, extent 4096, everything else empty. -/
def mvt_layer_init : mvt_layer :=
  { version := 2, name := "", features := [], keys := [], values := [], extent := 4096,
    key_map := [], value_map := [] }

/-- Modelled from the spec: payload of one tagged field as the wire-codec
library (protozero) hands it over.  A length-delimited field is kept under the
reading the decoder of `mvt.cpp` applies to it: a string, a packed list of
varints or an embedded message. -/
inductive pbf_data where
  | varint (v : Nat)
  | fixed64 (bits : Nat)
  | fixed32 (bits : Nat)
  | string (s : String)
  | packed (vs : List Nat)
  | message (fields : List (Nat × pbf_data))

/-- A wire message: its tagged fields in wire order. -/
abbrev pbf_message := List (Nat × pbf_data)

/-- What `mvt.cpp` takes from outside: protozero's reading and writing of
buffers, zlib run over a whole buffer, the `%f` formatting of the C library and
the value a default-constructed `mvt_value` holds. -/
structure mvt_env where
  /-- The tagged fields `pbf_reader` finds in a buffer; `none` when it throws. -/
  pbf_read : List Nat → Option pbf_message
  /-- The buffer `pbf_writer` builds for a list of tagged fields. -/
  pbf_write : pbf_message → List Nat
  /-- Inflate of a whole buffer: success flag and the bytes left in `output`. -/
  inflate : List Nat → Bool × List Nat
  /-- Deflate of a whole buffer with gzip framing: success flag and output bytes. -/
  deflate : List Nat → Bool × List Nat
  /-- Text of a `float`, given by its bit pattern, under `%f`. -/
  printf_f : Nat → String
  /-- Text of a `double`, given by its bit pattern, under `%lf`. -/
  printf_lf : Nat → String
  /-- Value of `mvt_value value;` before any assignment. -/
  value_init : mvt_value

/-! ### Compression (`is_compressed`, `decompress`, `compress`) -/

/-- `is_compressed`: the bytes of the buffer are naturals, `(uint8_t) data[i]`
is the byte reduced modulo 256. -/
def is_compressed (data : List Nat) : Bool :=
  decide (data.length > 2) &&
    ((data.getD 0 0 % 256 == 0x78 && data.getD 1 0 % 256 == 0x9C) ||
     (data.getD 0 0 % 256 == 0x1F && data.getD 1 0 % 256 == 0x8B))

/-- `decompress`: returns 0 when inflate reports an error other than
stream end, ok or buffer error, 1 otherwise, and the content of `output`. -/
def decompress (env : mvt_env) (input : List Nat) : Int × List Nat :=
  match env.inflate input with
  | (true, output) => (1, output)
  | (false, output) => (0, output)

/-- `compress`: returns -1 when deflate reports an error, 0 otherwise, and
the content of `output`. -/
def compress (env : mvt_env) (input : List Nat) : Int × List Nat :=
  match env.deflate input with
  | (true, output) => (0, output)
  | (false, output) => (-1, output)

/-! ### Decoding (`mvt_tile::decode`) -/

/-- One iteration of `while (value_reader.next())`: the switch on the field
number inside a Value message.  `none`: the field does not have the wire type
its reader expects. -/
def decode_value_field (value : mvt_value) (f : Nat × pbf_data) : Option mvt_value :=
  match f.1 with
  | 1 => match f.2 with
    | .string s => some (.string s)
    | _ => none
  | 2 => match f.2 with
    | .fixed32 b => some (.float b)
    | _ => none
  | 3 => match f.2 with
    | .fixed64 b => some (.double b)
    | _ => none
  | 4 => match f.2 with
    | .varint v => some (.int64 (toInt64 v))
    | _ => none
  | 5 => match f.2 with
    | .varint v => some (.uint64 (v % 2 ^ 64))
    | _ => none
  | 6 => match f.2 with
    | .varint v => some (.int64 (decode_zigzag64 (v % 2 ^ 64)))
    | _ => none
  | 7 => match f.2 with
    | .varint v => some (.bool (v != 0))
    | _ => none
  | _ => some value

/-- The loop over the fields of a Value message. -/
def decode_value_loop : mvt_value → pbf_message → Option mvt_value
  | value, [] => some value
  | value, f :: fs =>
    match decode_value_field value f with
    | none => none
    | some v => decode_value_loop v fs

/-- Local variables of the feature case: the feature and the words `geoms`. -/
structure feature_state where
  feature : mvt_feature
  geoms : List Nat
deriving DecidableEq, Repr

/-- One iteration of `while (feature_reader.next())`. -/
def decode_feature_field (s : feature_state) (f : Nat × pbf_data) : Option feature_state :=
  match f.1 with
  | 2 => match f.2 with
    | .packed vs =>
      some { s with feature := { s.feature with tags := s.feature.tags ++ vs.map (· % 2 ^ 32) } }
    | _ => none
  | 3 => match f.2 with
    | .varint v => some { s with feature := { s.feature with type := toInt32 v } }
    | _ => none
  | 4 => match f.2 with
    | .packed vs => some { s with geoms := s.geoms ++ vs.map (· % 2 ^ 32) }
    | _ => none
  | _ => some s

/-- The loop over the fields of a Feature message. -/
def decode_feature_loop : feature_state → pbf_message → Option feature_state
  | s, [] => some s
  | s, f :: fs =>
    match decode_feature_field s f with
    | none => none
    | some s1 => decode_feature_loop s1 fs

/-- The feature case of the layer switch: read the fields, then decode the
command words into `feature.geometry`. -/
def decode_feature (fields : pbf_message) : Option mvt_feature :=
  match decode_feature_loop { feature := mvt_feature_init, geoms := [] } fields with
  | none => none
  | some s =>
    match decode_geometry s.geoms with
    | none => none
    | some geometry => some { s.feature with geometry := s.feature.geometry ++ geometry }

/-- One iteration of `while (layer_reader.next())`. -/
def decode_layer_field (env : mvt_env) (layer : mvt_layer) (f : Nat × pbf_data) :
    Option mvt_layer :=
  match f.1 with
  | 1 => match f.2 with
    | .string s => some { layer with name := s }
    | _ => none
  | 3 => match f.2 with
    | .string s => some { layer with keys := layer.keys ++ [s] }
    | _ => none
  | 4 => match f.2 with
    | .message fields =>
      match decode_value_loop env.value_init fields with
      | none => none
      | some value => some { layer with values := layer.values ++ [value] }
    | _ => none
  | 5 => match f.2 with
    | .varint v => some { layer with extent := v % 2 ^ 32 }
    | _ => none
  | 2 => match f.2 with
    | .message fields =>
      match decode_feature fields with
      | none => none
      | some feature => some { layer with features := layer.features ++ [feature] }
    | _ => none
  | _ => some layer

/-- The loop over the fields of a Layer message. -/
def decode_layer_loop (env : mvt_env) : mvt_layer → pbf_message → Option mvt_layer
  | layer, [] => some layer
  | layer, f :: fs =>
    match decode_layer_field env layer f with
    | none => none
    | some l => decode_layer_loop env l fs

/-! ### Value comparator (`stringify_visitor`, `mvt_value_cmp`) -/

/-- `stringify_visitor`: a tag character followed by the text of the payload. -/
def stringify_visitor (env : mvt_env) : mvt_value → String
  | .string val => "s" ++ val
  | .float val => "f" ++ env.printf_f val
  | .double val => "d" ++ env.printf_lf val
  | .int64 val => "i" ++ toString val
  | .uint64 val => "u" ++ toString val
  | .bool val => "b" ++ (if val then "true" else "false")
  | .null => "n"
  | .vector => "v"
  | .map => "m"

/-- Lexicographic comparison of two character sequences, the `<` of `std::string`. -/
def chars_less : List Char → List Char → Bool
  | _, [] => false
  | [], _ :: _ => true
  | a :: as, b :: bs =>
    if a.toNat < b.toNat then true
    else if b.toNat < a.toNat then false
    else chars_less as bs

/-- `std::less<std::string>`, the order of `key_map`. -/
def string_less (a b : String) : Bool := chars_less a.data b.data

/-- `mvt_value_cmp::operator()`: `as < bs` on the two projections. -/
def mvt_value_cmp (env : mvt_env) (a b : mvt_value) : Bool :=
  string_less (stringify_visitor env a) (stringify_visitor env b)

/-! ### The indexes `key_map` and `value_map` (`std::map`) -/

/-- `std::map::find` under the order `lt`: the value stored under a key
equivalent to `k` (neither orders before the other), if there is one. -/
def map_find {κ : Type} (lt : κ → κ → Bool) (m : List (κ × Nat)) (k : κ) : Option Nat :=
  match m.find? (fun e => !lt e.1 k && !lt k e.1) with
  | some e => some e.2
  | none => none

/-- `std::map::insert`: adds the entry unless an equivalent key is present,
in which case the map is left as it is. -/
def map_insert {κ : Type} (lt : κ → κ → Bool) (m : List (κ × Nat)) (k : κ) (v : Nat) :
    List (κ × Nat) :=
  match map_find lt m k with
  | some _ => m
  | none => m ++ [(k, v)]

/-- The loop `for (i = 0; i < keys.size(); i++) map.insert(pair(keys[i], i))`, from index `i`. -/
def index_insert_all {κ : Type} (lt : κ → κ → Bool) :
    List (κ × Nat) → Nat → List κ → List (κ × Nat)
  | m, _, [] => m
  | m, i, k :: ks => index_insert_all lt (map_insert lt m k i) (i + 1) ks

/-- The layer case of the tile switch: read the fields of the Layer message,
then fill `key_map` and `value_map` from `keys` and `values`. -/
def decode_layer (env : mvt_env) (fields : pbf_message) : Option mvt_layer :=
  match decode_layer_loop env mvt_layer_init fields with
  | none => none
  | some layer =>
    some { layer with
      key_map := index_insert_all string_less layer.key_map 0 layer.keys,
      value_map := index_insert_all (mvt_value_cmp env) layer.value_map 0 layer.values }

/-- One iteration of `while (reader.next())` on the tile message. -/
def decode_tile_field (env : mvt_env) (layers : List mvt_layer) (f : Nat × pbf_data) :
    Option (List mvt_layer) :=
  match f.1 with
  | 3 => match f.2 with
    | .message fields =>
      match decode_layer env fields with
      | none => none
      | some layer => some (layers ++ [layer])
    | _ => none
  | _ => some layers

/-- The loop over the fields of the tile message. -/
def decode_tile_loop (env : mvt_env) : List mvt_layer → pbf_message → Option (List mvt_layer)
  | layers, [] => some layers
  | layers, f :: fs =>
    match decode_tile_field env layers f with
    | none => none
    | some ls => decode_tile_loop env ls fs

/-- `mvt_tile::decode`: the returned flag and the layers of the tile;
`none` when the wire-codec library throws.  The result of `decompress` is not
looked at: `src` is whatever it left in `uncompressed`. -/
def mvt_tile.decode (env : mvt_env) (message : List Nat) : Option (Bool × mvt_tile) :=
  let src := if is_compressed message then (decompress env message).2 else message
  match env.pbf_read src with
  | none => none
  | some fields =>
    match decode_tile_loop env [] fields with
    | none => none
    | some layers => some (true, { layers := layers })

/-! ### Encoding (`write_visitor`, `mvt_tile::encode`) -/

/-- `write_visitor`: the field added to the Value message; `none` is the
`exit(EXIT_FAILURE)` of the null, vector and hash table cases. -/
def write_visitor : mvt_value → Option pbf_message
  | .string val => some [(1, .string val)]
  | .float val => some [(2, .fixed32 val)]
  | .double val => some [(3, .fixed64 val)]
  | .int64 val => some [(4, .varint (toUInt64 val))]
  | .uint64 val => some [(5, .varint (val % 2 ^ 64))]
  | .bool val => some [(6, .varint (if val then 1 else 0))]
  | .null => none
  | .vector => none
  | .map => none

/-- The Value messages of a layer, in table order. -/
def encode_values : List mvt_value → Option pbf_message
  | [] => some []
  | v :: vs =>
    match write_visitor v with
    | none => none
    | some value_string =>
      match encode_values vs with
      | none => none
      | some rest => some ((4, .message value_string) :: rest)

/-- The Feature message of one feature. -/
def encode_feature (feature : mvt_feature) : Option pbf_message :=
  match encode_geometry feature.geometry with
  | none => none
  | some geometry =>
    some [(3, .varint (toUInt64 feature.type)),
          (2, .packed (feature.tags.map (· % 2 ^ 32))),
          (4, .packed geometry)]

/-- The Feature messages of a layer, in order. -/
def encode_features : List mvt_feature → Option pbf_message
  | [] => some []
  | f :: fs =>
    match encode_feature f with
    | none => none
    | some feature_string =>
      match encode_features fs with
      | none => none
      | some rest => some ((2, .message feature_string) :: rest)

/-- The Layer message of one layer. -/
def encode_layer (layer : mvt_layer) : Option pbf_message :=
  match encode_values layer.values with
  | none => none
  | some values =>
    match encode_features layer.features with
    | none => none
    | some features =>
      some ([(15, .varint (layer.version % 2 ^ 32)),
             (1, .string layer.name),
             (5, .varint (layer.extent % 2 ^ 32))]
            ++ layer.keys.map (fun k => (3, pbf_data.string k))
            ++ values ++ features)

/-- The tile message: one field 3 per layer. -/
def encode_layers : List mvt_layer → Option pbf_message
  | [] => some []
  | l :: ls =>
    match encode_layer l with
    | none => none
    | some layer_string =>
      match encode_layers ls with
      | none => none
      | some rest => some ((3, .message layer_string) :: rest)

/-- `mvt_tile::encode`: the compressed buffer; `none` when the process exits.
The result of `compress` is not looked at. -/
def mvt_tile.encode (env : mvt_env) (tile : mvt_tile) : Option (List Nat) :=
  match encode_layers tile.layers with
  | none => none
  | some fields => some (compress env (env.pbf_write fields)).2

/-! ### Interning (`mvt_layer::tag`) -/

/-- `mvt_layer::tag`: the layer and the feature after the call. -/
def mvt_layer.tag (env : mvt_env) (layer : mvt_layer) (feature : mvt_feature) (key : String)
    (value : mvt_value) : mvt_layer × mvt_feature :=
  let ki := map_find string_less layer.key_map key
  let vi := map_find (mvt_value_cmp env) layer.value_map value
  let (ko, layer1) : Nat × mvt_layer :=
    match ki with
    | none =>
      (layer.keys.length,
        { layer with keys := layer.keys ++ [key],
                     key_map := map_insert string_less layer.key_map key layer.keys.length })
    | some second => (second, layer)
  let (vo, layer2) : Nat × mvt_layer :=
    match vi with
    | none =>
      (layer1.values.length,
        { layer1 with values := layer1.values ++ [value],
                      value_map :=
                        map_insert (mvt_value_cmp env) layer1.value_map value layer1.values.length })
    | some second => (second, layer1)
  (layer2, { feature with tags := feature.tags ++ [ko, vo] })

/-! ### Sequences of `tag` calls -/

/-- Arguments of one call of `tag`. -/
structure tag_call where
  feature : mvt_feature
  key : String
  value : mvt_value
deriving DecidableEq, Repr

/-- A sequence of `tag` calls on a layer: the layer after the last call and,
for each call in order, the feature as that call left it. -/
def tag_all (env : mvt_env) : mvt_layer → List tag_call → mvt_layer × List mvt_feature
  | layer, [] => (layer, [])
  | layer, c :: cs =>
    ((tag_all env (mvt_layer.tag env layer c.feature c.key c.value).1 cs).1,
     (mvt_layer.tag env layer c.feature c.key c.value).2 ::
       (tag_all env (mvt_layer.tag env layer c.feature c.key c.value).1 cs).2)

/-- A layer with empty tables and empty indexes (name, version, extent and
features are free). -/
def empty_tables (layer : mvt_layer) : Prop :=
  layer.keys = [] ∧ layer.values = [] ∧ layer.key_map = [] ∧ layer.value_map = []

instance (layer : mvt_layer) : Decidable (empty_tables layer) := by
  unfold empty_tables; infer_instance

/-- The key index and the value index appended by a call: the last two
entries of the tags of the feature it returned. -/
def last_pair (feature : mvt_feature) : Nat × Nat :=
  (feature.tags.getD (feature.tags.length - 2) 0, feature.tags.getD (feature.tags.length - 1) 0)

/-- Consistency of a `std::map` index `m` with its table `tbl`, where two keys
are equivalent exactly when their projections under `proj` agree: a lookup that
succeeds gives a position holding an equivalent entry, a lookup that fails
means no equivalent entry is stored, and the table holds no two equivalent
entries. -/
structure index_inv {κ π : Type} (lt : κ → κ → Bool) (proj : κ → π) (tbl : List κ)
    (m : List (κ × Nat)) : Prop where
  found : ∀ k i, map_find lt m k = some i → ∃ x, tbl[i]? = some x ∧ proj x = proj k
  absent : ∀ k, map_find lt m k = none → proj k ∉ tbl.map proj
  nodup : (tbl.map proj).Nodup

/-- Consistency of both indexes of a layer with its tables. -/
def layer_inv (env : mvt_env) (l : mvt_layer) : Prop :=
  index_inv string_less id l.keys l.key_map ∧
    index_inv (mvt_value_cmp env) (stringify_visitor env) l.values l.value_map

/-! ### Wire-level views used in the statements -/

/-- The integers of the packed tags fields (field 2) of a Feature message, in
wire order, each as the `uint32_t` the reader hands over. -/
def wire_tags : pbf_message → List Nat
  | [] => []
  | (2, .packed vs) :: fs => vs.map (· % 2 ^ 32) ++ wire_tags fs
  | _ :: fs => wire_tags fs

/-- The buffer `src` that `mvt_tile::decode` hands to the reader. -/
def decode_src (env : mvt_env) (message : List Nat) : List Nat :=
  if is_compressed message then (decompress env message).2 else message

/-- An environment to run the definitions on concrete inputs: a reader that
finds no field, a writer that writes nothing, zlib that stores, numbers
printed from their bit pattern and a null initial value. -/
def sample_env : mvt_env :=
  { pbf_read := fun _ => some [],
    pbf_write := fun _ => [],
    inflate := fun b => (true, b.drop 3),
    deflate := fun b => (true, 0x1F :: 0x8B :: 0x08 :: b),
    printf_f := fun bits => toString bits,
    printf_lf := fun bits => toString bits,
    value_init := .null }

/-- The environment `sample_env` with a reader that finds the given fields in
every buffer. -/
def sample_env_reading (fields : pbf_message) : mvt_env :=
  { sample_env with pbf_read := fun _ => some fields }

/-- Three calls of `tag` on fresh features, with a repeated key and a repeated value. -/
def sample_calls : List tag_call :=
  [{ feature := mvt_feature_init, key := "name", value := .string "a" },
   { feature := mvt_feature_init, key := "lanes", value := .uint64 2 },
   { feature := mvt_feature_init, key := "name", value := .uint64 2 }]

/-- An environment whose zlib rejects the stream of the buffer `1F 8B 00 00`
(gzip magic, then a compression method that is not deflate): inflate fails
and leaves in `output` the eight zero bytes of the first `resize`, in which
the reader finds four varint fields numbered 0. -/
def inflate_failing_env : mvt_env :=
  { sample_env with
    inflate := fun _ => (false, [0, 0, 0, 0, 0, 0, 0, 0]),
    pbf_read := fun _ =>
      some [(0, .varint 0), (0, .varint 0), (0, .varint 0), (0, .varint 0)] }

/-! ### Positions read by the geometry decoding loop -/

/-- Positions of `geoms` that the inner loop reads from index `g` on: `g + 1`
and `g + 2` in each iteration (`geoms[g + 1]`, `geoms[g + 2]`); the first
argument is `count - k`. -/
def decode_coords_reads (geoms : List Nat) : Nat → Nat → List Nat
  | 0, _ => []
  | n + 1, g =>
    if g + 2 < geoms.length then (g + 1) :: (g + 2) :: decode_coords_reads geoms n (g + 2)
    else []

/-- Positions of `geoms` that the outer loop reads: `g` for the command word
(`geoms[g]`), then the positions of the inner loop, iteration after iteration
along the cursors of `decode_loop`. -/
def decode_loop_reads (geoms : List Nat) : Nat → decode_cursor → List Nat
  | fuel, c =>
    if h : c.g < geoms.length then
      match fuel with
      | 0 => []
      | fuel + 1 =>
        let geom := geoms[c.g]
        let op := geom &&& 7
        let count := geom >>> 3
        if (op : Int) = mvt_moveto ∨ (op : Int) = mvt_lineto then
          let c1 := decode_coords geoms op count c
          c.g :: (decode_coords_reads geoms count c.g ++
            decode_loop_reads geoms fuel { c1 with g := c1.g + 1 })
        else
          c.g :: decode_loop_reads geoms fuel
            { c with g := c.g + 1,
                     geometry := c.geometry ++ [{ op := (op : Int), x := 0, y := 0 }] }
    else []

/-! ### Complete command streams -/

/-- A command of a stream that carries all the words it declares: a MoveTo or
LineTo command with its coordinate pairs (the count is their number), or any
other command word. -/
inductive geometry_command where
  | draw (op : Nat) (pairs : List (Nat × Nat))
  | other (word : Nat)

/-- The coordinate words of a list of pairs. -/
def pair_words : List (Nat × Nat) → List Nat
  | [] => []
  | p :: ps => p.1 :: p.2 :: pair_words ps

/-- The words of one command: the command word `(count << 3) | opcode` and the
coordinate words. -/
def command_words : geometry_command → List Nat
  | .draw op pairs => ((pairs.length <<< 3) ||| op) :: pair_words pairs
  | .other word => [word]

/-- The words of a sequence of commands. -/
def stream_words : List geometry_command → List Nat
  | [] => []
  | c :: cs => command_words c ++ stream_words cs

/-- The coordinate pairs of a sequence of commands, in stream order. -/
def stream_pairs : List geometry_command → List (Nat × Nat)
  | [] => []
  | .draw _ pairs :: cs => pairs ++ stream_pairs cs
  | .other _ :: cs => stream_pairs cs

/-- A `draw` command has opcode MoveTo or LineTo, an `other` command word has
neither. -/
def complete_command : geometry_command → Prop
  | .draw op _ => (op : Int) = mvt_moveto ∨ (op : Int) = mvt_lineto
  | .other word =>
    ¬(((word &&& 7 : Nat) : Int) = mvt_moveto ∨ ((word &&& 7 : Nat) : Int) = mvt_lineto)

/-- Positions reached from `p` by adding the zigzag-decoded pairs one after the other. -/
def running_positions : Int × Int → List (Nat × Nat) → List (Int × Int)
  | _, [] => []
  | p, d :: ds =>
    (p.1 + decode_zigzag32 d.1, p.2 + decode_zigzag32 d.2) ::
      running_positions (p.1 + decode_zigzag32 d.1, p.2 + decode_zigzag32 d.2) ds

/-- Position after adding all the pairs to `p`. -/
def final_position : Int × Int → List (Nat × Nat) → Int × Int
  | p, [] => p
  | p, d :: ds => final_position (p.1 + decode_zigzag32 d.1, p.2 + decode_zigzag32 d.2) ds

/-- The operations a complete stream stands for, from running position `p`. -/
def stream_ops : Int × Int → List geometry_command → List mvt_geometry
  | _, [] => []
  | p, .draw op pairs :: cs =>
    (running_positions p pairs).map (fun q => { op := (op : Int), x := q.1, y := q.2 }) ++
      stream_ops (final_position p pairs) cs
  | p, .other word :: cs =>
    { op := ((word &&& 7 : Nat) : Int), x := 0, y := 0 } :: stream_ops p cs

/-- MoveTo or LineTo operation. -/
def is_draw (o : mvt_geometry) : Bool := decide (o.op = mvt_moveto ∨ o.op = mvt_lineto)

instance (c : geometry_command) : Decidable (complete_command c) := by
  cases c <;> unfold complete_command <;> infer_instance

/-! ### Sample inputs for the index rebuilt by `decode` -/

/-- A Layer message with the key `a` twice and the value `uint64 5` twice. -/
def duplicate_fields : pbf_message :=
  [(3, .string "a"), (3, .string "a"),
   (4, .message [(5, .varint 5)]), (4, .message [(5, .varint 5)])]

/-- The layer `decode` builds from `duplicate_fields`: `std::map::insert`
left the entry of position 0 in both indexes. -/
def duplicate_layer : mvt_layer :=
  { version := 2, name := "", features := [], keys := ["a", "a"],
    values := [.uint64 5, .uint64 5], extent := 4096,
    key_map := [("a", 0)], value_map := [(.uint64 5, 0)] }

/-! ### Values: alternatives of the variant -/

/-- One of the six alternatives that `decode` assigns: string, float, double,
int64, uint64, bool. -/
def closed_value : mvt_value → Prop
  | .string _ => True
  | .float _ => True
  | .double _ => True
  | .int64 _ => True
  | .uint64 _ => True
  | .bool _ => True
  | .null => False
  | .vector => False
  | .map => False

instance (v : mvt_value) : Decidable (closed_value v) := by
  cases v <;> unfold closed_value <;> infer_instance

/-- The alternative of the variant that a value holds, numbered in the order
of the visitors. -/
def value_kind : mvt_value → Nat
  | .string _ => 0
  | .float _ => 1
  | .double _ => 2
  | .int64 _ => 3
  | .uint64 _ => 4
  | .bool _ => 5
  | .null => 6
  | .vector => 7
  | .map => 8

/-- The number that a sequence of decimal digits stands for, most significant digit first. -/
def digits_value (cs : List Char) : Nat :=
  cs.foldl (fun acc c => 10 * acc + (c.toNat - 48)) 0

/-! ### Nested messages of the wire, in order -/

/-- The Feature messages (field 2) of a Layer message, in wire order. -/
def feature_messages : pbf_message → List pbf_message
  | [] => []
  | (2, .message fields) :: fs => fields :: feature_messages fs
  | _ :: fs => feature_messages fs

/-- The Layer messages (field 3) of a tile message, in wire order. -/
def layer_messages : pbf_message → List pbf_message
  | [] => []
  | (3, .message fields) :: fs => fields :: layer_messages fs
  | _ :: fs => layer_messages fs

/-! ## Theorems -/

theorem toInt32_of_fits {v : Int} (h : fits_int32 v) : toInt32 v = v := by
  unfold fits_int32 at h
  unfold toInt32
  split_ifs <;> omega

theorem toInt32_sub_toInt32 (a b : Int) : toInt32 (a - toInt32 b) = toInt32 (a - b) := by
  unfold toInt32
  split_ifs <;> omega

theorem fits_toInt32 (v : Int) : fits_int32 (toInt32 v) := by
  unfold fits_int32 toInt32
  split_ifs <;> omega

theorem decode_encode_zigzag32 {v : Int} (h : fits_int32 v) :
    decode_zigzag32 (encode_zigzag32 v) = v := by
  unfold fits_int32 at h
  unfold decode_zigzag32 encode_zigzag32 toUInt32
  split_ifs <;> omega

theorem command_word_eq (n : Nat) (c : Int) (hn : n < 2 ^ 28)
    (hc : c = 1 ∨ c = 2 ∨ c = 7) :
    command_word (n : Int) c = (n <<< 3) ||| c.toNat := by
  have h8 : ((n : Int) <<< (3 : Int)) = ((n * 8 : Nat) : Int) := by
    have := Int.shiftLeft_eq_mul_pow (n : Int) 3
    simpa using this
  have hfit : toInt32 ((n * 8 : Nat) : Int) = ((n * 8 : Nat) : Int) := by
    apply toInt32_of_fits
    unfold fits_int32
    push_cast
    omega
  have hland : Int.land c ((1 <<< (3 : Int)) - 1) = ((c.toNat : Nat) : Int) := by
    rcases hc with rfl | rfl | rfl <;> decide
  unfold command_word
  rw [h8, hfit, hland]
  have hlor : Int.lor ((n * 8 : Nat) : Int) ((c.toNat : Nat) : Int)
      = (((n * 8) ||| c.toNat : Nat) : Int) := rfl
  rw [hlor]
  have hlt : (n * 8) ||| c.toNat < 2 ^ 32 := by
    apply Nat.or_lt_two_pow
    · omega
    · rcases hc with rfl | rfl | rfl <;> decide
  unfold toUInt32
  rw [Nat.shiftLeft_eq]
  have : (((n * 8) ||| c.toNat : Nat) : Int) % 4294967296
      = (((n * 8) ||| c.toNat : Nat) : Int) := by
    omega
  rw [this]
  simp

theorem word_or_eq_add (n op : Nat) (hop : op < 8) : (n <<< 3) ||| op = n * 8 + op := by
  have h := Nat.mul_add_lt_is_or (i := 3) (b := op) (by simpa using hop) n
  rw [Nat.shiftLeft_eq, Nat.mul_comm n (2 ^ 3), ← h]

theorem word_and_seven (w : Nat) : w &&& 7 = w % 8 := by
  have := Nat.and_pow_two_sub_one_eq_mod w 3
  simpa using this

theorem word_shift_three (w : Nat) : w >>> 3 = w / 8 := by
  rw [Nat.shiftRight_eq_div_pow]

theorem runs_cons_eq (g : mvt_geometry) (gs : List mvt_geometry) :
    runs (g :: gs) =
      match runs gs with
      | [] => [[g]]
      | [] :: rs => [g] :: rs
      | (h :: t) :: rs =>
        if g.op = h.op then (g :: h :: t) :: rs else [g] :: (h :: t) :: rs := rfl

theorem runs_ne_nil (l : List mvt_geometry) : ∀ r ∈ runs l, r ≠ [] := by
  induction l with
  | nil => intro r hr; simp [runs] at hr
  | cons g gs ih =>
    intro r hr
    rw [runs_cons_eq] at hr
    cases hgs : runs gs with
    | nil => rw [hgs] at hr; simp at hr; simp [hr]
    | cons r0 rs =>
      rw [hgs] at hr ih
      cases r0 with
      | nil => exact absurd rfl (ih [] (by simp))
      | cons h t =>
        simp only at hr
        split_ifs at hr with hop
        · rcases List.mem_cons.1 hr with rfl | hr1
          · simp
          · exact ih r (List.mem_cons_of_mem _ hr1)
        · rcases List.mem_cons.1 hr with rfl | hr1
          · simp
          · exact ih r hr1

theorem runs_flatten (l : List mvt_geometry) : (runs l).flatten = l := by
  induction l with
  | nil => rfl
  | cons g gs ih =>
    rw [runs_cons_eq]
    cases hgs : runs gs with
    | nil => rw [hgs] at ih; simp at ih; simp [← ih]
    | cons r0 rs =>
      rw [hgs] at ih
      cases r0 with
      | nil => simp at ih ⊢; exact ih
      | cons h t =>
        simp only
        split_ifs with hop
        · simp at ih ⊢; exact ih
        · simp at ih ⊢; exact ih

theorem runs_uniform (l : List mvt_geometry) :
    ∀ r ∈ runs l, ∀ a ∈ r, ∀ b ∈ r, a.op = b.op := by
  induction l with
  | nil => intro r hr; simp [runs] at hr
  | cons g gs ih =>
    intro r hr
    rw [runs_cons_eq] at hr
    cases hgs : runs gs with
    | nil =>
      rw [hgs] at hr; simp at hr; subst hr
      intro a ha b hb; simp at ha hb; rw [ha, hb]
    | cons r0 rs =>
      rw [hgs] at hr ih
      cases r0 with
      | nil =>
        simp only at hr
        rcases List.mem_cons.1 hr with rfl | hr1
        · intro a ha b hb; simp at ha hb; rw [ha, hb]
        · exact ih r (List.mem_cons_of_mem _ hr1)
      | cons h t =>
        simp only at hr
        have hu := ih (h :: t) (by simp)
        split_ifs at hr with hop
        · rcases List.mem_cons.1 hr with rfl | hr1
          · have key : ∀ a ∈ g :: h :: t, a.op = h.op := by
              intro a ha
              rcases List.mem_cons.1 ha with rfl | ha1
              · exact hop
              · exact hu a ha1 h (by simp)
            intro a ha b hb
            rw [key a ha, key b hb]
          · exact ih r (List.mem_cons_of_mem _ hr1)
        · rcases List.mem_cons.1 hr with rfl | hr1
          · intro a ha b hb; simp at ha hb; rw [ha, hb]
          · exact ih r hr1

theorem runs_head (h : mvt_geometry) (t : List mvt_geometry) :
    ∃ t1 rs, runs (h :: t) = (h :: t1) :: rs := by
  rw [runs_cons_eq]
  cases hgs : runs t with
  | nil => exact ⟨[], [], rfl⟩
  | cons r0 rs =>
    cases r0 with
    | nil => exact ⟨[], rs, rfl⟩
    | cons a b =>
      simp only
      split_ifs with hop
      · exact ⟨a :: b, rs, rfl⟩
      · exact ⟨[], (a :: b) :: rs, rfl⟩

theorem runs_append (c : Int) (run l : List mvt_geometry) (hne : run ≠ [])
    (hrun : ∀ a ∈ run, a.op = c) (hl : ∀ h ∈ l.head?, h.op ≠ c) :
    runs (run ++ l) = run :: runs l := by
  induction run with
  | nil => exact absurd rfl hne
  | cons a rest ih =>
    have ha : a.op = c := hrun a (by simp)
    cases rest with
    | nil =>
      cases l with
      | nil => rfl
      | cons h t =>
        obtain ⟨t1, rs, hrs⟩ := runs_head h t
        have hh : h.op ≠ c := hl h (by simp)
        show runs (a :: h :: t) = [a] :: runs (h :: t)
        rw [runs_cons_eq, hrs]
        simp only
        rw [if_neg]
        rw [ha]
        exact fun e => hh e.symm
    | cons b rest1 =>
      have ih1 := ih (by simp) (fun x hx => hrun x (List.mem_cons_of_mem _ hx))
      have hb : b.op = c := hrun b (by simp)
      show runs (a :: ((b :: rest1) ++ l)) = (a :: b :: rest1) :: runs l
      rw [runs_cons_eq, ih1]
      simp only
      rw [if_pos (by rw [ha, hb])]

theorem runs_single_run (c : Int) (run : List mvt_geometry) (hne : run ≠ [])
    (hrun : ∀ a ∈ run, a.op = c) : runs run = [run] := by
  have := runs_append c run [] hne hrun (by simp)
  simpa [runs] using this

theorem runs_maximal (l : List mvt_geometry) :
    List.Chain' (fun r1 r2 => ∀ a ∈ r1, ∀ b ∈ r2, a.op ≠ b.op) (runs l) := by
  induction l with
  | nil => simp [runs]
  | cons g gs ih =>
    have hu := runs_uniform gs
    rw [runs_cons_eq]
    cases hgs : runs gs with
    | nil => simp
    | cons r0 rs =>
      rw [hgs] at ih hu
      cases r0 with
      | nil =>
        exact absurd rfl (runs_ne_nil gs [] (by rw [hgs]; simp))
      | cons h t =>
        simp only
        have hu0 := hu (h :: t) (by simp)
        split_ifs with hop
        · cases rs with
          | nil => simp
          | cons r1 rs1 =>
            rw [List.chain'_cons] at ih ⊢
            refine ⟨?_, ih.2⟩
            intro a ha b hb
            rcases List.mem_cons.1 ha with rfl | ha1
            · rw [hop]; exact ih.1 h (by simp) b hb
            · exact ih.1 a ha1 b hb
        · rw [List.chain'_cons]
          refine ⟨?_, ih⟩
          intro a ha b hb
          simp at ha
          subst ha
          rw [hu0 b hb h (by simp)]
          exact hop

theorem no_adjacent_closepath_chain (l : List mvt_geometry) (h : no_adjacent_closepath l) :
    List.Chain' (fun a b => ¬(a.op = mvt_closepath ∧ b.op = mvt_closepath)) l := by
  induction l with
  | nil => simp
  | cons a t ih =>
    cases t with
    | nil => simp
    | cons b t1 =>
      rw [List.chain'_cons]
      exact ⟨h.1, ih h.2⟩

theorem runs_closepath_chain (l : List mvt_geometry)
    (hl : List.Chain' (fun a b => ¬(a.op = mvt_closepath ∧ b.op = mvt_closepath)) l) :
    ∀ r ∈ runs l, ∀ a ∈ r, a.op = mvt_closepath → r = [a] := by
  induction l with
  | nil => intro r hr; simp [runs] at hr
  | cons g gs ih =>
    have hfl := runs_flatten gs
    have hu := runs_uniform gs
    have ih1 := ih (List.Chain'.tail hl)
    intro r hr
    rw [runs_cons_eq] at hr
    cases hgs : runs gs with
    | nil =>
      rw [hgs] at hr; simp at hr; subst hr
      intro a ha _; simp at ha; rw [ha]
    | cons r0 rs =>
      rw [hgs] at hr ih1 hfl hu
      cases r0 with
      | nil => exact absurd rfl (runs_ne_nil gs [] (by rw [hgs]; simp))
      | cons h t =>
        simp only at hr
        split_ifs at hr with hop
        · rcases List.mem_cons.1 hr with rfl | hr1
          · intro a ha hac
            exfalso
            have hgs2 : gs = h :: (t ++ rs.flatten) := by
              rw [← hfl]; simp
            rw [hgs2] at hl
            have hR := (List.chain'_cons.1 hl).1
            have hah : a.op = h.op := by
              rcases List.mem_cons.1 ha with rfl | ha1
              · exact hop
              · exact hu (h :: t) (by simp) a ha1 h (by simp)
            exact hR ⟨by rw [hop, ← hah]; exact hac, by rw [← hah]; exact hac⟩
          · exact ih1 r (List.mem_cons_of_mem _ hr1)
        · rcases List.mem_cons.1 hr with rfl | hr1
          · intro a ha _; simp at ha; rw [ha]
          · exact ih1 r hr1

theorem runs_closepath_single (l : List mvt_geometry) (hl : no_adjacent_closepath l) :
    ∀ r ∈ runs l, ∀ a ∈ r, a.op = mvt_closepath → r = [a] :=
  runs_closepath_chain l (no_adjacent_closepath_chain l hl)

theorem coord_words_append (p : Int × Int) (a b : List mvt_geometry) :
    coord_words p (a ++ b) = coord_words p a ++ coord_words (end_pos p a) b := by
  induction a generalizing p with
  | nil => rfl
  | cons g gs ih => simp [coord_words, end_pos, ih]

theorem end_pos_append (p : Int × Int) (a b : List mvt_geometry) :
    end_pos p (a ++ b) = end_pos (end_pos p a) b := by
  induction a generalizing p with
  | nil => rfl
  | cons g gs ih => simp [end_pos, ih]

theorem deltas_fit_append (p : Int × Int) (a b : List mvt_geometry) :
    deltas_fit p (a ++ b) ↔ deltas_fit p a ∧ deltas_fit (end_pos p a) b := by
  induction a generalizing p with
  | nil => simp [deltas_fit, end_pos]
  | cons g gs ih => simp [deltas_fit, end_pos, ih, and_assoc]

theorem set_slot (closed : List Nat) (v w : Nat) (t : List Nat) :
    (closed ++ v :: t).set closed.length w = closed ++ w :: t := by
  induction closed with
  | nil => rfl
  | cons a l ih => simp [List.set, ih]

theorem pack_runs_single (q : Int × Int) (g : mvt_geometry) (t : List mvt_geometry) :
    pack_runs q [g :: t]
      = (((g :: t).length <<< 3) ||| g.op.toNat) :: coord_words q (g :: t) := by
  simp [pack_runs]

theorem pack_runs_cons (q : Int × Int) (run : List mvt_geometry) (rs : List (List mvt_geometry))
    (hne : run ≠ []) :
    pack_runs q (run :: rs) = pack_runs q [run] ++ pack_runs (end_pos q run) rs := by
  cases run with
  | nil => exact absurd rfl hne
  | cons g t => simp [pack_runs]

theorem enc_patch_eq {s : encode_state} {closed : List Nat} {q : Int × Int}
    {run : List mvt_geometry} (h : enc_inv s closed q run) (hlen : run.length < 2 ^ 28) :
    encode_patch s = closed ++ pack_runs q [run] := by
  unfold encode_patch
  have hidx : s.cmd_idx ≥ 0 := by rw [h.cmd_idx]; exact Int.natCast_nonneg _
  rw [if_pos hidx, h.geometry, h.cmd_idx, Int.toNat_natCast, set_slot, h.length]
  cases run with
  | nil => exact absurd rfl h.run_ne
  | cons g t =>
    have hg : g.op = s.cmd := h.run_op g (by simp)
    rw [pack_runs_single, command_word_eq _ _ hlen h.cmd_ok, hg]

theorem toInt32_natCast_succ (n : Nat) (h : n + 1 < 2 ^ 28) :
    toInt32 ((n : Int) + 1) = ((n + 1 : Nat) : Int) := by
  apply toInt32_of_fits
  unfold fits_int32
  push_cast
  omega

theorem coord_words_single (p : Int × Int) (g : mvt_geometry) :
    coord_words p [g] = op_words p g := by
  simp [coord_words]

theorem op_words_length_le (p : Int × Int) (g : mvt_geometry) : (op_words p g).length ≤ 2 := by
  unfold op_words
  split_ifs <;> simp

/-- Effect of one encoder iteration once the command word is settled. -/
theorem encode_op_same {s : encode_state} {o : mvt_geometry} (hv : valid_op o.op)
    (hsame : o.op = s.cmd) (p : Int × Int) (hpx : s.px = toInt32 p.1) (hpy : s.py = toInt32 p.2) :
    encode_op s o = some { s with
      geometry := s.geometry ++ op_words p o,
      px := toInt32 (op_end p o).1, py := toInt32 (op_end p o).2,
      length := toInt32 (s.length + 1) } := by
  unfold encode_op
  simp only [ne_eq, hsame, not_true_eq_false, if_false]
  by_cases hml : s.cmd = mvt_moveto ∨ s.cmd = mvt_lineto
  · have hml1 : o.op = mvt_moveto ∨ o.op = mvt_lineto := by rw [hsame]; exact hml
    simp only [hml, if_true, op_words, op_end, hml1, hpx, hpy, toInt32_sub_toInt32]
  · have hml1 : ¬(o.op = mvt_moveto ∨ o.op = mvt_lineto) := by rw [hsame]; exact hml
    have hc : s.cmd = mvt_closepath := by
      rw [hsame] at hv
      rcases hv with h | h | h
      · exact absurd (Or.inl h) hml
      · exact absurd (Or.inr h) hml
      · exact h
    simp only [hml, if_false, hc, if_true, op_words, op_end, hml1, List.append_nil]
    rw [if_neg (by decide), hpx, hpy]

theorem enc_step_same {s : encode_state} {closed : List Nat} {q : Int × Int}
    {run : List mvt_geometry} {o : mvt_geometry} (h : enc_inv s closed q run)
    (hv : valid_op o.op) (hsame : o.op = s.cmd) (hlen : run.length + 1 < 2 ^ 28) :
    ∃ s1, encode_op s o = some s1 ∧ enc_inv s1 closed q (run ++ [o]) ∧
      s1.geometry.length ≤ s.geometry.length + 3 := by
  refine ⟨_, encode_op_same hv hsame (end_pos q run) h.px h.py, ?_, ?_⟩
  · constructor
    · show s.geometry ++ op_words (end_pos q run) o = closed ++ 0 :: coord_words q (run ++ [o])
      rw [h.geometry, coord_words_append, coord_words_single]
      simp
    · exact h.cmd_idx
    · exact h.cmd_ok
    · simp
    · intro a ha
      rcases List.mem_append.1 ha with ha1 | ha1
      · exact h.run_op a ha1
      · simp at ha1; rw [ha1]; exact hsame
    · show toInt32 (s.length + 1) = ((run ++ [o]).length : Int)
      rw [h.length, toInt32_natCast_succ _ hlen]
      simp
    · show toInt32 (op_end (end_pos q run) o).1 = toInt32 (end_pos q (run ++ [o])).1
      rw [end_pos_append]; rfl
    · show toInt32 (op_end (end_pos q run) o).2 = toInt32 (end_pos q (run ++ [o])).2
      rw [end_pos_append]; rfl
  · show (s.geometry ++ op_words (end_pos q run) o).length ≤ s.geometry.length + 3
    have := op_words_length_le (end_pos q run) o
    simp
    omega

theorem encode_op_new {s : encode_state} {o : mvt_geometry}
    (hnew : o.op ≠ s.cmd) :
    encode_op s o = encode_op (encode_open s o.op) o := by
  have e : (encode_open s o.op).cmd = o.op := rfl
  unfold encode_op
  simp only [ne_eq, hnew, not_false_eq_true, if_true, e, not_true_eq_false, if_false]
  rfl

theorem enc_step_open (s1 : encode_state) (closed1 : List Nat) (p : Int × Int) {o : mvt_geometry}
    (hv : valid_op o.op) (hg : s1.geometry = closed1 ++ [0]) (hidx : s1.cmd_idx = (closed1.length : Int))
    (hcmd : s1.cmd = o.op) (hlen : s1.length = 0)
    (hpx : s1.px = toInt32 p.1) (hpy : s1.py = toInt32 p.2) :
    ∃ s2, encode_op s1 o = some s2 ∧ enc_inv s2 closed1 p [o] ∧
      s2.geometry.length ≤ s1.geometry.length + 2 := by
  refine ⟨_, encode_op_same hv hcmd.symm p hpx hpy, ?_, ?_⟩
  · constructor
    · show s1.geometry ++ op_words p o = closed1 ++ 0 :: coord_words p [o]
      rw [hg, coord_words_single]; simp
    · exact hidx
    · show valid_op s1.cmd
      rw [hcmd]; exact hv
    · simp
    · intro a ha; simp at ha; rw [ha]; exact hcmd.symm
    · show toInt32 (s1.length + 1) = (([o] : List mvt_geometry).length : Int)
      rw [hlen]
      exact toInt32_of_fits (by unfold fits_int32; omega)
    · rfl
    · rfl
  · show (s1.geometry ++ op_words p o).length ≤ s1.geometry.length + 2
    have := op_words_length_le p o
    simp
    omega

theorem encode_patch_length (s : encode_state) : (encode_patch s).length = s.geometry.length := by
  unfold encode_patch
  split_ifs <;> simp

theorem toInt32_natCast (n : Nat) (h : n < 2 ^ 31) : toInt32 (n : Int) = (n : Int) := by
  apply toInt32_of_fits
  unfold fits_int32
  omega

theorem enc_step_new {s : encode_state} {closed : List Nat} {q : Int × Int}
    {run : List mvt_geometry} {o : mvt_geometry} (h : enc_inv s closed q run)
    (hv : valid_op o.op) (hnew : o.op ≠ s.cmd) (hlen : run.length < 2 ^ 28)
    (hsize : s.geometry.length < 2 ^ 31) :
    ∃ s2, encode_op s o = some s2 ∧
      enc_inv s2 (closed ++ pack_runs q [run]) (end_pos q run) [o] ∧
      s2.geometry.length ≤ s.geometry.length + 3 := by
  rw [encode_op_new hnew]
  have hpatch := enc_patch_eq h hlen
  have hplen := encode_patch_length s
  obtain ⟨s2, h1, h2, h3⟩ := enc_step_open (encode_open s o.op)
    (closed ++ pack_runs q [run]) (end_pos q run) hv
    (by show encode_patch s ++ [0] = _; rw [hpatch])
    (by
      have e : (encode_open s o.op).cmd_idx = toInt32 ((encode_patch s).length : Int) := rfl
      rw [e, toInt32_natCast _ (by rw [hplen]; exact hsize), hpatch])
    rfl rfl h.px h.py
  refine ⟨s2, h1, h2, ?_⟩
  have : (encode_open s o.op).geometry.length = s.geometry.length + 1 := by
    show (encode_patch s ++ [0]).length = _
    simp [hplen]
  omega

theorem enc_step_first {o : mvt_geometry} (hv : valid_op o.op) :
    ∃ s2, encode_op encode_init o = some s2 ∧ enc_inv s2 [] (0, 0) [o] ∧
      s2.geometry.length ≤ 3 := by
  have hnew : o.op ≠ encode_init.cmd := by
    show o.op ≠ -1
    rcases hv with h | h | h <;> rw [h] <;> decide
  rw [encode_op_new hnew]
  obtain ⟨s2, h1, h2, h3⟩ := enc_step_open (encode_open encode_init o.op)
    [] (0, 0) hv rfl
    (by
      have e : (encode_open encode_init o.op).cmd_idx = toInt32 ((0 : Nat) : Int) := rfl
      rw [e]
      exact toInt32_of_fits (by unfold fits_int32; simp))
    rfl rfl
    (by show (0 : Int) = toInt32 0
        exact (toInt32_of_fits (by unfold fits_int32; omega)).symm)
    (by show (0 : Int) = toInt32 0
        exact (toInt32_of_fits (by unfold fits_int32; omega)).symm)
  refine ⟨s2, h1, h2, ?_⟩
  have : (encode_open encode_init o.op).geometry.length = 1 := rfl
  omega

theorem enc_loop_runs (ops : List mvt_geometry) :
    ∀ (s : encode_state) (closed : List Nat) (q : Int × Int) (run : List mvt_geometry),
      enc_inv s closed q run → (∀ o ∈ ops, valid_op o.op) →
      run.length + ops.length < 2 ^ 28 → s.geometry.length + 3 * ops.length < 2 ^ 31 →
      ∃ s1, encode_loop s ops = some s1 ∧
        encode_patch s1 = closed ++ pack_runs q (runs (run ++ ops)) := by
  induction ops with
  | nil =>
    intro s closed q run h _ hlen _
    refine ⟨s, rfl, ?_⟩
    rw [enc_patch_eq h (by simpa using hlen), List.append_nil,
      runs_single_run s.cmd run h.run_ne h.run_op]
  | cons o rest ih =>
    intro s closed q run h hv hlen hsize
    have hvo : valid_op o.op := hv o (by simp)
    have hvr : ∀ x ∈ rest, valid_op x.op := fun x hx => hv x (List.mem_cons_of_mem _ hx)
    simp only [List.length_cons] at hlen hsize
    by_cases hsame : o.op = s.cmd
    · obtain ⟨s1, h1, h2, h3⟩ := enc_step_same h hvo hsame (by omega)
      obtain ⟨s2, h4, h5⟩ := ih s1 closed q (run ++ [o]) h2 hvr
        (by simp; omega) (by omega)
      refine ⟨s2, ?_, ?_⟩
      · simp only [encode_loop, h1]; exact h4
      · rw [h5]; simp
    · obtain ⟨s1, h1, h2, h3⟩ := enc_step_new h hvo hsame (by omega) (by omega)
      obtain ⟨s2, h4, h5⟩ := ih s1 (closed ++ pack_runs q [run]) (end_pos q run) [o] h2 hvr
        (by simp; omega) (by omega)
      refine ⟨s2, ?_, ?_⟩
      · simp only [encode_loop, h1]; exact h4
      · rw [h5, runs_append s.cmd run (o :: rest) h.run_ne h.run_op
          (by intro x hx; simp at hx; subst hx; exact hsame),
          pack_runs_cons q run (runs (o :: rest)) h.run_ne]
        simp

theorem encode_geometry_eq_pack_runs (geom : List mvt_geometry)
    (hv : ∀ o ∈ geom, valid_op o.op) (hlen : geom.length < 2 ^ 28) :
    encode_geometry geom = some (pack_runs (0, 0) (runs geom)) := by
  unfold encode_geometry
  cases geom with
  | nil => rfl
  | cons o rest =>
    obtain ⟨s1, h1, h2, h3⟩ := enc_step_first (hv o (by simp))
    simp only [List.length_cons] at hlen
    obtain ⟨s2, h4, h5⟩ := enc_loop_runs rest s1 [] (0, 0) [o] h2
      (fun x hx => hv x (List.mem_cons_of_mem _ hx)) (by simp; omega) (by omega)
    simp only [encode_loop, h1, h4, h5]
    simp

theorem getElem_append_head (A : List Nat) (x : Nat) (t : List Nat) (i : Nat)
    (hi : i < (A ++ x :: t).length) (h : i = A.length) : (A ++ x :: t)[i] = x := by
  subst h
  rw [List.getElem_append_right (by simp)]
  simp

theorem getElem_append_second (A : List Nat) (x y : Nat) (t : List Nat) (i : Nat)
    (hi : i < (A ++ x :: y :: t).length) (h : i = A.length + 1) :
    (A ++ x :: y :: t)[i] = y := by
  subst h
  have : A ++ x :: y :: t = (A ++ [x]) ++ y :: t := by simp
  simp only [this]
  rw [List.getElem_append_right (by simp)]
  simp

theorem coord_words_length (op : Int) (hop : op = mvt_moveto ∨ op = mvt_lineto)
    (run : List mvt_geometry) (hrun : ∀ a ∈ run, a.op = op) (p : Int × Int) :
    (coord_words p run).length = 2 * run.length := by
  induction run generalizing p with
  | nil => rfl
  | cons o rest ih =>
    have ho : o.op = mvt_moveto ∨ o.op = mvt_lineto := by rw [hrun o (by simp)]; exact hop
    have := ih (fun a ha => hrun a (List.mem_cons_of_mem _ ha)) (op_end p o)
    simp [coord_words, op_words, ho, this]
    omega

theorem decode_coords_run (op : Nat) (hop : (op : Int) = mvt_moveto ∨ (op : Int) = mvt_lineto)
    (W : List Nat) :
    ∀ (run : List mvt_geometry) (A B : List Nat) (p : Int × Int) (out : List mvt_geometry)
      (g k : Nat),
      W = A ++ (coord_words p run ++ B) → A.length = g + 1 →
      (∀ a ∈ run, a.op = (op : Int)) → deltas_fit p run →
      decode_coords W op (run.length + k) { g := g, px := p.1, py := p.2, geometry := out }
        = decode_coords W op k
            { g := g + 2 * run.length, px := (end_pos p run).1, py := (end_pos p run).2,
              geometry := out ++ run } := by
  intro run
  induction run with
  | nil =>
    intro A B p out g k _ _ _ _
    simp [end_pos]
  | cons o rest ih =>
    intro A B p out g k hW hA hrun hfit
    have ho : o.op = (op : Int) := hrun o (by simp)
    have ho1 : o.op = mvt_moveto ∨ o.op = mvt_lineto := by rw [ho]; exact hop
    have hWo : W = A ++ encode_zigzag32 (toInt32 (o.x - p.1)) ::
        encode_zigzag32 (toInt32 (o.y - p.2)) :: (coord_words (op_end p o) rest ++ B) := by
      rw [hW]; simp [coord_words, op_words, ho1]
    have hlt : g + 2 < W.length := by
      rw [hWo]; simp; omega
    obtain ⟨hf1, hf2⟩ := hfit
    obtain ⟨hfx, hfy⟩ := hf1 ho1
    have hend : op_end p o = (o.x, o.y) := by simp [op_end, ho1]
    have hcount : (o :: rest).length + k = (rest.length + k) + 1 := by simp; omega
    rw [hcount, decode_coords]
    simp only
    rw [dif_pos hlt]
    have e1 : W[g + 1] = encode_zigzag32 (toInt32 (o.x - p.1)) := by
      have := getElem_append_head A (encode_zigzag32 (toInt32 (o.x - p.1)))
        (encode_zigzag32 (toInt32 (o.y - p.2)) :: (coord_words (op_end p o) rest ++ B))
        (g + 1) (by rw [← hWo]; omega) hA.symm
      simpa [← hWo] using this
    have e2 : W[g + 2] = encode_zigzag32 (toInt32 (o.y - p.2)) := by
      have := getElem_append_second A (encode_zigzag32 (toInt32 (o.x - p.1)))
        (encode_zigzag32 (toInt32 (o.y - p.2))) (coord_words (op_end p o) rest ++ B)
        (g + 2) (by rw [← hWo]; omega) (by omega)
      simpa [← hWo] using this
    rw [e1, e2, toInt32_of_fits hfx, toInt32_of_fits hfy, decode_encode_zigzag32 hfx,
      decode_encode_zigzag32 hfy]
    have hx : p.1 + (o.x - p.1) = o.x := by ring
    have hy : p.2 + (o.y - p.2) = o.y := by ring
    rw [hx, hy]
    have hoo : ({ op := (op : Int), x := o.x, y := o.y } : mvt_geometry) = o := by
      cases o; simp at ho ⊢; exact ho.symm
    rw [hoo]
    have := ih (A ++ [encode_zigzag32 (toInt32 (o.x - p.1)),
        encode_zigzag32 (toInt32 (o.y - p.2))]) B (op_end p o) (out ++ [o]) (g + 2) k
      (by rw [hWo]; simp) (by simp; omega)
      (fun a ha => hrun a (List.mem_cons_of_mem _ ha)) hf2
    rw [hend] at this
    simp only at this
    rw [this]
    simp only [end_pos, hend, List.length_cons]
    congr 2
    · omega
    · simp

theorem decode_loop_succ (W : List Nat) (fuel : Nat) (c : decode_cursor) (h : c.g < W.length) :
    decode_loop W (fuel + 1) c =
      if ((W[c.g] &&& 7 : Nat) : Int) = mvt_moveto ∨ ((W[c.g] &&& 7 : Nat) : Int) = mvt_lineto then
        decode_loop W fuel
          { decode_coords W (W[c.g] &&& 7) (W[c.g] >>> 3) c with
            g := (decode_coords W (W[c.g] &&& 7) (W[c.g] >>> 3) c).g + 1 }
      else
        decode_loop W fuel
          { c with g := c.g + 1,
                   geometry := c.geometry ++ [{ op := ((W[c.g] &&& 7 : Nat) : Int), x := 0, y := 0 }] } := by
  rw [decode_loop]
  simp only [dif_pos h]

theorem decode_loop_done (W : List Nat) (fuel : Nat) (c : decode_cursor) (h : ¬ c.g < W.length) :
    decode_loop W fuel c = some c.geometry := by
  cases fuel <;> rw [decode_loop] <;> simp only [dif_neg h]

/-- One outer iteration over a complete MoveTo or LineTo command. -/
theorem decode_loop_run (op : Nat) (hop : (op : Int) = mvt_moveto ∨ (op : Int) = mvt_lineto)
    (W A B : List Nat) (run : List mvt_geometry) (p : Int × Int) (out : List mvt_geometry)
    (fuel : Nat)
    (hW : W = A ++ ((run.length <<< 3) ||| op) :: (coord_words p run ++ B))
    (hrun : ∀ a ∈ run, a.op = (op : Int)) (hfit : deltas_fit p run) :
    decode_loop W (fuel + 1) { g := A.length, px := p.1, py := p.2, geometry := out }
      = decode_loop W fuel
          { g := A.length + 1 + 2 * run.length, px := (end_pos p run).1,
            py := (end_pos p run).2, geometry := out ++ run } := by
  have hop8 : op < 8 := by
    rcases hop with h | h
    · have : (op : Int) = 1 := h
      omega
    · have : (op : Int) = 2 := h
      omega
  have hlt : A.length < W.length := by rw [hW]; simp
  have hword : W[A.length] = (run.length <<< 3) ||| op :=
    getElem_append_head A _ _ A.length (by rw [← hW]; exact hlt) rfl |> fun h => by
      simpa [← hW] using h
  rw [decode_loop_succ W fuel _ hlt]
  simp only [hword]
  have h7 : ((run.length <<< 3) ||| op) &&& 7 = op := by
    rw [word_and_seven, word_or_eq_add _ _ hop8]; omega
  have h3 : ((run.length <<< 3) ||| op) >>> 3 = run.length := by
    rw [word_shift_three, word_or_eq_add _ _ hop8]; omega
  rw [h7, h3, if_pos hop]
  have := decode_coords_run op hop W run (A ++ [(run.length <<< 3) ||| op]) B p out
    A.length 0 (by rw [hW]; simp) (by simp) hrun hfit
  simp only [Nat.add_zero] at this
  rw [this]
  simp only [decode_coords]
  congr 2
  omega

/-- One outer iteration over a command word whose opcode is neither MoveTo
nor LineTo. -/
theorem decode_loop_other (W A B : List Nat) (w : Nat) (c : decode_cursor) (fuel : Nat)
    (hW : W = A ++ w :: B) (hg : c.g = A.length)
    (hop : ¬(((w &&& 7 : Nat) : Int) = mvt_moveto ∨ ((w &&& 7 : Nat) : Int) = mvt_lineto)) :
    decode_loop W (fuel + 1) c
      = decode_loop W fuel
          { c with g := c.g + 1,
                   geometry := c.geometry ++ [{ op := ((w &&& 7 : Nat) : Int), x := 0, y := 0 }] } := by
  have hlt : c.g < W.length := by rw [hW, hg]; simp
  have hword : W[c.g] = w := by
    have := getElem_append_head A w B c.g (by rw [← hW]; exact hlt) hg
    simpa [← hW] using this
  rw [decode_loop_succ W fuel _ hlt]
  simp only [hword]
  rw [if_neg hop]

theorem decode_loop_pack_runs (W : List Nat) :
    ∀ (rs : List (List mvt_geometry)) (A : List Nat) (p : Int × Int)
      (out : List mvt_geometry) (fuel : Nat),
      W = A ++ pack_runs p rs → runs_ok p rs → rs.length ≤ fuel →
      decode_loop W fuel { g := A.length, px := p.1, py := p.2, geometry := out }
        = some (out ++ rs.flatten) := by
  intro rs
  induction rs with
  | nil =>
    intro A p out fuel hW _ _
    rw [decode_loop_done]
    · simp
    · rw [hW]; simp [pack_runs]
  | cons r rs ih =>
    intro A p out fuel hW hok hfuel
    obtain ⟨hr, hrs⟩ := hok
    cases fuel with
    | zero => simp at hfuel
    | succ f =>
      have hf : rs.length ≤ f := by simpa using hfuel
      rcases hr with ⟨op, hop, hne, huni, hfit⟩ | hclose
      · cases r with
        | nil => exact absurd rfl hne
        | cons g t =>
          have hg : g.op.toNat = op := by rw [huni g (by simp)]; simp
          have hW1 : W = A ++ (((g :: t).length <<< 3) ||| op) ::
              (coord_words p (g :: t) ++ pack_runs (end_pos p (g :: t)) rs) := by
            rw [hW]; simp only [pack_runs, hg]
          rw [decode_loop_run op hop W A _ (g :: t) p out f hW1 huni hfit]
          have hlen := coord_words_length (op : Int) hop (g :: t) huni p
          have := ih (A ++ (((g :: t).length <<< 3) ||| op) :: coord_words p (g :: t))
            (end_pos p (g :: t)) (out ++ (g :: t)) f (by rw [hW1]; simp) hrs hf
          have hidx : (A ++ (((g :: t).length <<< 3) ||| op) :: coord_words p (g :: t)).length
              = A.length + 1 + 2 * (g :: t).length := by
            simp only [List.length_append, List.length_cons, hlen]
            omega
          rw [hidx] at this
          rw [this]
          simp
      · subst hclose
        have hW1 : W = A ++ 15 :: pack_runs p rs := by
          rw [hW]; simp [pack_runs, coord_words, op_words, end_pos, op_end, mvt_closepath,
            mvt_moveto, mvt_lineto]
        rw [decode_loop_other W A (pack_runs p rs) 15 _ f hW1 rfl (by decide)]
        have hend : end_pos p [{ op := mvt_closepath, x := 0, y := 0 }] = p := by
          simp [end_pos, op_end, mvt_closepath, mvt_moveto, mvt_lineto]
        rw [hend] at hrs
        have := ih (A ++ [15]) p (out ++ [{ op := mvt_closepath, x := 0, y := 0 }]) f
          (by rw [hW1]; simp) hrs hf
        simp only [List.length_append, List.length_singleton] at this
        have h15 : ((15 &&& 7 : Nat) : Int) = mvt_closepath := by decide
        simp only [h15]
        rw [this]
        simp

theorem mem_of_mem_runs {l r : List mvt_geometry} {a : mvt_geometry} (hr : r ∈ runs l)
    (ha : a ∈ r) : a ∈ l := by
  rw [← runs_flatten l]
  exact List.mem_flatten.2 ⟨r, hr, ha⟩

theorem runs_ok_of (rs : List (List mvt_geometry)) :
    ∀ p : Int × Int,
      (∀ r ∈ rs, r ≠ [] ∧ (∀ a ∈ r, ∀ b ∈ r, a.op = b.op) ∧
        ∀ a ∈ r, valid_op a.op ∧ (a.op = mvt_closepath → a.x = 0 ∧ a.y = 0 ∧ r = [a])) →
      deltas_fit p rs.flatten → runs_ok p rs := by
  induction rs with
  | nil => intro p _ _; trivial
  | cons r rs ih =>
    intro p h hfit
    rw [List.flatten_cons, deltas_fit_append] at hfit
    obtain ⟨hne, huni, hall⟩ := h r (by simp)
    refine ⟨?_, ih _ (fun r1 hr1 => h r1 (List.mem_cons_of_mem _ hr1)) hfit.2⟩
    cases r with
    | nil => exact absurd rfl hne
    | cons g t =>
      obtain ⟨hv, hc⟩ := hall g (by simp)
      rcases hv with hm | hm | hm
      · exact Or.inl ⟨1, Or.inl rfl, hne, fun a ha => by rw [huni a ha g (by simp), hm]; rfl,
          hfit.1⟩
      · exact Or.inl ⟨2, Or.inr rfl, hne, fun a ha => by rw [huni a ha g (by simp), hm]; rfl,
          hfit.1⟩
      · obtain ⟨hx, hy, hr⟩ := hc hm
        right
        rw [hr]
        cases g
        simp only at hm hx hy
        rw [hm, hx, hy]

theorem pack_runs_length_ge (rs : List (List mvt_geometry)) :
    ∀ p : Int × Int, (∀ r ∈ rs, r ≠ []) → rs.length ≤ (pack_runs p rs).length := by
  induction rs with
  | nil => intro _ _; simp
  | cons r rs ih =>
    intro p h
    have := ih (end_pos p r) (fun r1 hr1 => h r1 (List.mem_cons_of_mem _ hr1))
    cases r with
    | nil => exact absurd rfl (h [] (by simp))
    | cons g t =>
      simp only [pack_runs, List.length_cons, List.length_append]
      omega

theorem decode_pack_runs (geom : List mvt_geometry)
    (hops : ∀ o ∈ geom, valid_op o.op)
    (hclose : ∀ o ∈ geom, o.op = mvt_closepath → o.x = 0 ∧ o.y = 0)
    (hadj : no_adjacent_closepath geom)
    (hdelta : deltas_fit (0, 0) geom) :
    decode_geometry (pack_runs (0, 0) (runs geom)) = some geom := by
  have hok : runs_ok (0, 0) (runs geom) := by
    apply runs_ok_of
    · intro r hr
      refine ⟨runs_ne_nil geom r hr, runs_uniform geom r hr, ?_⟩
      intro a ha
      have hmem := mem_of_mem_runs hr ha
      refine ⟨hops a hmem, fun hc => ?_⟩
      obtain ⟨hx, hy⟩ := hclose a hmem hc
      exact ⟨hx, hy, runs_closepath_single geom hadj r hr a ha hc⟩
    · rw [runs_flatten]; exact hdelta
  have := decode_loop_pack_runs (pack_runs (0, 0) (runs geom)) (runs geom) [] (0, 0) []
    (pack_runs (0, 0) (runs geom)).length (by simp) hok
    (pack_runs_length_ge _ _ (runs_ne_nil geom))
  rw [runs_flatten] at this
  simpa [decode_geometry] using this

/-- C1. Geometry round trip: a geometry whose opcodes are MoveTo, LineTo or
ClosePath, whose ClosePath operations carry `x = y = 0`, without two adjacent
ClosePath operations, with fewer than `2 ^ 28` operations and whose deltas (each
MoveTo or LineTo against the previous one, the first against the origin) fit in
a signed 32-bit integer, is encoded to a command stream that decodes back to
exactly the same operations; the sample square encodes to
`[9, 10, 10, 18, 10, 0, 0, 10, 15]` and decodes back to itself. -/
theorem geometry_round_trip :
    (∀ geom : List mvt_geometry,
      (∀ o ∈ geom, valid_op o.op) →
      (∀ o ∈ geom, o.op = mvt_closepath → o.x = 0 ∧ o.y = 0) →
      no_adjacent_closepath geom →
      geom.length < 2 ^ 28 →
      deltas_fit (0, 0) geom →
      ∃ ws, encode_geometry geom = some ws ∧ decode_geometry ws = some geom) ∧
    encode_geometry [⟨mvt_moveto, 5, 5⟩, ⟨mvt_lineto, 10, 5⟩, ⟨mvt_lineto, 10, 10⟩,
        ⟨mvt_closepath, 0, 0⟩] = some [9, 10, 10, 18, 10, 0, 0, 10, 15] ∧
    decode_geometry [9, 10, 10, 18, 10, 0, 0, 10, 15]
      = some [⟨mvt_moveto, 5, 5⟩, ⟨mvt_lineto, 10, 5⟩, ⟨mvt_lineto, 10, 10⟩,
        ⟨mvt_closepath, 0, 0⟩] := by
  refine ⟨?_, by decide, by decide⟩
  intro geom hops hclose hadj hlen hdelta
  exact ⟨_, encode_geometry_eq_pack_runs geom hops hlen,
    decode_pack_runs geom hops hclose hadj hdelta⟩

/-- Witness of C1 on a path with negative deltas and two subpaths. -/
theorem geometry_round_trip_witness :
    (∀ o ∈ [(⟨1, 3, -4⟩ : mvt_geometry), ⟨2, -7, 9⟩, ⟨7, 0, 0⟩, ⟨1, 100, 100⟩], valid_op o.op) ∧
    (∀ o ∈ [(⟨1, 3, -4⟩ : mvt_geometry), ⟨2, -7, 9⟩, ⟨7, 0, 0⟩, ⟨1, 100, 100⟩],
        o.op = mvt_closepath → o.x = 0 ∧ o.y = 0) ∧
    no_adjacent_closepath [⟨1, 3, -4⟩, ⟨2, -7, 9⟩, ⟨7, 0, 0⟩, ⟨1, 100, 100⟩] ∧
    deltas_fit (0, 0) [⟨1, 3, -4⟩, ⟨2, -7, 9⟩, ⟨7, 0, 0⟩, ⟨1, 100, 100⟩] ∧
    ∃ ws, encode_geometry [⟨1, 3, -4⟩, ⟨2, -7, 9⟩, ⟨7, 0, 0⟩, ⟨1, 100, 100⟩] = some ws ∧
      decode_geometry ws = some [⟨1, 3, -4⟩, ⟨2, -7, 9⟩, ⟨7, 0, 0⟩, ⟨1, 100, 100⟩] :=
  ⟨by decide, by decide, by decide, by decide,
    geometry_round_trip.1 [⟨1, 3, -4⟩, ⟨2, -7, 9⟩, ⟨7, 0, 0⟩, ⟨1, 100, 100⟩]
      (by decide) (by decide) (by decide) (by decide) (by decide)⟩

theorem encode_lineto_run (n : Nat) (geom : List mvt_geometry) (h1 : 1 ≤ n) (hn : n < 2 ^ 28)
    (hlen : geom.length = n) (hall : ∀ o ∈ geom, o.op = mvt_lineto) :
    ∃ ws, encode_geometry geom = some (((n <<< 3) ||| 2) :: ws) ∧ ws.length = 2 * n := by
  have hne : geom ≠ [] := by
    intro h; rw [h] at hlen; simp at hlen; omega
  have henc := encode_geometry_eq_pack_runs geom
    (fun o ho => Or.inr (Or.inl (hall o ho))) (by rw [hlen]; exact hn)
  rw [runs_single_run mvt_lineto geom hne hall] at henc
  cases geom with
  | nil => exact absurd rfl hne
  | cons g t =>
    rw [pack_runs_single, hall g (by simp), hlen] at henc
    exact ⟨_, henc, by rw [coord_words_length mvt_lineto (Or.inr rfl) _ hall, hlen]⟩

/-- C7. Command packing: a geometry with opcodes in MoveTo, LineTo, ClosePath
and fewer than `2 ^ 28` operations is encoded run by run, where the runs are
the maximal blocks of consecutive operations with one opcode (they concatenate
to the geometry, none is empty, each has one opcode, adjacent runs differ in
opcode): each run gives one command word `(run length << 3) | opcode` followed,
for MoveTo and LineTo, by two zigzag-encoded delta words per operation.  A
geometry of `n` LineTo operations, `1 ≤ n < 2 ^ 28`, encodes to `1 + 2 n` words
whose first is `(n << 3) | 2`; for `n = 3` that is `26` and six more words. -/
theorem command_packing :
    (∀ geom : List mvt_geometry,
      (∀ o ∈ geom, valid_op o.op) → geom.length < 2 ^ 28 →
      encode_geometry geom = some (pack_runs (0, 0) (runs geom)) ∧
      (runs geom).flatten = geom ∧
      (∀ r ∈ runs geom, r ≠ [] ∧ ∀ a ∈ r, ∀ b ∈ r, a.op = b.op) ∧
      List.Chain' (fun r1 r2 => ∀ a ∈ r1, ∀ b ∈ r2, a.op ≠ b.op) (runs geom)) ∧
    (∀ (n : Nat) (geom : List mvt_geometry),
      1 ≤ n → n < 2 ^ 28 → geom.length = n → (∀ o ∈ geom, o.op = mvt_lineto) →
      ∃ ws, encode_geometry geom = some ws ∧ ws.length = 1 + 2 * n ∧
        ws.head? = some ((n <<< 3) ||| 2)) ∧
    (∀ a b c : mvt_geometry, a.op = mvt_lineto → b.op = mvt_lineto → c.op = mvt_lineto →
      ∃ w1 w2 w3 w4 w5 w6,
        encode_geometry [a, b, c] = some [26, w1, w2, w3, w4, w5, w6]) := by
  refine ⟨?_, ?_, ?_⟩
  · intro geom hv hlen
    exact ⟨encode_geometry_eq_pack_runs geom hv hlen, runs_flatten geom,
      fun r hr => ⟨runs_ne_nil geom r hr, runs_uniform geom r hr⟩, runs_maximal geom⟩
  · intro n geom h1 hn hlen hall
    obtain ⟨ws, hws, hl⟩ := encode_lineto_run n geom h1 hn hlen hall
    exact ⟨_, hws, by simp [hl]; omega, rfl⟩
  · intro a b c ha hb hc
    obtain ⟨ws, hws, hl⟩ := encode_lineto_run 3 [a, b, c] (by decide) (by decide) rfl
      (by intro o ho; simp at ho; rcases ho with rfl | rfl | rfl <;> assumption)
    match ws, hl with
    | [w1, w2, w3, w4, w5, w6], _ => exact ⟨w1, w2, w3, w4, w5, w6, hws⟩

/-- Witness of C7: a MoveTo, two LineTo, a ClosePath and a five-LineTo path. -/
theorem command_packing_witness :
    (encode_geometry [⟨1, 5, 5⟩, ⟨2, 10, 5⟩, ⟨2, 10, 10⟩, ⟨7, 0, 0⟩]
        = some (pack_runs (0, 0) (runs [⟨1, 5, 5⟩, ⟨2, 10, 5⟩, ⟨2, 10, 10⟩, ⟨7, 0, 0⟩])) ∧
      pack_runs (0, 0) (runs [⟨1, 5, 5⟩, ⟨2, 10, 5⟩, ⟨2, 10, 10⟩, ⟨7, 0, 0⟩])
        = [9, 10, 10, 18, 10, 0, 0, 10, 15]) ∧
    (∃ ws, encode_geometry [⟨2, 1, 0⟩, ⟨2, 2, 0⟩, ⟨2, 3, 0⟩, ⟨2, 4, 0⟩, ⟨2, 5, 0⟩] = some ws ∧
      ws.length = 1 + 2 * 5 ∧ ws.head? = some ((5 <<< 3) ||| 2)) :=
  ⟨⟨(command_packing.1 [⟨1, 5, 5⟩, ⟨2, 10, 5⟩, ⟨2, 10, 10⟩, ⟨7, 0, 0⟩]
      (by decide) (by decide)).1, by decide⟩,
    command_packing.2.1 5 [⟨2, 1, 0⟩, ⟨2, 2, 0⟩, ⟨2, 3, 0⟩, ⟨2, 4, 0⟩, ⟨2, 5, 0⟩]
      (by decide) (by decide) rfl (by decide)⟩

/-- C8. Truncation resilience: a MoveTo or LineTo command word that declares
`c ≥ 1` repetitions but is followed by just two words decodes, without error,
to exactly one operation at the zigzag-decoded position. -/
theorem truncated_command_one_op (op c a b : Nat)
    (hop : (op : Int) = mvt_moveto ∨ (op : Int) = mvt_lineto) (hc : 1 ≤ c) :
    decode_geometry [(c <<< 3) ||| op, a, b]
      = some [{ op := (op : Int), x := decode_zigzag32 a, y := decode_zigzag32 b }] := by
  have hop8 : op < 8 := by
    rcases hop with h | h
    · have : (op : Int) = 1 := h
      omega
    · have : (op : Int) = 2 := h
      omega
  have h7 : ((c <<< 3) ||| op) &&& 7 = op := by
    rw [word_and_seven, word_or_eq_add _ _ hop8]; omega
  have h3 : ((c <<< 3) ||| op) >>> 3 = c := by
    rw [word_shift_three, word_or_eq_add _ _ hop8]; omega
  obtain ⟨k, rfl⟩ : ∃ k, c = k + 1 := ⟨c - 1, by omega⟩
  unfold decode_geometry
  show decode_loop _ (2 + 1) _ = _
  rw [decode_loop_succ _ _ _ (by simp)]
  simp only [List.getElem_cons_zero, h7, h3, if_pos hop]
  have hcoords : decode_coords [((k + 1) <<< 3) ||| op, a, b] op (k + 1)
      { g := 0, px := 0, py := 0, geometry := [] }
      = { g := 2, px := decode_zigzag32 a, py := decode_zigzag32 b,
          geometry := [{ op := (op : Int), x := decode_zigzag32 a, y := decode_zigzag32 b }] } := by
    rw [decode_coords]
    simp only [List.length_cons, List.length_nil]
    rw [dif_pos (by omega)]
    simp only [List.getElem_cons_succ, List.getElem_cons_zero, zero_add, List.nil_append]
    cases k with
    | zero => simp [decode_coords]
    | succ j =>
      rw [decode_coords]
      simp
  rw [hcoords]
  rw [decode_loop_done _ _ _ (by simp)]

/-- Witness of C8: a MoveTo command that declares five points and carries one. -/
theorem truncated_command_one_op_witness :
    decode_geometry [(5 <<< 3) ||| 1, 4, 6] = some [{ op := 1, x := 2, y := 3 }] :=
  truncated_command_one_op 1 5 4 6 (by decide) (by decide)

theorem chars_equiv_iff (a : List Char) :
    ∀ b : List Char, (!chars_less a b && !chars_less b a) = true ↔ a = b := by
  induction a with
  | nil =>
    intro b
    cases b with
    | nil => simp [chars_less]
    | cons y ys => simp [chars_less]
  | cons x xs ih =>
    intro b
    cases b with
    | nil => simp [chars_less]
    | cons y ys =>
      simp only [chars_less]
      by_cases h1 : x.toNat < y.toNat
      · have h2 : ¬ y.toNat < x.toNat := by omega
        have h3 : x ≠ y := by rintro rfl; omega
        simp [h1, h3]
      · by_cases h2 : y.toNat < x.toNat
        · have h3 : x ≠ y := by rintro rfl; omega
          simp [h1, h2, h3]
        · have h3 : x = y := by
            apply Char.ext
            apply UInt32.toNat.inj
            have : x.toNat = y.toNat := by omega
            exact this
          subst h3
          simp only [h1, if_false, List.cons.injEq, true_and]
          exact ih ys

theorem string_equiv_iff (a b : String) :
    (!string_less a b && !string_less b a) = true ↔ a = b := by
  unfold string_less
  rw [chars_equiv_iff]
  constructor
  · intro h; exact String.ext h
  · rintro rfl; rfl

theorem value_equiv_iff (env : mvt_env) (a b : mvt_value) :
    (!mvt_value_cmp env a b && !mvt_value_cmp env b a) = true
      ↔ stringify_visitor env a = stringify_visitor env b := by
  unfold mvt_value_cmp
  exact string_equiv_iff _ _

theorem map_find_append {κ : Type} (lt : κ → κ → Bool) (m : List (κ × Nat)) (k q : κ) (n : Nat) :
    map_find lt (m ++ [(k, n)]) q =
      match map_find lt m q with
      | some i => some i
      | none => if (!lt k q && !lt q k) = true then some n else none := by
  unfold map_find
  rw [List.find?_append]
  cases h : m.find? (fun e => !lt e.1 q && !lt q e.1) with
  | some e => simp
  | none =>
    simp only [Option.none_or, List.find?_cons, List.find?_nil]
    by_cases hk : (!lt k q && !lt q k) = true
    · simp [hk]
    · simp only [hk, if_false]
      have : (!lt k q && !lt q k) = false := by simpa using hk
      simp [this]

theorem map_insert_of_none {κ : Type} (lt : κ → κ → Bool) (m : List (κ × Nat)) (k : κ) (n : Nat)
    (h : map_find lt m k = none) : map_insert lt m k n = m ++ [(k, n)] := by
  simp [map_insert, h]

theorem tag_keys (env : mvt_env) (layer : mvt_layer) (feature : mvt_feature) (key : String)
    (value : mvt_value) :
    (mvt_layer.tag env layer feature key value).1.keys =
      match map_find string_less layer.key_map key with
      | some _ => layer.keys
      | none => layer.keys ++ [key] := by
  unfold mvt_layer.tag
  cases map_find string_less layer.key_map key <;>
    cases map_find (mvt_value_cmp env) layer.value_map value <;> rfl

theorem tag_key_map (env : mvt_env) (layer : mvt_layer) (feature : mvt_feature) (key : String)
    (value : mvt_value) :
    (mvt_layer.tag env layer feature key value).1.key_map =
      match map_find string_less layer.key_map key with
      | some _ => layer.key_map
      | none => map_insert string_less layer.key_map key layer.keys.length := by
  unfold mvt_layer.tag
  cases map_find string_less layer.key_map key <;>
    cases map_find (mvt_value_cmp env) layer.value_map value <;> rfl

theorem tag_values (env : mvt_env) (layer : mvt_layer) (feature : mvt_feature) (key : String)
    (value : mvt_value) :
    (mvt_layer.tag env layer feature key value).1.values =
      match map_find (mvt_value_cmp env) layer.value_map value with
      | some _ => layer.values
      | none => layer.values ++ [value] := by
  unfold mvt_layer.tag
  cases map_find string_less layer.key_map key <;>
    cases map_find (mvt_value_cmp env) layer.value_map value <;> rfl

theorem tag_value_map (env : mvt_env) (layer : mvt_layer) (feature : mvt_feature) (key : String)
    (value : mvt_value) :
    (mvt_layer.tag env layer feature key value).1.value_map =
      match map_find (mvt_value_cmp env) layer.value_map value with
      | some _ => layer.value_map
      | none => map_insert (mvt_value_cmp env) layer.value_map value layer.values.length := by
  unfold mvt_layer.tag
  cases map_find string_less layer.key_map key <;>
    cases map_find (mvt_value_cmp env) layer.value_map value <;> rfl

theorem tag_tags (env : mvt_env) (layer : mvt_layer) (feature : mvt_feature) (key : String)
    (value : mvt_value) :
    (mvt_layer.tag env layer feature key value).2.tags =
      feature.tags ++
        [(map_find string_less layer.key_map key).getD layer.keys.length,
         (map_find (mvt_value_cmp env) layer.value_map value).getD layer.values.length] := by
  unfold mvt_layer.tag
  cases map_find string_less layer.key_map key <;>
    cases map_find (mvt_value_cmp env) layer.value_map value <;> rfl

theorem tag_frame (env : mvt_env) (layer : mvt_layer) (feature : mvt_feature) (key : String)
    (value : mvt_value) :
    (mvt_layer.tag env layer feature key value).1.name = layer.name ∧
    (mvt_layer.tag env layer feature key value).1.version = layer.version ∧
    (mvt_layer.tag env layer feature key value).1.extent = layer.extent ∧
    (mvt_layer.tag env layer feature key value).1.features = layer.features ∧
    (mvt_layer.tag env layer feature key value).2.type = feature.type ∧
    (mvt_layer.tag env layer feature key value).2.geometry = feature.geometry := by
  unfold mvt_layer.tag
  cases map_find string_less layer.key_map key <;>
    cases map_find (mvt_value_cmp env) layer.value_map value <;>
    exact ⟨rfl, rfl, rfl, rfl, rfl, rfl⟩

/-- After a call of `tag` the key index finds the key at the position the call
appended, whatever the layer was. -/
theorem tag_key_found (env : mvt_env) (layer : mvt_layer) (feature : mvt_feature) (key : String)
    (value : mvt_value) :
    map_find string_less (mvt_layer.tag env layer feature key value).1.key_map key
      = some ((map_find string_less layer.key_map key).getD layer.keys.length) := by
  rw [tag_key_map]
  cases h : map_find string_less layer.key_map key with
  | some i => simp [h]
  | none =>
    simp only [Option.getD_none]
    rw [map_insert_of_none _ _ _ _ h, map_find_append, h]
    simp only
    rw [if_pos ((string_equiv_iff key key).2 rfl)]

theorem tag_value_found (env : mvt_env) (layer : mvt_layer) (feature : mvt_feature) (key : String)
    (value : mvt_value) :
    map_find (mvt_value_cmp env) (mvt_layer.tag env layer feature key value).1.value_map value
      = some ((map_find (mvt_value_cmp env) layer.value_map value).getD layer.values.length) := by
  rw [tag_value_map]
  cases h : map_find (mvt_value_cmp env) layer.value_map value with
  | some i => simp [h]
  | none =>
    simp only [Option.getD_none]
    rw [map_insert_of_none _ _ _ _ h, map_find_append, h]
    simp only
    rw [if_pos ((value_equiv_iff env value value).2 rfl)]

theorem tag_keys_extend (env : mvt_env) (layer : mvt_layer) (feature : mvt_feature)
    (key : String) (value : mvt_value) :
    layer.keys <+: (mvt_layer.tag env layer feature key value).1.keys := by
  rw [tag_keys]
  cases map_find string_less layer.key_map key with
  | some i => exact List.prefix_refl _
  | none => exact List.prefix_append _ _

theorem tag_values_extend (env : mvt_env) (layer : mvt_layer) (feature : mvt_feature)
    (key : String) (value : mvt_value) :
    layer.values <+: (mvt_layer.tag env layer feature key value).1.values := by
  rw [tag_values]
  cases map_find (mvt_value_cmp env) layer.value_map value with
  | some i => exact List.prefix_refl _
  | none => exact List.prefix_append _ _

/-- C5. `tag` is append-only and does not deduplicate tag pairs: a call leaves
the previous `keys`, `values` and `feature.tags` as prefixes of the new ones and
lengthens `feature.tags` by exactly 2; a second call with the same key and value
on the same feature leaves `keys` and `values` unchanged and appends the same
pair of indexes again. -/
theorem tag_append_only (env : mvt_env) (layer : mvt_layer) (feature : mvt_feature)
    (key : String) (value : mvt_value) :
    layer.keys <+: (mvt_layer.tag env layer feature key value).1.keys ∧
    layer.values <+: (mvt_layer.tag env layer feature key value).1.values ∧
    feature.tags <+: (mvt_layer.tag env layer feature key value).2.tags ∧
    (mvt_layer.tag env layer feature key value).2.tags.length = feature.tags.length + 2 ∧
    (mvt_layer.tag env (mvt_layer.tag env layer feature key value).1
        (mvt_layer.tag env layer feature key value).2 key value).1.keys
      = (mvt_layer.tag env layer feature key value).1.keys ∧
    (mvt_layer.tag env (mvt_layer.tag env layer feature key value).1
        (mvt_layer.tag env layer feature key value).2 key value).1.values
      = (mvt_layer.tag env layer feature key value).1.values ∧
    ∃ ko vo,
      (mvt_layer.tag env layer feature key value).2.tags = feature.tags ++ [ko, vo] ∧
      (mvt_layer.tag env (mvt_layer.tag env layer feature key value).1
          (mvt_layer.tag env layer feature key value).2 key value).2.tags
        = feature.tags ++ [ko, vo] ++ [ko, vo] := by
  refine ⟨tag_keys_extend env layer feature key value,
    tag_values_extend env layer feature key value, ?_, ?_, ?_, ?_, ?_⟩
  · rw [tag_tags]; exact List.prefix_append _ _
  · rw [tag_tags]; simp
  · rw [tag_keys env (mvt_layer.tag env layer feature key value).1, tag_key_found]
  · rw [tag_values env (mvt_layer.tag env layer feature key value).1, tag_value_found]
  · refine ⟨_, _, tag_tags env layer feature key value, ?_⟩
    rw [tag_tags env (mvt_layer.tag env layer feature key value).1, tag_key_found,
      tag_value_found, tag_tags]
    simp

theorem index_inv_nil {κ π : Type} (lt : κ → κ → Bool) (proj : κ → π) :
    index_inv lt proj [] [] := by
  constructor
  · intro k i h; simp [map_find] at h
  · intro k _; simp
  · simp

theorem index_inv_insert {κ π : Type} (lt : κ → κ → Bool) (proj : κ → π)
    (hequiv : ∀ a b, (!lt a b && !lt b a) = true ↔ proj a = proj b)
    (tbl : List κ) (m : List (κ × Nat)) (k : κ) (h : index_inv lt proj tbl m)
    (hk : map_find lt m k = none) :
    index_inv lt proj (tbl ++ [k]) (map_insert lt m k tbl.length) := by
  rw [map_insert_of_none lt m k _ hk]
  constructor
  · intro q i hq
    rw [map_find_append] at hq
    cases hm : map_find lt m q with
    | some j =>
      rw [hm] at hq
      simp only [Option.some.injEq] at hq
      subst hq
      obtain ⟨x, hx, hp⟩ := h.found q j hm
      refine ⟨x, ?_, hp⟩
      have hj : j < tbl.length := by
        rcases Nat.lt_or_ge j tbl.length with h1 | h1
        · exact h1
        · rw [List.getElem?_eq_none h1] at hx; simp at hx
      rw [List.getElem?_append_left hj]; exact hx
    | none =>
      rw [hm] at hq
      simp only at hq
      split_ifs at hq with he
      simp only [Option.some.injEq] at hq
      subst hq
      exact ⟨k, by simp, (hequiv k q).1 he⟩
  · intro q hq
    rw [map_find_append] at hq
    cases hm : map_find lt m q with
    | some j => rw [hm] at hq; simp at hq
    | none =>
      rw [hm] at hq
      simp only at hq
      split_ifs at hq with he
      have h1 := h.absent q hm
      have h2 : proj k ≠ proj q := fun e => he ((hequiv k q).2 e)
      simp only [List.map_append, List.map_cons, List.map_nil, List.mem_append,
        List.mem_singleton, not_or]
      exact ⟨h1, fun e => h2 e.symm⟩
  · rw [List.map_append, List.nodup_append]
    refine ⟨h.nodup, by simp, ?_⟩
    intro a ha hb
    simp only [List.map_cons, List.map_nil, List.mem_singleton] at hb
    subst hb
    exact h.absent k hk ha

/-- The position `tag` records for a key or a value holds an equivalent
entry of the grown table. -/
theorem index_inv_position {κ π : Type} (lt : κ → κ → Bool) (proj : κ → π)
    (tbl : List κ) (m : List (κ × Nat)) (k : κ) (h : index_inv lt proj tbl m) :
    ∃ x, (match map_find lt m k with
          | some _ => tbl
          | none => tbl ++ [k])[(map_find lt m k).getD tbl.length]? = some x ∧
      proj x = proj k := by
  cases hm : map_find lt m k with
  | some i => simpa using h.found k i hm
  | none => exact ⟨k, by simp, rfl⟩

theorem tag_layer_inv (env : mvt_env) (layer : mvt_layer) (feature : mvt_feature) (key : String)
    (value : mvt_value) (h : layer_inv env layer) :
    layer_inv env (mvt_layer.tag env layer feature key value).1 := by
  constructor
  · rw [tag_keys, tag_key_map]
    cases hm : map_find string_less layer.key_map key with
    | some i => exact h.1
    | none => exact index_inv_insert _ _ (by simpa using string_equiv_iff) _ _ _ h.1 hm
  · rw [tag_values, tag_value_map]
    cases hm : map_find (mvt_value_cmp env) layer.value_map value with
    | some i => exact h.2
    | none => exact index_inv_insert _ _ (value_equiv_iff env) _ _ _ h.2 hm

theorem layer_inv_of_empty (env : mvt_env) (layer : mvt_layer) (h : empty_tables layer) :
    layer_inv env layer := by
  obtain ⟨h1, h2, h3, h4⟩ := h
  unfold layer_inv
  rw [h1, h2, h3, h4]
  exact ⟨index_inv_nil _ _, index_inv_nil _ _⟩

theorem nodup_getElem?_inj {α : Type} {l : List α} (h : l.Nodup) {a b : Nat} {x : α}
    (ha : l[a]? = some x) (hb : l[b]? = some x) : a = b := by
  obtain ⟨h1, e1⟩ := List.getElem?_eq_some.1 ha
  obtain ⟨h2, e2⟩ := List.getElem?_eq_some.1 hb
  exact (List.Nodup.getElem_inj_iff h).1 (e1.trans e2.symm)

theorem prefix_getElem? {α : Type} {l1 l2 : List α} (h : l1 <+: l2) {i : Nat} {x : α}
    (hx : l1[i]? = some x) : l2[i]? = some x := by
  obtain ⟨t, rfl⟩ := h
  obtain ⟨h1, _⟩ := List.getElem?_eq_some.1 hx
  rw [List.getElem?_append_left h1]; exact hx

theorem getElem?_lt {α : Type} {l : List α} {i : Nat} {x : α} (hx : l[i]? = some x) :
    i < l.length := (List.getElem?_eq_some.1 hx).1

theorem mem_of_getElem?_some {α : Type} {l : List α} {i : Nat} {x : α} (hx : l[i]? = some x) :
    x ∈ l := by
  obtain ⟨h1, e1⟩ := List.getElem?_eq_some.1 hx
  rw [← e1]; exact List.getElem_mem _

theorem last_pair_append (feature : mvt_feature) (t : List Nat) (k v : Nat)
    (h : feature.tags = t ++ [k, v]) : last_pair feature = (k, v) := by
  unfold last_pair
  rw [h]
  have e1 : (t ++ [k, v])[t.length]? = some k := by
    rw [List.getElem?_append_right (le_refl _)]; simp
  have e2 : (t ++ [k, v])[t.length + 1]? = some v := by
    rw [List.getElem?_append_right (by omega)]; simp
  simp [List.getD_eq_getElem?_getD, e1, e2]

theorem tag_last_pair (env : mvt_env) (layer : mvt_layer) (feature : mvt_feature) (key : String)
    (value : mvt_value) :
    last_pair (mvt_layer.tag env layer feature key value).2 =
      ((map_find string_less layer.key_map key).getD layer.keys.length,
       (map_find (mvt_value_cmp env) layer.value_map value).getD layer.values.length) :=
  last_pair_append _ _ _ _ (tag_tags env layer feature key value)

/-- One call on a consistent layer: the recorded positions hold the key and
an entry equivalent to the value. -/
theorem tag_positions (env : mvt_env) (layer : mvt_layer) (feature : mvt_feature) (key : String)
    (value : mvt_value) (h : layer_inv env layer) :
    (mvt_layer.tag env layer feature key value).1.keys[
        (last_pair (mvt_layer.tag env layer feature key value).2).1]? = some key ∧
    ∃ x, (mvt_layer.tag env layer feature key value).1.values[
        (last_pair (mvt_layer.tag env layer feature key value).2).2]? = some x ∧
      stringify_visitor env x = stringify_visitor env value := by
  rw [tag_last_pair, tag_keys, tag_values]
  constructor
  · obtain ⟨x, hx, hp⟩ := index_inv_position string_less id layer.keys layer.key_map key h.1
    simp only [id] at hp
    subst hp; exact hx
  · exact index_inv_position (mvt_value_cmp env) (stringify_visitor env) layer.values
      layer.value_map value h.2

theorem tag_mem_keys (env : mvt_env) (layer : mvt_layer) (feature : mvt_feature) (key : String)
    (value : mvt_value) (h : layer_inv env layer) (x : String) :
    x ∈ (mvt_layer.tag env layer feature key value).1.keys ↔ x ∈ layer.keys ∨ x = key := by
  rw [tag_keys]
  cases hm : map_find string_less layer.key_map key with
  | some i =>
    obtain ⟨y, hy, hp⟩ := h.1.found key i hm
    simp only [id] at hp
    subst hp
    have : y ∈ layer.keys := mem_of_getElem?_some hy
    simp only
    constructor
    · exact Or.inl
    · rintro (h1 | rfl)
      · exact h1
      · exact this
  | none => simp

theorem tag_mem_values (env : mvt_env) (layer : mvt_layer) (feature : mvt_feature) (key : String)
    (value : mvt_value) (h : layer_inv env layer) (p : String) :
    p ∈ (mvt_layer.tag env layer feature key value).1.values.map (stringify_visitor env) ↔
      p ∈ layer.values.map (stringify_visitor env) ∨ p = stringify_visitor env value := by
  rw [tag_values]
  cases hm : map_find (mvt_value_cmp env) layer.value_map value with
  | some i =>
    obtain ⟨y, hy, hp⟩ := h.2.found value i hm
    have : stringify_visitor env value ∈ layer.values.map (stringify_visitor env) := by
      rw [← hp]; exact List.mem_map_of_mem _ (mem_of_getElem?_some hy)
    simp only
    constructor
    · exact Or.inl
    · rintro (h1 | rfl)
      · exact h1
      · exact this
  | none => simp

theorem tag_all_spec (env : mvt_env) (calls : List tag_call) :
    ∀ layer : mvt_layer, layer_inv env layer →
      layer_inv env (tag_all env layer calls).1 ∧
      layer.keys <+: (tag_all env layer calls).1.keys ∧
      layer.values <+: (tag_all env layer calls).1.values ∧
      (∀ x, x ∈ (tag_all env layer calls).1.keys ↔
        x ∈ layer.keys ∨ x ∈ calls.map (fun c => c.key)) ∧
      (∀ p, p ∈ (tag_all env layer calls).1.values.map (stringify_visitor env) ↔
        p ∈ layer.values.map (stringify_visitor env) ∨
          p ∈ calls.map (fun c => stringify_visitor env c.value)) ∧
      (tag_all env layer calls).2.length = calls.length ∧
      ∀ (i : Nat) (c : tag_call) (f : mvt_feature), calls[i]? = some c → (tag_all env layer calls).2[i]? = some f →
        (tag_all env layer calls).1.keys[(last_pair f).1]? = some c.key ∧
        ∃ x, (tag_all env layer calls).1.values[(last_pair f).2]? = some x ∧
          stringify_visitor env x = stringify_visitor env c.value := by
  induction calls with
  | nil =>
    intro layer h
    refine ⟨h, List.prefix_refl _, List.prefix_refl _, by simp [tag_all], by simp [tag_all],
      rfl, ?_⟩
    intro i c f hc; simp at hc
  | cons c0 cs ih =>
    intro layer h
    have hstep := tag_layer_inv env layer c0.feature c0.key c0.value h
    have hkp := tag_keys_extend env layer c0.feature c0.key c0.value
    have hvp := tag_values_extend env layer c0.feature c0.key c0.value
    obtain ⟨i1, i2, i3, i4, i5, i6, i7⟩ :=
      ih (mvt_layer.tag env layer c0.feature c0.key c0.value).1 hstep
    have hpos := tag_positions env layer c0.feature c0.key c0.value h
    simp only [tag_all]
    refine ⟨i1, hkp.trans i2, hvp.trans i3, ?_, ?_, by simp [i6], ?_⟩
    · intro x
      rw [i4, tag_mem_keys env layer _ _ _ h]
      simp only [List.map_cons, List.mem_cons]
      tauto
    · intro p
      rw [i5, tag_mem_values env layer _ _ _ h]
      simp only [List.map_cons, List.mem_cons]
      tauto
    · intro i c f hc hf
      cases i with
      | zero =>
        simp only [List.getElem?_cons_zero, Option.some.injEq] at hc hf
        subst hc hf
        refine ⟨prefix_getElem? i2 hpos.1, ?_⟩
        obtain ⟨x, hx, hp⟩ := hpos.2
        exact ⟨x, prefix_getElem? i3 hx, hp⟩
      | succ j =>
        simp only [List.getElem?_cons_succ] at hc hf
        exact i7 j c f hc hf

/-- C3. `tag` resolves to what was passed: on a layer built from a layer with
empty tables by any sequence of `tag` calls, after `tag(feature, key, value)`
the last two entries `(k, v)` of `feature.tags` satisfy `k < keys.size()`,
`keys[k] = key`, `v < values.size()` and `values[v]` has the same comparator
projection as `value`. -/
theorem tag_resolves (env : mvt_env) (layer0 : mvt_layer) (calls : List tag_call)
    (feature : mvt_feature) (key : String) (value : mvt_value) (h0 : empty_tables layer0) :
    (last_pair (mvt_layer.tag env (tag_all env layer0 calls).1 feature key value).2).1
      < (mvt_layer.tag env (tag_all env layer0 calls).1 feature key value).1.keys.length ∧
    (mvt_layer.tag env (tag_all env layer0 calls).1 feature key value).1.keys[
      (last_pair (mvt_layer.tag env (tag_all env layer0 calls).1 feature key value).2).1]?
      = some key ∧
    (last_pair (mvt_layer.tag env (tag_all env layer0 calls).1 feature key value).2).2
      < (mvt_layer.tag env (tag_all env layer0 calls).1 feature key value).1.values.length ∧
    ∃ x,
      (mvt_layer.tag env (tag_all env layer0 calls).1 feature key value).1.values[
        (last_pair (mvt_layer.tag env (tag_all env layer0 calls).1 feature key value).2).2]?
        = some x ∧
      stringify_visitor env x = stringify_visitor env value := by
  have hinv := (tag_all_spec env calls layer0 (layer_inv_of_empty env layer0 h0)).1
  obtain ⟨h1, x, h2, h3⟩ := tag_positions env (tag_all env layer0 calls).1 feature key value hinv
  exact ⟨getElem?_lt h1, h1, getElem?_lt h2, x, h2, h3⟩

/-- C4. Dedup invariant: after any sequence of `tag` calls on a layer with
empty tables, `values.size()` is the number of distinct comparator projections
among the values passed and `keys.size()` the number of distinct keys passed; no
two entries of `keys` are equal, no two entries of `values` are equivalent under
`mvt_value_cmp`, and of two calls the later one records for an equal key (an
equivalent value) the index the earlier one recorded. -/
theorem dedup_invariant (env : mvt_env) (layer0 : mvt_layer) (calls : List tag_call)
    (h0 : empty_tables layer0) :
    (tag_all env layer0 calls).1.values.length
      = ((calls.map (fun c => stringify_visitor env c.value)).dedup).length ∧
    (tag_all env layer0 calls).1.keys.length = ((calls.map (fun c => c.key)).dedup).length ∧
    (tag_all env layer0 calls).1.keys.Nodup ∧
    (tag_all env layer0 calls).1.values.Pairwise
      (fun a b => ¬ (mvt_value_cmp env a b = false ∧ mvt_value_cmp env b a = false)) ∧
    ∀ (i j : Nat) (c d : tag_call) (f g : mvt_feature), i ≤ j →
      calls[i]? = some c → calls[j]? = some d →
      (tag_all env layer0 calls).2[i]? = some f → (tag_all env layer0 calls).2[j]? = some g →
      (c.key = d.key → (last_pair g).1 = (last_pair f).1) ∧
      (stringify_visitor env c.value = stringify_visitor env d.value →
        (last_pair g).2 = (last_pair f).2) := by
  obtain ⟨hinv, _, _, hk, hv, _, hpos⟩ :=
    tag_all_spec env calls layer0 (layer_inv_of_empty env layer0 h0)
  obtain ⟨h1, h2, h3, h4⟩ := h0
  have hkn : (tag_all env layer0 calls).1.keys.Nodup := by
    have := hinv.1.nodup
    simpa using this
  refine ⟨?_, ?_, hkn, ?_, ?_⟩
  · have hperm : ((tag_all env layer0 calls).1.values.map (stringify_visitor env)).Perm
        ((calls.map (fun c => stringify_visitor env c.value)).dedup) := by
      rw [List.perm_ext_iff_of_nodup hinv.2.nodup (List.nodup_dedup _)]
      intro p
      rw [hv p, h2]
      simp
    have := hperm.length_eq
    simpa using this
  · have hperm : ((tag_all env layer0 calls).1.keys).Perm
        ((calls.map (fun c => c.key)).dedup) := by
      rw [List.perm_ext_iff_of_nodup hkn (List.nodup_dedup _)]
      intro x
      rw [hk x, h1]
      simp
    exact hperm.length_eq
  · have := hinv.2.nodup
    rw [List.Nodup, List.pairwise_map] at this
    refine this.imp ?_
    intro a b hne hab
    apply hne
    apply (value_equiv_iff env a b).1
    simp [hab.1, hab.2]
  · intro i j c d f g _ hc hd hf hg
    obtain ⟨k1, x1, v1, p1⟩ := hpos i c f hc hf
    obtain ⟨k2, x2, v2, p2⟩ := hpos j d g hd hg
    constructor
    · intro e
      rw [e] at k1
      exact nodup_getElem?_inj hkn k2 k1
    · intro e
      have q1 : ((tag_all env layer0 calls).1.values.map (stringify_visitor env))[(last_pair f).2]?
          = some (stringify_visitor env d.value) := by
        rw [List.getElem?_map, v1]; simp [p1, e]
      have q2 : ((tag_all env layer0 calls).1.values.map (stringify_visitor env))[(last_pair g).2]?
          = some (stringify_visitor env d.value) := by
        rw [List.getElem?_map, v2]; simp [p2]
      exact nodup_getElem?_inj hinv.2.nodup q2 q1

/-- Witness of C3: a fourth call after `sample_calls`, repeating a key. -/
theorem tag_resolves_witness :
    empty_tables mvt_layer_init ∧
    (mvt_layer.tag sample_env (tag_all sample_env mvt_layer_init sample_calls).1
        mvt_feature_init "lanes" (.string "a")).1.keys[
      (last_pair (mvt_layer.tag sample_env (tag_all sample_env mvt_layer_init sample_calls).1
        mvt_feature_init "lanes" (.string "a")).2).1]? = some "lanes" :=
  ⟨by decide,
    (tag_resolves sample_env mvt_layer_init sample_calls mvt_feature_init "lanes" (.string "a")
      (by decide)).2.1⟩

/-- Witness of C4: `sample_calls` passes two distinct keys and two distinct values. -/
theorem dedup_invariant_witness :
    empty_tables mvt_layer_init ∧
    (tag_all sample_env mvt_layer_init sample_calls).1.values.length
      = ((sample_calls.map (fun c => stringify_visitor sample_env c.value)).dedup).length ∧
    (tag_all sample_env mvt_layer_init sample_calls).1.keys = ["name", "lanes"] ∧
    (tag_all sample_env mvt_layer_init sample_calls).1.values = [.string "a", .uint64 2] ∧
    (tag_all sample_env mvt_layer_init sample_calls).2.map last_pair = [(0, 0), (1, 1), (0, 1)] :=
  ⟨by decide, (dedup_invariant sample_env mvt_layer_init sample_calls (by decide)).1,
    by decide, by decide, by decide⟩

/-- C6, as the code has it: `is_compressed` is true exactly for a buffer of
more than two bytes (at least three) whose first two bytes are `0x78 0x9C` or
`0x1F 0x8B`. -/
theorem is_compressed_iff (data : List Nat) :
    is_compressed data = true ↔
      ∃ a b c rest, data = a :: b :: c :: rest ∧
        ((a % 256 = 0x78 ∧ b % 256 = 0x9C) ∨ (a % 256 = 0x1F ∧ b % 256 = 0x8B)) := by
  unfold is_compressed
  constructor
  · intro h
    match data, h with
    | a :: b :: c :: rest, h =>
      refine ⟨a, b, c, rest, rfl, ?_⟩
      simpa using h
  · rintro ⟨a, b, c, rest, rfl, h⟩
    simpa using h

/-- C6 as stated fails: the two-byte buffers `[0x1F, 0x8B]` and `[0x78, 0x9C]`
are at least two bytes long and consist of a header, and `is_compressed` is
false on both. -/
theorem is_compressed_two_bytes :
    is_compressed [0x1F, 0x8B] = false ∧ is_compressed [0x78, 0x9C] = false ∧
    ¬ (∀ data : List Nat, is_compressed data = true ↔
        (2 ≤ data.length ∧
          ((data.getD 0 0 = 0x78 ∧ data.getD 1 0 = 0x9C) ∨
           (data.getD 0 0 = 0x1F ∧ data.getD 1 0 = 0x8B)))) := by
  refine ⟨by decide, by decide, ?_⟩
  intro h
  have := (h [0x1F, 0x8B]).2 (by decide)
  exact absurd this (by decide)

/-- C2, the failing case: the encoder writes a bool under field 6, which the
decoder reads as a zigzag `sint64` (it reads bools from field 7), so a layer
value `true` comes back from the encoded tile as the integer `-1` and `false`
as the integer `0`. -/
theorem bool_value_read_back_as_int (env : mvt_env) :
    write_visitor (.bool true) = some [(6, .varint 1)] ∧
    decode_value_loop env.value_init [(6, .varint 1)] = some (.int64 (-1)) ∧
    write_visitor (.bool false) = some [(6, .varint 0)] ∧
    decode_value_loop env.value_init [(6, .varint 0)] = some (.int64 0) ∧
    decode_value_loop env.value_init [(7, .varint 1)] = some (.bool true) ∧
    encode_layers [{ mvt_layer_init with values := [.bool true], value_map := [(.bool true, 0)] }]
      = some [(3, .message [(15, .varint 2), (1, .string ""), (5, .varint 4096),
          (4, .message [(6, .varint 1)])])] ∧
    decode_tile_loop env []
        [(3, .message [(15, .varint 2), (1, .string ""), (5, .varint 4096),
          (4, .message [(6, .varint 1)])])]
      = some [{ mvt_layer_init with values := [.int64 (-1)],
                                    value_map := [(.int64 (-1), 0)] }] :=
  ⟨rfl, rfl, rfl, rfl, rfl, rfl, rfl⟩

/-- The five other kinds of value come back as they were written, for
payloads in the range of their C type. -/
theorem value_round_trip_other_kinds (init : mvt_value) :
    (∀ s, (write_visitor (.string s)).bind (decode_value_loop init) = some (.string s)) ∧
    (∀ b, (write_visitor (.float b)).bind (decode_value_loop init) = some (.float b)) ∧
    (∀ b, (write_visitor (.double b)).bind (decode_value_loop init) = some (.double b)) ∧
    (∀ i : Int, -2 ^ 63 ≤ i → i < 2 ^ 63 →
      (write_visitor (.int64 i)).bind (decode_value_loop init) = some (.int64 i)) ∧
    (∀ u : Nat, u < 2 ^ 64 →
      (write_visitor (.uint64 u)).bind (decode_value_loop init) = some (.uint64 u)) := by
  refine ⟨fun s => rfl, fun b => rfl, fun b => rfl, ?_, ?_⟩
  · intro i h1 h2
    have : toInt64 (toUInt64 i : Nat) = i := by
      unfold toInt64 toUInt64
      omega
    simp [write_visitor, decode_value_loop, decode_value_field, this]
  · intro u hu
    simp [write_visitor, decode_value_loop, decode_value_field]
    omega

/-- C10, the failing case: the encoder writes the version of a layer in field
15, the layer decoder has no case for field 15 and skips it, so the layer
`roads` written with version 1 is decoded with the version of a fresh layer, 2;
its name and extent come back. -/
theorem layer_version_lost (env : mvt_env) :
    encode_layers [{ mvt_layer_init with version := 1, name := "roads", extent := 512 }]
      = some [(3, .message [(15, .varint 1), (1, .string "roads"), (5, .varint 512)])] ∧
    decode_tile_loop env [] [(3, .message [(15, .varint 1), (1, .string "roads"), (5, .varint 512)])]
      = some [{ mvt_layer_init with version := 2, name := "roads", extent := 512 }] :=
  ⟨rfl, rfl⟩

theorem wire_tags_nil : wire_tags [] = [] := by
  rw [wire_tags]

theorem wire_tags_packed (vs : List Nat) (fs : pbf_message) :
    wire_tags ((2, .packed vs) :: fs) = vs.map (· % 2 ^ 32) ++ wire_tags fs := by
  rw [wire_tags]

theorem wire_tags_other (f : Nat × pbf_data) (fs : pbf_message)
    (h : ∀ vs, f ≠ (2, pbf_data.packed vs)) : wire_tags (f :: fs) = wire_tags fs := by
  rw [wire_tags]
  intro vs hh
  exact h vs hh

theorem wire_tags_cons (f : Nat × pbf_data) (fs : pbf_message) :
    wire_tags (f :: fs) = wire_tags [f] ++ wire_tags fs := by
  by_cases h : ∃ vs, f = (2, pbf_data.packed vs)
  · obtain ⟨vs, rfl⟩ := h
    rw [wire_tags_packed, wire_tags_packed, wire_tags_nil, List.append_nil]
  · have h1 : ∀ vs, f ≠ (2, pbf_data.packed vs) := fun vs e => h ⟨vs, e⟩
    rw [wire_tags_other f fs h1, wire_tags_other f [] h1, wire_tags_nil, List.nil_append]

theorem decode_feature_field_tags (s s1 : feature_state) (f : Nat × pbf_data)
    (h : decode_feature_field s f = some s1) :
    s1.feature.tags = s.feature.tags ++ wire_tags [f] := by
  obtain ⟨t, d⟩ := f
  unfold decode_feature_field at h
  simp only at h
  split at h
  · cases d <;> simp only [Option.some.injEq, reduceCtorEq] at h
    subst h
    rw [wire_tags_packed, wire_tags_nil, List.append_nil]
  · have hne : ∀ vs, ((3 : Nat), d) ≠ (2, pbf_data.packed vs) := by
      intro vs e
      have := congrArg Prod.fst e
      simp at this
    cases d <;> simp only [Option.some.injEq, reduceCtorEq] at h
    subst h
    rw [wire_tags_other _ _ hne, wire_tags_nil, List.append_nil]
  · have hne : ∀ vs, ((4 : Nat), d) ≠ (2, pbf_data.packed vs) := by
      intro vs e
      have := congrArg Prod.fst e
      simp at this
    cases d <;> simp only [Option.some.injEq, reduceCtorEq] at h
    subst h
    rw [wire_tags_other _ _ hne, wire_tags_nil, List.append_nil]
  · rename_i h2 h3 h4
    have hne : ∀ vs, (t, d) ≠ (2, pbf_data.packed vs) := by
      intro vs e
      have := congrArg Prod.fst e
      exact h2 this
    simp only [Option.some.injEq] at h
    subst h
    rw [wire_tags_other _ _ hne, wire_tags_nil, List.append_nil]

theorem decode_feature_loop_tags (fields : pbf_message) :
    ∀ s s1 : feature_state, decode_feature_loop s fields = some s1 →
      s1.feature.tags = s.feature.tags ++ wire_tags fields := by
  induction fields with
  | nil =>
    intro s s1 h
    simp only [decode_feature_loop, Option.some.injEq] at h
    subst h
    simp [wire_tags]
  | cons f fs ih =>
    intro s s1 h
    simp only [decode_feature_loop] at h
    cases hf : decode_feature_field s f with
    | none => rw [hf] at h; simp at h
    | some s2 =>
      rw [hf] at h
      simp only at h
      rw [ih s2 s1 h, decode_feature_field_tags s s2 f hf, wire_tags_cons f fs,
        List.append_assoc]

theorem decode_feature_tags (fields : pbf_message) (feature : mvt_feature)
    (h : decode_feature fields = some feature) : feature.tags = wire_tags fields := by
  unfold decode_feature at h
  cases hl : decode_feature_loop { feature := mvt_feature_init, geoms := [] } fields with
  | none => rw [hl] at h; simp at h
  | some s =>
    rw [hl] at h
    simp only at h
    cases hg : decode_geometry s.geoms with
    | none => rw [hg] at h; simp at h
    | some g =>
      rw [hg] at h
      simp only [Option.some.injEq] at h
      subst h
      have := decode_feature_loop_tags fields _ s hl
      simpa [mvt_feature_init] using this

theorem decode_layer_field_features (env : mvt_env) (l l1 : mvt_layer) (f : Nat × pbf_data)
    (h : decode_layer_field env l f = some l1) :
    ∀ x ∈ l1.features, x ∈ l.features ∨
      ∃ fields, f = (2, .message fields) ∧ decode_feature fields = some x := by
  obtain ⟨t, d⟩ := f
  unfold decode_layer_field at h
  simp only at h
  split at h
  · cases d <;> simp at h
    subst h; intro x hx; exact Or.inl hx
  · cases d <;> simp at h
    subst h; intro x hx; exact Or.inl hx
  · cases d <;> simp at h
    rename_i fields
    cases hv : decode_value_loop env.value_init fields with
    | none => rw [hv] at h; simp at h
    | some v =>
      rw [hv] at h
      simp only [Option.some.injEq] at h
      subst h; intro x hx; exact Or.inl hx
  · cases d <;> simp at h
    subst h; intro x hx; exact Or.inl hx
  · cases d <;> simp at h
    rename_i fields
    cases hv : decode_feature fields with
    | none => rw [hv] at h; simp at h
    | some v =>
      rw [hv] at h
      simp only [Option.some.injEq] at h
      subst h
      intro x hx
      simp only [List.mem_append, List.mem_singleton] at hx
      rcases hx with hx | rfl
      · exact Or.inl hx
      · exact Or.inr ⟨fields, rfl, hv⟩
  · simp at h
    subst h; intro x hx; exact Or.inl hx

theorem decode_layer_loop_features (env : mvt_env) (fields : pbf_message) :
    ∀ l l1 : mvt_layer, decode_layer_loop env l fields = some l1 →
      ∀ x ∈ l1.features, x ∈ l.features ∨
        ∃ ff, (2, pbf_data.message ff) ∈ fields ∧ decode_feature ff = some x := by
  induction fields with
  | nil =>
    intro l l1 h
    simp only [decode_layer_loop, Option.some.injEq] at h
    subst h
    intro x hx; exact Or.inl hx
  | cons f fs ih =>
    intro l l1 h x hx
    simp only [decode_layer_loop] at h
    cases hf : decode_layer_field env l f with
    | none => rw [hf] at h; simp at h
    | some l2 =>
      rw [hf] at h
      simp only at h
      rcases ih l2 l1 h x hx with h1 | ⟨ff, hm, hd⟩
      · rcases decode_layer_field_features env l l2 f hf x h1 with h2 | ⟨ff, rfl, hd⟩
        · exact Or.inl h2
        · exact Or.inr ⟨ff, by simp, hd⟩
      · exact Or.inr ⟨ff, List.mem_cons_of_mem _ hm, hd⟩

theorem decode_layer_features (env : mvt_env) (fields : pbf_message) (layer : mvt_layer)
    (h : decode_layer env fields = some layer) :
    ∀ x ∈ layer.features,
      ∃ ff, (2, pbf_data.message ff) ∈ fields ∧ decode_feature ff = some x := by
  unfold decode_layer at h
  cases hl : decode_layer_loop env mvt_layer_init fields with
  | none => rw [hl] at h; simp at h
  | some l =>
    rw [hl] at h
    simp only [Option.some.injEq] at h
    subst h
    intro x hx
    rcases decode_layer_loop_features env fields _ l hl x hx with h1 | h1
    · simp [mvt_layer_init] at h1
    · exact h1

theorem decode_tile_loop_layers (env : mvt_env) (fields : pbf_message) :
    ∀ ls ls1 : List mvt_layer, decode_tile_loop env ls fields = some ls1 →
      ∀ l ∈ ls1, l ∈ ls ∨
        ∃ lf, (3, pbf_data.message lf) ∈ fields ∧ decode_layer env lf = some l := by
  induction fields with
  | nil =>
    intro ls ls1 h
    simp only [decode_tile_loop, Option.some.injEq] at h
    subst h
    intro l hl; exact Or.inl hl
  | cons f fs ih =>
    intro ls ls1 h l hl
    simp only [decode_tile_loop] at h
    cases hf : decode_tile_field env ls f with
    | none => rw [hf] at h; simp at h
    | some ls2 =>
      rw [hf] at h
      simp only at h
      rcases ih ls2 ls1 h l hl with h1 | ⟨lf, hm, hd⟩
      · obtain ⟨t, d⟩ := f
        unfold decode_tile_field at hf
        simp only at hf
        split at hf
        · cases d <;> simp at hf
          rename_i lf
          cases hv : decode_layer env lf with
          | none => rw [hv] at hf; simp at hf
          | some v =>
            rw [hv] at hf
            simp only [Option.some.injEq] at hf
            subst hf
            simp only [List.mem_append, List.mem_singleton] at h1
            rcases h1 with h1 | rfl
            · exact Or.inl h1
            · exact Or.inr ⟨lf, by simp, hv⟩
        · simp at hf
          subst hf
          exact Or.inl h1
      · exact Or.inr ⟨lf, List.mem_cons_of_mem _ hm, hd⟩

theorem feature_messages_nil : feature_messages [] = [] := by
  rw [feature_messages]

theorem feature_messages_message (fields fs : pbf_message) :
    feature_messages ((2, .message fields) :: fs) = fields :: feature_messages fs := by
  rw [feature_messages]

theorem feature_messages_other (f : Nat × pbf_data) (fs : pbf_message)
    (h : ∀ fields, f ≠ (2, pbf_data.message fields)) :
    feature_messages (f :: fs) = feature_messages fs := by
  rw [feature_messages]
  intro fields hh
  exact h fields hh

theorem layer_messages_nil : layer_messages [] = [] := by
  rw [layer_messages]

theorem layer_messages_message (fields fs : pbf_message) :
    layer_messages ((3, .message fields) :: fs) = fields :: layer_messages fs := by
  rw [layer_messages]

theorem layer_messages_other (f : Nat × pbf_data) (fs : pbf_message)
    (h : ∀ fields, f ≠ (3, pbf_data.message fields)) :
    layer_messages (f :: fs) = layer_messages fs := by
  rw [layer_messages]
  intro fields hh
  exact h fields hh

theorem decode_layer_field_messages (env : mvt_env) (l l1 : mvt_layer) (f : Nat × pbf_data)
    (fs : pbf_message) (h : decode_layer_field env l f = some l1) :
    ∃ new, l1.features = l.features ++ new ∧
      (feature_messages (f :: fs)).map decode_feature
        = new.map some ++ (feature_messages fs).map decode_feature := by
  obtain ⟨t, d⟩ := f
  unfold decode_layer_field at h
  simp only at h
  split at h
  · have hne : ∀ fields, ((1 : Nat), d) ≠ (2, pbf_data.message fields) := by
      intro fields e
      have := congrArg Prod.fst e
      simp at this
    cases d <;> simp at h
    subst h
    exact ⟨[], by simp, by rw [feature_messages_other _ _ hne]; rfl⟩
  · have hne : ∀ fields, ((3 : Nat), d) ≠ (2, pbf_data.message fields) := by
      intro fields e
      have := congrArg Prod.fst e
      simp at this
    cases d <;> simp at h
    subst h
    exact ⟨[], by simp, by rw [feature_messages_other _ _ hne]; rfl⟩
  · have hne : ∀ fields, ((4 : Nat), d) ≠ (2, pbf_data.message fields) := by
      intro fields e
      have := congrArg Prod.fst e
      simp at this
    cases d <;> simp at h
    rename_i fields
    cases hv : decode_value_loop env.value_init fields with
    | none => rw [hv] at h; simp at h
    | some v =>
      rw [hv] at h
      simp only [Option.some.injEq] at h
      subst h
      exact ⟨[], by simp, by rw [feature_messages_other _ _ hne]; rfl⟩
  · have hne : ∀ fields, ((5 : Nat), d) ≠ (2, pbf_data.message fields) := by
      intro fields e
      have := congrArg Prod.fst e
      simp at this
    cases d <;> simp at h
    subst h
    exact ⟨[], by simp, by rw [feature_messages_other _ _ hne]; rfl⟩
  · cases d <;> simp at h
    rename_i fields
    cases hv : decode_feature fields with
    | none => rw [hv] at h; simp at h
    | some v =>
      rw [hv] at h
      simp only [Option.some.injEq] at h
      subst h
      refine ⟨[v], rfl, ?_⟩
      rw [feature_messages_message, List.map_cons, hv]
      rfl
  · rename_i h1 h3 h4 h5 h2
    have hne : ∀ fields, (t, d) ≠ (2, pbf_data.message fields) := by
      intro fields e
      have := congrArg Prod.fst e
      exact h2 this
    simp at h
    subst h
    exact ⟨[], by simp, by rw [feature_messages_other _ _ hne]; rfl⟩

theorem decode_layer_loop_messages (env : mvt_env) (fields : pbf_message) :
    ∀ l l1 : mvt_layer, decode_layer_loop env l fields = some l1 →
      ∃ new, l1.features = l.features ++ new ∧
        (feature_messages fields).map decode_feature = new.map some := by
  induction fields with
  | nil =>
    intro l l1 h
    simp only [decode_layer_loop, Option.some.injEq] at h
    subst h
    exact ⟨[], by simp, by rw [feature_messages_nil]; rfl⟩
  | cons f fs ih =>
    intro l l1 h
    simp only [decode_layer_loop] at h
    cases hf : decode_layer_field env l f with
    | none => rw [hf] at h; simp at h
    | some l2 =>
      rw [hf] at h
      simp only at h
      obtain ⟨new1, e1, m1⟩ := decode_layer_field_messages env l l2 f fs hf
      obtain ⟨new2, e2, m2⟩ := ih l2 l1 h
      refine ⟨new1 ++ new2, by rw [e2, e1, List.append_assoc], ?_⟩
      rw [m1, m2, List.map_append]

theorem decode_layer_messages (env : mvt_env) (fields : pbf_message) (layer : mvt_layer)
    (h : decode_layer env fields = some layer) :
    (feature_messages fields).map decode_feature = layer.features.map some := by
  unfold decode_layer at h
  cases hl : decode_layer_loop env mvt_layer_init fields with
  | none => rw [hl] at h; simp at h
  | some l =>
    rw [hl] at h
    simp only [Option.some.injEq] at h
    subst h
    obtain ⟨new, e, m⟩ := decode_layer_loop_messages env fields _ l hl
    simp only
    rw [m, e]
    simp [mvt_layer_init]

theorem decode_tile_field_messages (env : mvt_env) (ls ls1 : List mvt_layer)
    (f : Nat × pbf_data) (fs : pbf_message) (h : decode_tile_field env ls f = some ls1) :
    ∃ new, ls1 = ls ++ new ∧
      (layer_messages (f :: fs)).map (decode_layer env)
        = new.map some ++ (layer_messages fs).map (decode_layer env) := by
  obtain ⟨t, d⟩ := f
  unfold decode_tile_field at h
  simp only at h
  split at h
  · cases d <;> simp at h
    rename_i fields
    cases hv : decode_layer env fields with
    | none => rw [hv] at h; simp at h
    | some v =>
      rw [hv] at h
      simp only [Option.some.injEq] at h
      subst h
      refine ⟨[v], rfl, ?_⟩
      rw [layer_messages_message, List.map_cons, hv]
      rfl
  · rename_i h3
    have hne : ∀ fields, (t, d) ≠ (3, pbf_data.message fields) := by
      intro fields e
      have := congrArg Prod.fst e
      exact h3 this
    simp at h
    subst h
    exact ⟨[], by simp, by rw [layer_messages_other _ _ hne]; rfl⟩

theorem decode_tile_loop_messages (env : mvt_env) (fields : pbf_message) :
    ∀ ls ls1 : List mvt_layer, decode_tile_loop env ls fields = some ls1 →
      ∃ new, ls1 = ls ++ new ∧
        (layer_messages fields).map (decode_layer env) = new.map some := by
  induction fields with
  | nil =>
    intro ls ls1 h
    simp only [decode_tile_loop, Option.some.injEq] at h
    subst h
    exact ⟨[], by simp, by rw [layer_messages_nil]; rfl⟩
  | cons f fs ih =>
    intro ls ls1 h
    simp only [decode_tile_loop] at h
    cases hf : decode_tile_field env ls f with
    | none => rw [hf] at h; simp at h
    | some ls2 =>
      rw [hf] at h
      simp only at h
      obtain ⟨new1, e1, m1⟩ := decode_tile_field_messages env ls ls2 f fs hf
      obtain ⟨new2, e2, m2⟩ := ih ls2 ls1 h
      refine ⟨new1 ++ new2, by rw [e2, e1, List.append_assoc], ?_⟩
      rw [m1, m2, List.map_append]

theorem map_some_getElem? {α β : Type} (g : α → Option β) (xs : List α) (ys : List β)
    (h : xs.map g = ys.map some) :
    xs.length = ys.length ∧
      ∀ (i : Nat) (x : α) (y : β), xs[i]? = some x → ys[i]? = some y → g x = some y := by
  constructor
  · have := congrArg List.length h
    simpa using this
  · intro i x y hx hy
    have h1 : (xs.map g)[i]? = some (g x) := by rw [List.getElem?_map, hx]; rfl
    have h2 : (ys.map some)[i]? = some (some y) := by rw [List.getElem?_map, hy]; rfl
    rw [h, h2] at h1
    exact (Option.some.inj h1).symm

/-- C9, as the code has it: for every input that `decode` accepts, the decoded
tile has one layer per Layer message of the wire and each layer one feature per
Feature message of its Layer message, in wire order; the feature at position
`j` of the layer at position `i` is the one decoded from the Feature message
at position `j` of the Layer message at position `i`, and its tags are the
integers of the packed tags fields of that very message, in wire order; so
their number is even exactly when that message holds an even number of them. -/
theorem decoded_tags_are_wire_tags (env : mvt_env) (message : List Nat) (ok : Bool)
    (tile : mvt_tile) (h : mvt_tile.decode env message = some (ok, tile)) :
    ∃ tile_fields, env.pbf_read (decode_src env message) = some tile_fields ∧
      tile.layers.length = (layer_messages tile_fields).length ∧
      ∀ (i : Nat) (l : mvt_layer) (lf : pbf_message),
        tile.layers[i]? = some l → (layer_messages tile_fields)[i]? = some lf →
        l.features.length = (feature_messages lf).length ∧
        ∀ (j : Nat) (f : mvt_feature) (ff : pbf_message),
          l.features[j]? = some f → (feature_messages lf)[j]? = some ff →
          decode_feature ff = some f ∧ f.tags = wire_tags ff ∧
          (f.tags.length % 2 = 0 ↔ (wire_tags ff).length % 2 = 0) := by
  unfold mvt_tile.decode at h
  simp only at h
  cases hr : env.pbf_read (if is_compressed message = true then (decompress env message).2
      else message) with
  | none => rw [hr] at h; simp at h
  | some tf =>
    rw [hr] at h
    simp only at h
    cases hd : decode_tile_loop env [] tf with
    | none => rw [hd] at h; simp at h
    | some ls =>
      rw [hd] at h
      simp only [Option.some.injEq, Prod.mk.injEq] at h
      obtain ⟨_, rfl⟩ := h
      obtain ⟨new, e, m⟩ := decode_tile_loop_messages env tf [] ls hd
      rw [List.nil_append] at e
      subst e
      obtain ⟨hlen, hget⟩ := map_some_getElem? (decode_layer env) _ _ m
      refine ⟨tf, hr, hlen.symm, ?_⟩
      intro i l lf hl hlf
      have hdl := hget i lf l hlf hl
      obtain ⟨hlen2, hget2⟩ := map_some_getElem? decode_feature _ _
        (decode_layer_messages env lf l hdl)
      refine ⟨hlen2.symm, ?_⟩
      intro j f ff hf hff
      have hdf := hget2 j ff f hff hf
      have ht := decode_feature_tags ff f hdf
      exact ⟨hdf, ht, by rw [ht]⟩

/-- C9 as stated fails: a Feature message whose packed tags field holds the
single integer 7 (the buffer `1a 05 12 03 12 01 07`) is accepted and decodes
to a feature with one tag. -/
theorem odd_tags_decoded :
    mvt_tile.decode (sample_env_reading [(3, .message [(2, .message [(2, .packed [7])])])])
        [0x1a, 0x05, 0x12, 0x03, 0x12, 0x01, 0x07]
      = some (true, { layers := [{ mvt_layer_init with
          features := [{ type := 0, tags := [7], geometry := [] }] }] }) ∧
    ¬ (∀ (env : mvt_env) (message : List Nat) (ok : Bool) (tile : mvt_tile),
        mvt_tile.decode env message = some (ok, tile) →
        ∀ l ∈ tile.layers, ∀ f ∈ l.features, f.tags.length % 2 = 0) := by
  have h1 : mvt_tile.decode (sample_env_reading [(3, .message [(2, .message [(2, .packed [7])])])])
        [0x1a, 0x05, 0x12, 0x03, 0x12, 0x01, 0x07]
      = some (true, { layers := [{ mvt_layer_init with
          features := [{ type := 0, tags := [7], geometry := [] }] }] }) := by decide
  refine ⟨h1, ?_⟩
  intro h
  have := h _ _ _ _ h1 _ (List.mem_singleton.2 rfl) _ (List.mem_singleton.2 rfl)
  simp at this

/-- Witness of the amended C9 on the buffer of `odd_tags_decoded`. -/
theorem decoded_tags_are_wire_tags_witness :
    mvt_tile.decode (sample_env_reading [(3, .message [(2, .message [(2, .packed [7])])])])
        [0x1a, 0x05, 0x12, 0x03, 0x12, 0x01, 0x07]
      = some (true, { layers := [{ mvt_layer_init with
          features := [{ type := 0, tags := [7], geometry := [] }] }] }) ∧
    wire_tags [(2, .packed [7])] = [7] ∧
    ∃ tile_fields,
      (sample_env_reading [(3, .message [(2, .message [(2, .packed [7])])])]).pbf_read
        (decode_src (sample_env_reading [(3, .message [(2, .message [(2, .packed [7])])])])
          [0x1a, 0x05, 0x12, 0x03, 0x12, 0x01, 0x07]) = some tile_fields ∧
      [{ mvt_layer_init with
          features := [({ type := 0, tags := [7], geometry := [] } : mvt_feature)] }].length
        = (layer_messages tile_fields).length ∧
      ∀ (i : Nat) (l : mvt_layer) (lf : pbf_message),
        [{ mvt_layer_init with
          features := [({ type := 0, tags := [7], geometry := [] } : mvt_feature)] }][i]?
            = some l →
        (layer_messages tile_fields)[i]? = some lf →
        l.features.length = (feature_messages lf).length ∧
        ∀ (j : Nat) (f : mvt_feature) (ff : pbf_message),
          l.features[j]? = some f → (feature_messages lf)[j]? = some ff →
          decode_feature ff = some f ∧ f.tags = wire_tags ff ∧
          (f.tags.length % 2 = 0 ↔ (wire_tags ff).length % 2 = 0) :=
  ⟨by decide, by decide,
    decoded_tags_are_wire_tags
      (sample_env_reading [(3, .message [(2, .message [(2, .packed [7])])])])
      [0x1a, 0x05, 0x12, 0x03, 0x12, 0x01, 0x07] true _ (by decide)⟩

theorem decode_layer_loop_append (env : mvt_env) (a b : pbf_message) :
    ∀ l : mvt_layer,
      decode_layer_loop env l (a ++ b)
        = (decode_layer_loop env l a).bind (fun l1 => decode_layer_loop env l1 b) := by
  induction a with
  | nil => intro l; rfl
  | cons f fs ih =>
    intro l
    simp only [List.cons_append, decode_layer_loop]
    cases decode_layer_field env l f with
    | none => rfl
    | some l1 => exact ih l1

theorem decode_feature_loop_append (a b : pbf_message) :
    ∀ s : feature_state,
      decode_feature_loop s (a ++ b)
        = (decode_feature_loop s a).bind (fun s1 => decode_feature_loop s1 b) := by
  induction a with
  | nil => intro s; rfl
  | cons f fs ih =>
    intro s
    simp only [List.cons_append, decode_feature_loop]
    cases decode_feature_field s f with
    | none => rfl
    | some s1 => exact ih s1

theorem decode_tile_loop_append (env : mvt_env) (a b : pbf_message) :
    ∀ ls : List mvt_layer,
      decode_tile_loop env ls (a ++ b)
        = (decode_tile_loop env ls a).bind (fun ls1 => decode_tile_loop env ls1 b) := by
  induction a with
  | nil => intro ls; rfl
  | cons f fs ih =>
    intro ls
    simp only [List.cons_append, decode_tile_loop]
    cases decode_tile_field env ls f with
    | none => rfl
    | some ls1 => exact ih ls1

theorem decode_layer_field_skip (env : mvt_env) (l : mvt_layer) (t : Nat) (d : pbf_data)
    (h1 : t ≠ 1) (h2 : t ≠ 2) (h3 : t ≠ 3) (h4 : t ≠ 4) (h5 : t ≠ 5) :
    decode_layer_field env l (t, d) = some l := by
  unfold decode_layer_field
  split
  · rename_i e; exact absurd e h1
  · rename_i e; exact absurd e h3
  · rename_i e; exact absurd e h4
  · rename_i e; exact absurd e h5
  · rename_i e; exact absurd e h2
  · rfl

theorem decode_feature_field_skip (s : feature_state) (t : Nat) (d : pbf_data)
    (h2 : t ≠ 2) (h3 : t ≠ 3) (h4 : t ≠ 4) :
    decode_feature_field s (t, d) = some s := by
  unfold decode_feature_field
  split
  · rename_i e; exact absurd e h2
  · rename_i e; exact absurd e h3
  · rename_i e; exact absurd e h4
  · rfl

theorem decode_tile_field_skip (env : mvt_env) (ls : List mvt_layer) (t : Nat) (d : pbf_data)
    (h3 : t ≠ 3) : decode_tile_field env ls (t, d) = some ls := by
  unfold decode_tile_field
  split
  · rename_i e; exact absurd e h3
  · rfl

theorem decode_layer_loop_skip (env : mvt_env) (pre post : pbf_message) (t : Nat) (d : pbf_data)
    (h1 : t ≠ 1) (h2 : t ≠ 2) (h3 : t ≠ 3) (h4 : t ≠ 4) (h5 : t ≠ 5) (l : mvt_layer) :
    decode_layer_loop env l (pre ++ (t, d) :: post) = decode_layer_loop env l (pre ++ post) := by
  rw [decode_layer_loop_append, decode_layer_loop_append]
  cases decode_layer_loop env l pre with
  | none => rfl
  | some l1 =>
    simp only [Option.bind, decode_layer_loop, decode_layer_field_skip env l1 t d h1 h2 h3 h4 h5]

theorem decode_feature_loop_skip (pre post : pbf_message) (t : Nat) (d : pbf_data)
    (h2 : t ≠ 2) (h3 : t ≠ 3) (h4 : t ≠ 4) (s : feature_state) :
    decode_feature_loop s (pre ++ (t, d) :: post) = decode_feature_loop s (pre ++ post) := by
  rw [decode_feature_loop_append, decode_feature_loop_append]
  cases decode_feature_loop s pre with
  | none => rfl
  | some s1 =>
    simp only [Option.bind, decode_feature_loop, decode_feature_field_skip s1 t d h2 h3 h4]

theorem decode_tile_loop_skip (env : mvt_env) (pre post : pbf_message) (t : Nat) (d : pbf_data)
    (h3 : t ≠ 3) (ls : List mvt_layer) :
    decode_tile_loop env ls (pre ++ (t, d) :: post) = decode_tile_loop env ls (pre ++ post) := by
  rw [decode_tile_loop_append, decode_tile_loop_append]
  cases decode_tile_loop env ls pre with
  | none => rfl
  | some ls1 =>
    simp only [Option.bind, decode_tile_loop, decode_tile_field_skip env ls1 t d h3]

/-- A Layer message inside a tile message can be replaced by one that decodes alike. -/
theorem decode_tile_loop_congr (env : mvt_env) (x y : pbf_message)
    (h : decode_layer env x = decode_layer env y) (a b : pbf_message) (ls : List mvt_layer) :
    decode_tile_loop env ls (a ++ (3, .message x) :: b)
      = decode_tile_loop env ls (a ++ (3, .message y) :: b) := by
  rw [decode_tile_loop_append, decode_tile_loop_append]
  cases decode_tile_loop env ls a with
  | none => rfl
  | some ls1 =>
    simp only [Option.bind, decode_tile_loop, decode_tile_field, h]

/-- A Feature message inside a Layer message can be replaced by one that decodes alike. -/
theorem decode_layer_congr (env : mvt_env) (x y : pbf_message)
    (h : decode_feature x = decode_feature y) (a b : pbf_message) :
    decode_layer env (a ++ (2, .message x) :: b) = decode_layer env (a ++ (2, .message y) :: b) := by
  unfold decode_layer
  rw [decode_layer_loop_append, decode_layer_loop_append]
  cases decode_layer_loop env mvt_layer_init a with
  | none => rfl
  | some l1 =>
    simp only [Option.bind, decode_layer_loop, decode_layer_field, h]

/-- `decode` returns `true` whenever it returns. -/
theorem decode_flag (env : mvt_env) (message : List Nat) (ok : Bool) (tile : mvt_tile)
    (h : mvt_tile.decode env message = some (ok, tile)) : ok = true := by
  unfold mvt_tile.decode at h
  simp only at h
  split at h
  · simp at h
  · split at h
    · simp at h
    · simp only [Option.some.injEq, Prod.mk.injEq] at h
      exact h.1.symm

/-- The result of `decode` is fixed by the fields the reader finds in `src`. -/
theorem decode_of_read (env : mvt_env) (message : List Nat) (fields : pbf_message)
    (h : env.pbf_read (decode_src env message) = some fields) :
    mvt_tile.decode env message
      = (decode_tile_loop env [] fields).bind (fun ls => some (true, { layers := ls })) := by
  unfold decode_src at h
  unfold mvt_tile.decode
  simp only [h]
  cases decode_tile_loop env [] fields <;> rfl

/-- C11. Unknown-field forward compatibility: a field whose number the layer
decoder does not recognise (not 1, 2, 3, 4, 5; for instance 99), inserted at any
position of a Layer message, leaves the outcome of decoding the layer unchanged
(the same layer, name, extent, keys, values and features included); likewise a
field other than 2, 3, 4 inside a Feature message and a field other than 3 at
tile level, also when the message sits inside a Layer or a tile message; and
`decode` reports success whenever it returns. -/
theorem unknown_field_ignored (env : mvt_env) (t : Nat) (d : pbf_data) (pre post : pbf_message) :
    (t ≠ 1 → t ≠ 2 → t ≠ 3 → t ≠ 4 → t ≠ 5 →
      decode_layer env (pre ++ (t, d) :: post) = decode_layer env (pre ++ post) ∧
      ∀ (a b : pbf_message) (ls : List mvt_layer),
        decode_tile_loop env ls (a ++ (3, .message (pre ++ (t, d) :: post)) :: b)
          = decode_tile_loop env ls (a ++ (3, .message (pre ++ post)) :: b)) ∧
    (t ≠ 2 → t ≠ 3 → t ≠ 4 →
      decode_feature (pre ++ (t, d) :: post) = decode_feature (pre ++ post) ∧
      ∀ (a b a1 b1 : pbf_message) (ls : List mvt_layer),
        decode_tile_loop env ls
            (a1 ++ (3, .message (a ++ (2, .message (pre ++ (t, d) :: post)) :: b)) :: b1)
          = decode_tile_loop env ls
            (a1 ++ (3, .message (a ++ (2, .message (pre ++ post)) :: b)) :: b1)) ∧
    (t ≠ 3 →
      (∀ ls : List mvt_layer,
        decode_tile_loop env ls (pre ++ (t, d) :: post) = decode_tile_loop env ls (pre ++ post)) ∧
      ∀ m1 m2 : List Nat,
        env.pbf_read (decode_src env m1) = some (pre ++ (t, d) :: post) →
        env.pbf_read (decode_src env m2) = some (pre ++ post) →
        mvt_tile.decode env m1 = mvt_tile.decode env m2) ∧
    (∀ (message : List Nat) (ok : Bool) (tile : mvt_tile),
      mvt_tile.decode env message = some (ok, tile) → ok = true) := by
  refine ⟨?_, ?_, ?_, fun message ok tile h => decode_flag env message ok tile h⟩
  · intro h1 h2 h3 h4 h5
    have hl : decode_layer env (pre ++ (t, d) :: post) = decode_layer env (pre ++ post) := by
      unfold decode_layer
      rw [decode_layer_loop_skip env pre post t d h1 h2 h3 h4 h5]
    exact ⟨hl, fun a b ls => decode_tile_loop_congr env _ _ hl a b ls⟩
  · intro h2 h3 h4
    have hf : decode_feature (pre ++ (t, d) :: post) = decode_feature (pre ++ post) := by
      unfold decode_feature
      rw [decode_feature_loop_skip pre post t d h2 h3 h4]
    exact ⟨hf, fun a b a1 b1 ls =>
      decode_tile_loop_congr env _ _ (decode_layer_congr env _ _ hf a b) a1 b1 ls⟩
  · intro h3
    refine ⟨fun ls => decode_tile_loop_skip env pre post t d h3 ls, ?_⟩
    intro m1 m2 e1 e2
    rw [decode_of_read env m1 _ e1, decode_of_read env m2 _ e2,
      decode_tile_loop_skip env pre post t d h3]

/-- Witness of C11: field 99 between the name and the extent of a layer. -/
theorem unknown_field_ignored_witness :
    decode_layer sample_env ([(1, .string "roads")] ++ (99, .varint 7) :: [(5, .varint 512)])
      = decode_layer sample_env ([(1, .string "roads")] ++ [(5, .varint 512)]) ∧
    decode_layer sample_env ([(1, .string "roads")] ++ [(5, .varint 512)])
      = some { mvt_layer_init with name := "roads", extent := 512 } :=
  ⟨((unknown_field_ignored sample_env 99 (.varint 7) [(1, .string "roads")]
      [(5, .varint 512)]).1 (by decide) (by decide) (by decide) (by decide) (by decide)).1,
    rfl⟩

/-- C12, the failing case: on the buffer `1F 8B 00 00`, which `is_compressed`
accepts and on which `decompress` returns 0, `decode` goes on with what is in
`uncompressed` and reports success with a tile; in general the result of
`decode` on a compressed buffer does not depend on what `decompress` returned. -/
theorem decompress_failure_ignored :
    is_compressed [0x1F, 0x8B, 0, 0] = true ∧
    (decompress inflate_failing_env [0x1F, 0x8B, 0, 0]).1 = 0 ∧
    mvt_tile.decode inflate_failing_env [0x1F, 0x8B, 0, 0] = some (true, { layers := [] }) ∧
    ∀ (env : mvt_env) (message : List Nat), is_compressed message = true →
      mvt_tile.decode env message
        = (env.pbf_read (decompress env message).2).bind
            (fun fields => (decode_tile_loop env [] fields).bind
              (fun ls => some (true, { layers := ls }))) := by
  refine ⟨by decide, by decide, by decide, ?_⟩
  intro env message h
  have hs : decode_src env message = (decompress env message).2 := by
    unfold decode_src; simp [h]
  cases h1 : env.pbf_read (decompress env message).2 with
  | none =>
    unfold mvt_tile.decode
    simp only [h, if_true, h1]
    rfl
  | some fields =>
    rw [decode_of_read env message fields (by rw [hs]; exact h1)]
    rfl

theorem decode_coords_reads_lt (geoms : List Nat) :
    ∀ (n g : Nat), ∀ i ∈ decode_coords_reads geoms n g, i < geoms.length := by
  intro n
  induction n with
  | zero => intro g i hi; simp [decode_coords_reads] at hi
  | succ n ih =>
    intro g i hi
    simp only [decode_coords_reads] at hi
    split_ifs at hi with h
    · simp only [List.mem_cons] at hi
      rcases hi with rfl | rfl | hi
      · omega
      · exact h
      · exact ih (g + 2) i hi
    · simp at hi

theorem decode_loop_reads_lt (geoms : List Nat) :
    ∀ (fuel : Nat) (c : decode_cursor), ∀ i ∈ decode_loop_reads geoms fuel c,
      i < geoms.length := by
  intro fuel
  induction fuel with
  | zero =>
    intro c i hi
    rw [decode_loop_reads] at hi
    split at hi <;> simp at hi
  | succ f ih =>
    intro c i hi
    rw [decode_loop_reads] at hi
    split at hi
    · rename_i h
      simp only at hi
      split_ifs at hi
      · simp only [List.mem_cons, List.mem_append] at hi
        rcases hi with rfl | hi | hi
        · exact h
        · exact decode_coords_reads_lt geoms _ _ i hi
        · exact ih _ i hi
      · simp only [List.mem_cons] at hi
        rcases hi with rfl | hi
        · exact h
        · exact ih _ i hi
    · simp at hi

theorem decode_coords_advance (geoms : List Nat) (op : Nat) :
    ∀ (n : Nat) (c : decode_cursor),
      c.g ≤ (decode_coords geoms op n c).g ∧
      (c.g < geoms.length → (decode_coords geoms op n c).g < geoms.length) ∧
      2 * (decode_coords geoms op n c).geometry.length + c.g
        = 2 * c.geometry.length + (decode_coords geoms op n c).g := by
  intro n
  induction n with
  | zero => intro c; simp [decode_coords]
  | succ n ih =>
    intro c
    rw [decode_coords]
    split
    · rename_i h
      obtain ⟨h1, h2, h3⟩ := ih
        ⟨c.g + 2, c.px + decode_zigzag32 geoms[c.g + 1],
          c.py + decode_zigzag32 geoms[c.g + 2],
          c.geometry ++ [⟨(op : Int), c.px + decode_zigzag32 geoms[c.g + 1],
            c.py + decode_zigzag32 geoms[c.g + 2]⟩]⟩
      simp only [List.length_append, List.length_singleton] at h1 h2 h3
      simp only
      refine ⟨by omega, fun _ => h2 (by omega), by omega⟩
    · exact ⟨le_refl _, fun h => h, rfl⟩

theorem decode_loop_total (geoms : List Nat) :
    ∀ (fuel : Nat) (c : decode_cursor), geoms.length ≤ c.g + fuel →
      ∃ out, decode_loop geoms fuel c = some out ∧
        out.length ≤ c.geometry.length + (geoms.length - c.g) := by
  intro fuel
  induction fuel with
  | zero =>
    intro c hc
    exact ⟨c.geometry, decode_loop_done geoms 0 c (by omega), by omega⟩
  | succ f ih =>
    intro c hc
    by_cases h : c.g < geoms.length
    · rw [decode_loop_succ geoms f c h]
      split_ifs
      · obtain ⟨h1, h2, h3⟩ := decode_coords_advance geoms (geoms[c.g] &&& 7)
          (geoms[c.g] >>> 3) c
        have h2g := h2 h
        obtain ⟨out, ho, hl⟩ := ih
          { decode_coords geoms (geoms[c.g] &&& 7) (geoms[c.g] >>> 3) c with
            g := (decode_coords geoms (geoms[c.g] &&& 7) (geoms[c.g] >>> 3) c).g + 1 }
          (by simp only; omega)
        simp only at hl
        exact ⟨out, ho, by omega⟩
      · obtain ⟨out, ho, hl⟩ := ih
          { c with g := c.g + 1,
                   geometry := c.geometry ++
                     [{ op := ((geoms[c.g] &&& 7 : Nat) : Int), x := 0, y := 0 }] }
          (by simp only; omega)
        simp only [List.length_append, List.length_singleton] at hl
        exact ⟨out, ho, by omega⟩
    · exact ⟨c.geometry, decode_loop_done geoms _ c h, by omega⟩

/-- C13. Geometry decoding is total and in bounds: for every sequence of
command words the loop ends with a result within one iteration per word, every
position it reads (`g`, `g + 1`, `g + 2`) lies inside the sequence, and it emits
at most as many operations as there are words. -/
theorem decode_geometry_total (geoms : List Nat) :
    (∃ ops, decode_geometry geoms = some ops ∧ ops.length ≤ geoms.length) ∧
    ∀ i ∈ decode_loop_reads geoms geoms.length { g := 0, px := 0, py := 0, geometry := [] },
      i < geoms.length := by
  refine ⟨?_, decode_loop_reads_lt geoms _ _⟩
  obtain ⟨out, ho, hl⟩ := decode_loop_total geoms geoms.length
    { g := 0, px := 0, py := 0, geometry := [] } (by simp)
  exact ⟨out, ho, by simpa using hl⟩

theorem decode_coords_pairs (op : Nat) (W : List Nat) :
    ∀ (pairs : List (Nat × Nat)) (A B : List Nat) (p : Int × Int) (out : List mvt_geometry)
      (g k : Nat),
      W = A ++ (pair_words pairs ++ B) → A.length = g + 1 →
      decode_coords W op (pairs.length + k) { g := g, px := p.1, py := p.2, geometry := out }
        = decode_coords W op k
            { g := g + 2 * pairs.length, px := (final_position p pairs).1,
              py := (final_position p pairs).2,
              geometry := out ++ (running_positions p pairs).map
                (fun q => { op := (op : Int), x := q.1, y := q.2 }) } := by
  intro pairs
  induction pairs with
  | nil =>
    intro A B p out g k _ _
    simp [final_position, running_positions]
  | cons d ds ih =>
    intro A B p out g k hW hA
    have hWo : W = A ++ d.1 :: d.2 :: (pair_words ds ++ B) := by
      rw [hW]; simp [pair_words]
    have hlt : g + 2 < W.length := by
      rw [hWo]; simp; omega
    have hcount : (d :: ds).length + k = (ds.length + k) + 1 := by simp; omega
    rw [hcount, decode_coords]
    simp only
    rw [dif_pos hlt]
    have e1 : W[g + 1] = d.1 := by
      have := getElem_append_head A d.1 (d.2 :: (pair_words ds ++ B))
        (g + 1) (by rw [← hWo]; omega) hA.symm
      simpa [← hWo] using this
    have e2 : W[g + 2] = d.2 := by
      have := getElem_append_second A d.1 d.2 (pair_words ds ++ B)
        (g + 2) (by rw [← hWo]; omega) (by omega)
      simpa [← hWo] using this
    rw [e1, e2]
    have := ih (A ++ [d.1, d.2]) B (p.1 + decode_zigzag32 d.1, p.2 + decode_zigzag32 d.2)
      (out ++ [{ op := (op : Int), x := p.1 + decode_zigzag32 d.1,
                 y := p.2 + decode_zigzag32 d.2 }]) (g + 2) k
      (by rw [hWo]; simp) (by simp; omega)
    simp only at this
    rw [this]
    simp only [final_position, running_positions, List.length_cons, List.map_cons]
    have e3 : g + 2 + 2 * ds.length = g + 2 * (ds.length + 1) := by omega
    rw [e3, List.append_assoc]
    rfl

theorem pair_words_length (pairs : List (Nat × Nat)) :
    (pair_words pairs).length = 2 * pairs.length := by
  induction pairs with
  | nil => rfl
  | cons d ds ih => simp [pair_words, ih]; omega

theorem decode_loop_stream (W : List Nat) :
    ∀ (cmds : List geometry_command) (A : List Nat) (p : Int × Int)
      (out : List mvt_geometry) (fuel : Nat),
      W = A ++ stream_words cmds → (∀ c ∈ cmds, complete_command c) → cmds.length ≤ fuel →
      decode_loop W fuel { g := A.length, px := p.1, py := p.2, geometry := out }
        = some (out ++ stream_ops p cmds) := by
  intro cmds
  induction cmds with
  | nil =>
    intro A p out fuel hW _ _
    rw [decode_loop_done]
    · simp [stream_ops]
    · rw [hW]; simp [stream_words]
  | cons c cs ih =>
    intro A p out fuel hW hok hfuel
    have hc := hok c (by simp)
    have hcs : ∀ x ∈ cs, complete_command x := fun x hx => hok x (List.mem_cons_of_mem _ hx)
    cases fuel with
    | zero => simp at hfuel
    | succ f =>
      have hf : cs.length ≤ f := by simpa using hfuel
      cases c with
      | draw op pairs =>
        have hop : (op : Int) = mvt_moveto ∨ (op : Int) = mvt_lineto := hc
        have hop8 : op < 8 := by
          rcases hop with h | h
          · have : (op : Int) = 1 := h
            omega
          · have : (op : Int) = 2 := h
            omega
        have hW1 : W = A ++ ((pairs.length <<< 3) ||| op) ::
            (pair_words pairs ++ stream_words cs) := by
          rw [hW]; simp [stream_words, command_words]
        have hlt : A.length < W.length := by rw [hW1]; simp
        have hword : W[A.length] = (pairs.length <<< 3) ||| op := by
          have := getElem_append_head A ((pairs.length <<< 3) ||| op)
            (pair_words pairs ++ stream_words cs) A.length (by rw [← hW1]; exact hlt) rfl
          simpa [← hW1] using this
        have h7 : ((pairs.length <<< 3) ||| op) &&& 7 = op := by
          rw [word_and_seven, word_or_eq_add _ _ hop8]; omega
        have h3 : ((pairs.length <<< 3) ||| op) >>> 3 = pairs.length := by
          rw [word_shift_three, word_or_eq_add _ _ hop8]; omega
        rw [decode_loop_succ W f _ hlt]
        simp only [hword]
        rw [h7, h3, if_pos hop]
        have hin := decode_coords_pairs op W pairs (A ++ [(pairs.length <<< 3) ||| op])
          (stream_words cs) p out A.length 0 (by rw [hW1]; simp) (by simp)
        simp only [Nat.add_zero] at hin
        rw [hin]
        simp only [decode_coords]
        have := ih (A ++ ((pairs.length <<< 3) ||| op) :: pair_words pairs)
          (final_position p pairs)
          (out ++ (running_positions p pairs).map
            (fun q => { op := (op : Int), x := q.1, y := q.2 })) f
          (by rw [hW1]; simp) hcs hf
        have hidx : (A ++ ((pairs.length <<< 3) ||| op) :: pair_words pairs).length
            = A.length + 2 * pairs.length + 1 := by
          simp only [List.length_append, List.length_cons, pair_words_length]
          omega
        rw [hidx] at this
        rw [this]
        simp [stream_ops]
      | other word =>
        have hW1 : W = A ++ word :: stream_words cs := by
          rw [hW]; simp [stream_words, command_words]
        rw [decode_loop_other W A (stream_words cs) word _ f hW1 rfl hc]
        have := ih (A ++ [word]) p
          (out ++ [{ op := ((word &&& 7 : Nat) : Int), x := 0, y := 0 }]) f
          (by rw [hW1]; simp) hcs hf
        simp only [List.length_append, List.length_singleton] at this
        rw [this]
        simp [stream_ops]

theorem stream_words_length_ge (cmds : List geometry_command) :
    cmds.length ≤ (stream_words cmds).length := by
  induction cmds with
  | nil => simp
  | cons c cs ih =>
    cases c <;> simp [stream_words, command_words] <;> omega

theorem running_positions_append (ds es : List (Nat × Nat)) :
    ∀ p : Int × Int,
      running_positions p (ds ++ es)
        = running_positions p ds ++ running_positions (final_position p ds) es := by
  induction ds with
  | nil => intro p; rfl
  | cons d ds ih => intro p; simp [running_positions, final_position, ih]

theorem running_positions_length (ds : List (Nat × Nat)) :
    ∀ p : Int × Int, (running_positions p ds).length = ds.length := by
  induction ds with
  | nil => intro p; rfl
  | cons d ds ih => intro p; simp [running_positions, ih]

theorem running_positions_getElem (ds : List (Nat × Nat)) :
    ∀ (p q : Int × Int) (i : Nat), (running_positions p ds)[i]? = some q →
      q.1 = p.1 + ((ds.take (i + 1)).map (fun d => decode_zigzag32 d.1)).sum ∧
      q.2 = p.2 + ((ds.take (i + 1)).map (fun d => decode_zigzag32 d.2)).sum := by
  induction ds with
  | nil => intro p q i h; simp [running_positions] at h
  | cons d ds ih =>
    intro p q i h
    cases i with
    | zero =>
      simp only [running_positions, List.getElem?_cons_zero, Option.some.injEq] at h
      subst h
      simp
    | succ i =>
      simp only [running_positions, List.getElem?_cons_succ] at h
      have := ih _ q i h
      simp only [List.take_succ_cons, List.map_cons, List.sum_cons]
      constructor
      · rw [this.1]; ring
      · rw [this.2]; ring

theorem filter_draw_map (op : Nat) (h : (op : Int) = mvt_moveto ∨ (op : Int) = mvt_lineto)
    (qs : List (Int × Int)) :
    ((qs.map (fun q => ({ op := (op : Int), x := q.1, y := q.2 } : mvt_geometry))).filter
      is_draw).map (fun o => (o.x, o.y)) = qs := by
  induction qs with
  | nil => rfl
  | cons q qs ih =>
    have hd : is_draw { op := (op : Int), x := q.1, y := q.2 } = true := by
      simp only [is_draw, decide_eq_true_eq]; exact h
    rw [List.map_cons, List.filter_cons_of_pos hd, List.map_cons, ih]

theorem stream_ops_positions (cmds : List geometry_command) :
    ∀ p : Int × Int, (∀ c ∈ cmds, complete_command c) →
      ((stream_ops p cmds).filter is_draw).map (fun o => (o.x, o.y))
        = running_positions p (stream_pairs cmds) := by
  induction cmds with
  | nil => intro p _; rfl
  | cons c cs ih =>
    intro p hok
    have hc := hok c (by simp)
    have hcs : ∀ x ∈ cs, complete_command x := fun x hx => hok x (List.mem_cons_of_mem _ hx)
    cases c with
    | draw op pairs =>
      simp only [stream_ops, stream_pairs]
      rw [List.filter_append, List.map_append, filter_draw_map op hc, ih _ hcs,
        running_positions_append]
    | other word =>
      have hd : ¬ is_draw { op := ((word &&& 7 : Nat) : Int), x := 0, y := 0 } = true := by
        simp only [is_draw, decide_eq_true_eq]; exact hc
      simp only [stream_ops, stream_pairs]
      rw [List.filter_cons_of_neg hd, ih _ hcs]

theorem decode_stream (cmds : List geometry_command)
    (h : ∀ c ∈ cmds, complete_command c) :
    decode_geometry (stream_words cmds) = some (stream_ops (0, 0) cmds) := by
  have := decode_loop_stream (stream_words cmds) cmds [] (0, 0) [] (stream_words cmds).length
    (by simp) h (stream_words_length_ge cmds)
  simpa [decode_geometry] using this

/-- C15: the running position is per feature.  For every command stream in
which each MoveTo/LineTo command is followed by all `2 * count` of its
coordinate words (and every other word has another opcode), the decoder
returns, emits one MoveTo/LineTo operation per coordinate pair, and the one
at index `i` (counting from 0) has `x` and `y` equal to the sums of the first
`i + 1` zigzag-decoded `dx` and `dy` of the whole stream, starting from
`(0, 0)`: neither a new MoveTo command nor a ClosePath resets the position. -/
theorem running_position_per_feature (cmds : List geometry_command)
    (h : ∀ c ∈ cmds, complete_command c) :
    ∃ ops, decode_geometry (stream_words cmds) = some ops ∧
      (ops.filter is_draw).length = (stream_pairs cmds).length ∧
      ∀ (i : Nat) (o : mvt_geometry), (ops.filter is_draw)[i]? = some o →
        o.x = (((stream_pairs cmds).take (i + 1)).map (fun d => decode_zigzag32 d.1)).sum ∧
        o.y = (((stream_pairs cmds).take (i + 1)).map (fun d => decode_zigzag32 d.2)).sum := by
  refine ⟨stream_ops (0, 0) cmds, decode_stream cmds h, ?_, ?_⟩
  · have := congrArg List.length (stream_ops_positions cmds (0, 0) h)
    simpa [running_positions_length] using this
  · intro i o hi
    have hpos : (running_positions (0, 0) (stream_pairs cmds))[i]? = some (o.x, o.y) := by
      rw [← stream_ops_positions cmds (0, 0) h, List.getElem?_map, hi]
      rfl
    have := running_positions_getElem _ _ _ i hpos
    simpa using this

/-- C15 at a concrete stream: MoveTo (1, 1), ClosePath, then a second MoveTo
by (3, 3); the second subpath starts at (4, 4), not at (3, 3). -/
theorem running_position_per_feature_witness :
    (∀ c ∈ [geometry_command.draw 1 [(2, 2)], .other 15, .draw 1 [(6, 6)]],
      complete_command c) ∧
    stream_words [geometry_command.draw 1 [(2, 2)], .other 15, .draw 1 [(6, 6)]]
      = [9, 2, 2, 15, 9, 6, 6] ∧
    decode_geometry [9, 2, 2, 15, 9, 6, 6] = some [⟨1, 1, 1⟩, ⟨7, 0, 0⟩, ⟨1, 4, 4⟩] ∧
    ∃ ops, decode_geometry (stream_words [geometry_command.draw 1 [(2, 2)], .other 15,
        .draw 1 [(6, 6)]]) = some ops ∧
      (ops.filter is_draw).length
        = (stream_pairs [geometry_command.draw 1 [(2, 2)], .other 15, .draw 1 [(6, 6)]]).length ∧
      ∀ (i : Nat) (o : mvt_geometry), (ops.filter is_draw)[i]? = some o →
        o.x = (((stream_pairs [geometry_command.draw 1 [(2, 2)], .other 15,
          .draw 1 [(6, 6)]]).take (i + 1)).map (fun d => decode_zigzag32 d.1)).sum ∧
        o.y = (((stream_pairs [geometry_command.draw 1 [(2, 2)], .other 15,
          .draw 1 [(6, 6)]]).take (i + 1)).map (fun d => decode_zigzag32 d.2)).sum :=
  ⟨by decide, by decide, by decide, running_position_per_feature _ (by decide)⟩

theorem map_find_congr {κ π : Type} (lt : κ → κ → Bool) (proj : κ → π)
    (hequiv : ∀ a b, (!lt a b && !lt b a) = true ↔ proj a = proj b)
    (m : List (κ × Nat)) (k q : κ) (h : proj k = proj q) :
    map_find lt m k = map_find lt m q := by
  have hp : (fun e : κ × Nat => !lt e.1 k && !lt k e.1)
      = (fun e : κ × Nat => !lt e.1 q && !lt q e.1) := by
    funext e
    rw [Bool.eq_iff_iff, hequiv, hequiv, h]
  unfold map_find
  rw [hp]

theorem map_insert_find_some {κ : Type} (lt : κ → κ → Bool) (m : List (κ × Nat)) (k q : κ)
    (i n : Nat) (h : map_find lt m q = some n) :
    map_find lt (map_insert lt m k i) q = some n := by
  unfold map_insert
  cases hk : map_find lt m k with
  | some _ => exact h
  | none =>
    simp only
    rw [map_find_append, h]

theorem index_insert_all_stable {κ : Type} (lt : κ → κ → Bool) (ks : List κ) :
    ∀ (m : List (κ × Nat)) (i : Nat) (q : κ) (n : Nat), map_find lt m q = some n →
      map_find lt (index_insert_all lt m i ks) q = some n := by
  induction ks with
  | nil => intro m i q n h; exact h
  | cons k ks ih =>
    intro m i q n h
    exact ih _ _ q n (map_insert_find_some lt m k q i n h)

theorem index_insert_all_first {κ π : Type} (lt : κ → κ → Bool) (proj : κ → π)
    (hequiv : ∀ a b, (!lt a b && !lt b a) = true ↔ proj a = proj b) (ks : List κ) :
    ∀ (m : List (κ × Nat)) (i0 : Nat) (q : κ), map_find lt m q = none →
      ∀ (i : Nat) (x : κ), ks[i]? = some x → proj x = proj q →
        (∀ (j : Nat) (y : κ), j < i → ks[j]? = some y → proj y ≠ proj q) →
        map_find lt (index_insert_all lt m i0 ks) q = some (i0 + i) := by
  induction ks with
  | nil => intro m i0 q _ i x hx; simp at hx
  | cons k ks ih =>
    intro m i0 q hq i x hx hxq hfirst
    cases i with
    | zero =>
      simp only [List.getElem?_cons_zero, Option.some.injEq] at hx
      subst hx
      have hk : map_find lt m k = none := by
        rw [map_find_congr lt proj hequiv m k q hxq]; exact hq
      have hins : map_find lt (map_insert lt m k i0) q = some (i0 + 0) := by
        rw [map_insert_of_none lt m k _ hk, map_find_append, hq]
        simp only
        rw [if_pos ((hequiv k q).2 hxq)]
        rfl
      exact index_insert_all_stable lt ks (map_insert lt m k i0) (i0 + 1) q (i0 + 0) hins
    | succ i =>
      have hk0 : proj k ≠ proj q := hfirst 0 k (by omega) (by simp)
      have hne : ¬ (!lt k q && !lt q k) = true := fun h => hk0 ((hequiv k q).1 h)
      have hq2 : map_find lt (map_insert lt m k i0) q = none := by
        unfold map_insert
        cases hk : map_find lt m k with
        | some _ => exact hq
        | none =>
          simp only
          rw [map_find_append, hq]
          simp only
          rw [if_neg hne]
      have := ih (map_insert lt m k i0) (i0 + 1) q hq2 i x (by simpa using hx) hxq
        (fun j y hj hy => hfirst (j + 1) y (by omega) (by simpa using hy))
      have e : i0 + (i + 1) = i0 + 1 + i := by omega
      rw [e]
      exact this

theorem index_insert_all_absent {κ π : Type} (lt : κ → κ → Bool) (proj : κ → π)
    (hequiv : ∀ a b, (!lt a b && !lt b a) = true ↔ proj a = proj b) (ks : List κ) :
    ∀ (m : List (κ × Nat)) (i0 : Nat) (q : κ), map_find lt m q = none →
      (∀ x ∈ ks, proj x ≠ proj q) →
      map_find lt (index_insert_all lt m i0 ks) q = none := by
  induction ks with
  | nil => intro m i0 q hq _; exact hq
  | cons k ks ih =>
    intro m i0 q hq hall
    have hne : ¬ (!lt k q && !lt q k) = true :=
      fun h => hall k (by simp) ((hequiv k q).1 h)
    have hq2 : map_find lt (map_insert lt m k i0) q = none := by
      unfold map_insert
      cases hk : map_find lt m k with
      | some _ => exact hq
      | none =>
        simp only
        rw [map_find_append, hq]
        simp only
        rw [if_neg hne]
    exact ih _ _ q hq2 (fun x hx => hall x (List.mem_cons_of_mem _ hx))

theorem decode_layer_field_maps (env : mvt_env) (layer l : mvt_layer) (f : Nat × pbf_data)
    (h : decode_layer_field env layer f = some l) :
    l.key_map = layer.key_map ∧ l.value_map = layer.value_map := by
  unfold decode_layer_field at h
  split at h
  · split at h
    · cases h; exact ⟨rfl, rfl⟩
    · cases h
  · split at h
    · cases h; exact ⟨rfl, rfl⟩
    · cases h
  · split at h
    · split at h
      · cases h
      · cases h; exact ⟨rfl, rfl⟩
    · cases h
  · split at h
    · cases h; exact ⟨rfl, rfl⟩
    · cases h
  · split at h
    · split at h
      · cases h
      · cases h; exact ⟨rfl, rfl⟩
    · cases h
  · cases h; exact ⟨rfl, rfl⟩

theorem decode_layer_loop_maps (env : mvt_env) (fields : pbf_message) :
    ∀ (layer l : mvt_layer), decode_layer_loop env layer fields = some l →
      l.key_map = layer.key_map ∧ l.value_map = layer.value_map := by
  induction fields with
  | nil => intro layer l h; cases h; exact ⟨rfl, rfl⟩
  | cons f fs ih =>
    intro layer l h
    rw [decode_layer_loop] at h
    cases h1 : decode_layer_field env layer f with
    | none => rw [h1] at h; cases h
    | some l1 =>
      rw [h1] at h
      have a := decode_layer_field_maps env layer l1 f h1
      have b := ih l1 l h
      exact ⟨b.1.trans a.1, b.2.trans a.2⟩

theorem decode_layer_indexes (env : mvt_env) (fields : pbf_message) (layer : mvt_layer)
    (h : decode_layer env fields = some layer) :
    layer.key_map = index_insert_all string_less [] 0 layer.keys ∧
    layer.value_map = index_insert_all (mvt_value_cmp env) [] 0 layer.values := by
  unfold decode_layer at h
  cases h1 : decode_layer_loop env mvt_layer_init fields with
  | none => rw [h1] at h; cases h
  | some l =>
    rw [h1] at h
    have hm := decode_layer_loop_maps env fields _ _ h1
    cases h
    simp only
    rw [hm.1, hm.2]
    exact ⟨rfl, rfl⟩

/-- C16, as amended: the index rebuilt by `decode` maps a key to its first
position.  In a decoded layer, a key at position `i` of `keys` with no equal
key before it is mapped to `i` by `key_map`, whatever follows; likewise a
value at position `i` of `values` with no comparator-equivalent value before
it is mapped to `i` by `value_map` (`std::map::insert` does not overwrite). -/
theorem rebuilt_index_first_position (env : mvt_env) (fields : pbf_message) (layer : mvt_layer)
    (h : decode_layer env fields = some layer) :
    (∀ (i : Nat) (k : String), layer.keys[i]? = some k →
      (∀ j : Nat, j < i → layer.keys[j]? ≠ some k) →
      map_find string_less layer.key_map k = some i) ∧
    (∀ (i : Nat) (v : mvt_value), layer.values[i]? = some v →
      (∀ (j : Nat) (w : mvt_value), j < i → layer.values[j]? = some w →
        ¬ (!mvt_value_cmp env w v && !mvt_value_cmp env v w) = true) →
      map_find (mvt_value_cmp env) layer.value_map v = some i) := by
  obtain ⟨hk, hv⟩ := decode_layer_indexes env fields layer h
  constructor
  · intro i k hi hfirst
    rw [hk]
    have := index_insert_all_first string_less id (by simpa using string_equiv_iff)
      layer.keys [] 0 k rfl i k hi rfl
      (fun j y hj hy hyk => hfirst j hj (by rw [hy]; exact congrArg some hyk))
    simpa using this
  · intro i v hi hfirst
    rw [hv]
    have := index_insert_all_first (mvt_value_cmp env) (stringify_visitor env)
      (value_equiv_iff env) layer.values [] 0 v rfl i v hi rfl
      (fun j w hj hw hwv => hfirst j w hj hw ((value_equiv_iff env w v).2 hwv))
    simpa using this

/-- C16 on a layer with a repeated key and a repeated value: both indexes give position 0. -/
theorem rebuilt_index_first_position_witness :
    decode_layer sample_env duplicate_fields = some duplicate_layer ∧
    (∀ (i : Nat) (k : String), duplicate_layer.keys[i]? = some k →
      (∀ j : Nat, j < i → duplicate_layer.keys[j]? ≠ some k) →
      map_find string_less duplicate_layer.key_map k = some i) ∧
    (∀ (i : Nat) (v : mvt_value), duplicate_layer.values[i]? = some v →
      (∀ (j : Nat) (w : mvt_value), j < i → duplicate_layer.values[j]? = some w →
        ¬ (!mvt_value_cmp sample_env w v && !mvt_value_cmp sample_env v w) = true) →
      map_find (mvt_value_cmp sample_env) duplicate_layer.value_map v = some i) :=
  ⟨by decide, rebuilt_index_first_position sample_env duplicate_fields duplicate_layer
    (by decide)⟩

/-- C16 as written fails: a decoded layer whose keys are `a, a` and whose
values are `uint64 5, uint64 5` has both indexes at position 0, the earlier
one, and not at position 1; so the later occurrence does not overwrite. -/
theorem duplicate_keeps_first_position :
    decode_layer sample_env duplicate_fields = some duplicate_layer ∧
    duplicate_layer.keys = ["a", "a"] ∧
    map_find string_less duplicate_layer.key_map "a" = some 0 ∧
    duplicate_layer.values = [.uint64 5, .uint64 5] ∧
    map_find (mvt_value_cmp sample_env) duplicate_layer.value_map (.uint64 5) = some 0 ∧
    ¬ (∀ (env : mvt_env) (fields : pbf_message) (layer : mvt_layer) (i j : Nat) (k : String),
        decode_layer env fields = some layer → i < j →
        layer.keys[i]? = some k → layer.keys[j]? = some k →
        (∀ n : Nat, j < n → layer.keys[n]? ≠ some k) →
        map_find string_less layer.key_map k = some j) := by
  refine ⟨by decide, rfl, by decide, rfl, by decide, ?_⟩
  intro hall
  have := hall sample_env duplicate_fields duplicate_layer 0 1 "a" (by decide) (by decide)
    (by decide) (by decide) (by
      intro n hn
      have hlen : duplicate_layer.keys.length ≤ n := by
        have : duplicate_layer.keys.length = 2 := rfl
        omega
      rw [List.getElem?_eq_none hlen]
      simp)
  revert this
  decide

theorem decode_coords_ops (geoms : List Nat) (op : Nat) :
    ∀ (n : Nat) (c : decode_cursor), ∀ o ∈ (decode_coords geoms op n c).geometry,
      o ∈ c.geometry ∨ o.op = (op : Int) := by
  intro n
  induction n with
  | zero => intro c o ho; exact Or.inl ho
  | succ n ih =>
    intro c o ho
    rw [decode_coords] at ho
    split at ho
    · rcases ih _ o ho with h | h
      · simp only [List.mem_append, List.mem_singleton] at h
        rcases h with h | h
        · exact Or.inl h
        · right; rw [h]
      · exact Or.inr h
    · exact Or.inl ho

theorem decode_loop_ops (geoms : List Nat) (P : mvt_geometry → Prop)
    (hP : ∀ (o : mvt_geometry) (w : Nat), w ∈ geoms → o.op = ((w &&& 7 : Nat) : Int) → P o) :
    ∀ (fuel : Nat) (c : decode_cursor) (out : List mvt_geometry),
      decode_loop geoms fuel c = some out → (∀ o ∈ c.geometry, P o) → ∀ o ∈ out, P o := by
  intro fuel
  induction fuel with
  | zero =>
    intro c out h hc
    by_cases hg : c.g < geoms.length
    · rw [decode_loop, dif_pos hg] at h; cases h
    · rw [decode_loop_done geoms 0 c hg] at h
      cases h; exact hc
  | succ f ih =>
    intro c out h hc
    by_cases hg : c.g < geoms.length
    · rw [decode_loop_succ geoms f c hg] at h
      have hw : geoms[c.g] ∈ geoms := List.getElem_mem hg
      split_ifs at h
      · refine ih _ out h ?_
        intro o ho
        rcases decode_coords_ops geoms _ _ c o ho with h1 | h1
        · exact hc o h1
        · exact hP o _ hw h1
      · refine ih _ out h ?_
        intro o ho
        simp only [List.mem_append, List.mem_singleton] at ho
        rcases ho with h1 | h1
        · exact hc o h1
        · exact hP o _ hw (by rw [h1])
    · rw [decode_loop_done geoms _ c hg] at h
      cases h; exact hc

theorem encode_op_none_iff (s : encode_state) (g : mvt_geometry) :
    encode_op s g = none ↔ ¬ valid_op g.op := by
  unfold encode_op valid_op
  simp only
  split_ifs with h1 h2
  · simp only [reduceCtorEq, false_iff, not_not]
    rcases h1 with h | h
    · exact Or.inl h
    · exact Or.inr (Or.inl h)
  · simp only [reduceCtorEq, false_iff, not_not]
    exact Or.inr (Or.inr h2)
  · simp only [true_iff]
    rintro (h | h | h)
    · exact h1 (Or.inl h)
    · exact h1 (Or.inr h)
    · exact h2 h

theorem encode_loop_none_iff (geom : List mvt_geometry) :
    ∀ s : encode_state, encode_loop s geom = none ↔ ∃ o ∈ geom, ¬ valid_op o.op := by
  induction geom with
  | nil => intro s; simp [encode_loop]
  | cons g gs ih =>
    intro s
    rw [encode_loop]
    cases h : encode_op s g with
    | none =>
      simp only [true_iff]
      exact ⟨g, by simp, (encode_op_none_iff s g).1 h⟩
    | some s1 =>
      simp only
      rw [ih s1]
      have hg : valid_op g.op := by
        by_contra hn
        rw [(encode_op_none_iff s g).2 hn] at h
        cases h
      constructor
      · rintro ⟨o, ho, hbad⟩
        exact ⟨o, List.mem_cons_of_mem _ ho, hbad⟩
      · rintro ⟨o, ho, hbad⟩
        rcases List.mem_cons.1 ho with rfl | ho
        · exact absurd hg hbad
        · exact ⟨o, ho, hbad⟩

theorem encode_geometry_none_iff (geom : List mvt_geometry) :
    encode_geometry geom = none ↔ ∃ o ∈ geom, ¬ valid_op o.op := by
  rw [← encode_loop_none_iff geom encode_init]
  unfold encode_geometry
  cases encode_loop encode_init geom <;> simp

theorem decoded_opcodes_low_bits (geoms : List Nat) :
    ∃ ops, decode_geometry geoms = some ops ∧
      (∀ o ∈ ops, (∃ w ∈ geoms, o.op = ((w &&& 7 : Nat) : Int)) ∧ 0 ≤ o.op ∧ o.op ≤ 7) ∧
      (encode_geometry ops = none ↔ ∃ o ∈ ops, ¬ valid_op o.op) := by
  obtain ⟨ops, ho, _⟩ := decode_loop_total geoms geoms.length
    { g := 0, px := 0, py := 0, geometry := [] } (by simp)
  refine ⟨ops, ho, ?_, encode_geometry_none_iff ops⟩
  refine decode_loop_ops geoms
    (fun o => (∃ w ∈ geoms, o.op = ((w &&& 7 : Nat) : Int)) ∧ 0 ≤ o.op ∧ o.op ≤ 7)
    ?_ _ _ ops ho (by simp)
  intro o w hw hop
  refine ⟨⟨w, hw, hop⟩, ?_⟩
  rw [hop, word_and_seven]
  omega

/-- C17, the failing case: the one-word stream `3` (count 0, opcode 3) decodes
to one operation with opcode 3, which is none of MoveTo, LineTo and ClosePath,
and encoding that decoded geometry ends in the corrupted-geometry exit of the
encoder.  In general the decoder returns for every stream, every opcode it
emits is the low three bits of a word of the stream (0 to 7, not checked
against the three opcodes), and encoding what it returned exits exactly when
one of these opcodes is not MoveTo, LineTo or ClosePath. -/
theorem decoded_opcode_three :
    decode_geometry [3] = some [{ op := 3, x := 0, y := 0 }] ∧
    ¬ valid_op 3 ∧
    encode_geometry [{ op := 3, x := 0, y := 0 }] = none ∧
    ∀ geoms : List Nat, ∃ ops, decode_geometry geoms = some ops ∧
      (∀ o ∈ ops, (∃ w ∈ geoms, o.op = ((w &&& 7 : Nat) : Int)) ∧ 0 ≤ o.op ∧ o.op ≤ 7) ∧
      (encode_geometry ops = none ↔ ∃ o ∈ ops, ¬ valid_op o.op) :=
  ⟨by decide, by decide, by decide, decoded_opcodes_low_bits⟩

/-- C18: the encoder rejects corrupted geometry exactly.  Encoding the
geometry of a feature ends in the corrupted-geometry abort if and only if some
operation of the sequence has an opcode other than MoveTo, LineTo and
ClosePath; when every opcode is one of the three, encoding completes with a
command stream. -/
theorem encode_rejects_corrupted_exactly (geom : List mvt_geometry) :
    (encode_geometry geom = none ↔ ∃ o ∈ geom, ¬ valid_op o.op) ∧
    ((∀ o ∈ geom, valid_op o.op) → ∃ words, encode_geometry geom = some words) := by
  refine ⟨encode_geometry_none_iff geom, ?_⟩
  intro hall
  cases h : encode_geometry geom with
  | some words => exact ⟨words, rfl⟩
  | none =>
    obtain ⟨o, ho, hbad⟩ := (encode_geometry_none_iff geom).1 h
    exact absurd (hall o ho) hbad

theorem toDigitsCore_acc (fuel : Nat) :
    ∀ (n : Nat) (ds : List Char),
      Nat.toDigitsCore 10 fuel n ds = Nat.toDigitsCore 10 fuel n [] ++ ds := by
  induction fuel with
  | zero => intro n ds; simp [Nat.toDigitsCore]
  | succ f ih =>
    intro n ds
    simp only [Nat.toDigitsCore]
    split_ifs
    · simp
    · rw [ih (n / 10) (Nat.digitChar (n % 10) :: ds), ih (n / 10) [Nat.digitChar (n % 10)]]
      simp

theorem digitChar_value (d : Nat) (h : d < 10) : (Nat.digitChar d).toNat - 48 = d := by
  interval_cases d <;> rfl

theorem digitChar_ne_minus (d : Nat) (h : d < 10) : Nat.digitChar d ≠ '-' := by
  interval_cases d <;> decide

theorem digits_value_append (xs : List Char) (c : Char) :
    digits_value (xs ++ [c]) = 10 * digits_value xs + (c.toNat - 48) := by
  simp [digits_value, List.foldl_append]

theorem digits_value_toDigitsCore (fuel : Nat) :
    ∀ n : Nat, n < fuel → digits_value (Nat.toDigitsCore 10 fuel n []) = n := by
  induction fuel with
  | zero => intro n h; omega
  | succ f ih =>
    intro n h
    simp only [Nat.toDigitsCore]
    split_ifs with h0
    · have hn : n % 10 = n := by omega
      have := digits_value_append [] (Nat.digitChar (n % 10))
      simp only [List.nil_append] at this
      rw [this, digitChar_value _ (by omega)]
      simp [digits_value, hn]
    · rw [toDigitsCore_acc, digits_value_append, ih (n / 10) (by omega),
        digitChar_value _ (by omega)]
      omega

theorem minus_not_mem_toDigitsCore (fuel : Nat) :
    ∀ (n : Nat) (ds : List Char), '-' ∉ ds → '-' ∉ Nat.toDigitsCore 10 fuel n ds := by
  induction fuel with
  | zero => intro n ds h; simpa [Nat.toDigitsCore] using h
  | succ f ih =>
    intro n ds h
    have hd : '-' ∉ Nat.digitChar (n % 10) :: ds := by
      simp only [List.mem_cons, not_or]
      exact ⟨fun e => digitChar_ne_minus (n % 10) (by omega) e.symm, h⟩
    simp only [Nat.toDigitsCore]
    split_ifs
    · exact hd
    · exact ih _ _ hd

theorem nat_repr_data (n : Nat) : (Nat.repr n).data = Nat.toDigits 10 n := rfl

theorem nat_repr_injective (a b : Nat) (h : Nat.repr a = Nat.repr b) : a = b := by
  have hd : Nat.toDigits 10 a = Nat.toDigits 10 b := by
    rw [← nat_repr_data, ← nat_repr_data, h]
  have ha := digits_value_toDigitsCore (a + 1) a (by omega)
  have hb := digits_value_toDigitsCore (b + 1) b (by omega)
  unfold Nat.toDigits at hd
  rw [hd] at ha
  omega

theorem int_toString_ofNat (a : Nat) : toString (Int.ofNat a) = Nat.repr a := rfl

theorem int_toString_negSucc (a : Nat) :
    toString (Int.negSucc a) = "-" ++ Nat.repr (a + 1) := rfl

theorem tagged_eq_iff (p a b : String) : p ++ a = p ++ b ↔ a = b := by
  constructor
  · intro h
    have := congrArg String.data h
    simp only [String.data_append] at this
    exact String.ext (List.append_cancel_left this)
  · rintro rfl; rfl

theorem int_toString_injective (a b : Int) (h : toString a = toString b) : a = b := by
  cases a with
  | ofNat a =>
    cases b with
    | ofNat b =>
      rw [int_toString_ofNat, int_toString_ofNat] at h
      rw [nat_repr_injective a b h]
    | negSucc b =>
      rw [int_toString_ofNat, int_toString_negSucc] at h
      have hd := congrArg String.data h
      rw [nat_repr_data, String.data_append] at hd
      have hm : '-' ∈ Nat.toDigits 10 a := by rw [hd]; simp
      exact absurd hm (minus_not_mem_toDigitsCore _ _ _ (by simp))
  | negSucc a =>
    cases b with
    | ofNat b =>
      rw [int_toString_ofNat, int_toString_negSucc] at h
      have hd := congrArg String.data h
      rw [nat_repr_data, String.data_append] at hd
      have hm : '-' ∈ Nat.toDigits 10 b := by rw [← hd]; simp
      exact absurd hm (minus_not_mem_toDigitsCore _ _ _ (by simp))
    | negSucc b =>
      rw [int_toString_negSucc, int_toString_negSucc, tagged_eq_iff] at h
      have := nat_repr_injective _ _ h
      have e : a = b := by omega
      rw [e]

theorem stringify_head (env : mvt_env) (v : mvt_value) :
    (stringify_visitor env v).data.head?
      = some (match value_kind v with
              | 0 => 's' | 1 => 'f' | 2 => 'd' | 3 => 'i' | 4 => 'u' | 5 => 'b'
              | 6 => 'n' | 7 => 'v' | _ => 'm') := by
  cases v <;> simp [stringify_visitor, value_kind, String.data_append]

theorem stringify_kind (env : mvt_env) (a b : mvt_value)
    (h : stringify_visitor env a = stringify_visitor env b) : value_kind a = value_kind b := by
  have ha := stringify_head env a
  rw [h, stringify_head env b] at ha
  cases a <;> cases b <;> first | rfl | (simp [value_kind] at ha)

theorem decode_value_field_closed (v w : mvt_value) (f : Nat × pbf_data)
    (h : decode_value_field v f = some w) : closed_value w ∨ w = v := by
  unfold decode_value_field at h
  split at h
  all_goals first
    | (split at h
       · cases h; exact Or.inl trivial
       · cases h)
    | (cases h; exact Or.inr rfl)

theorem decode_value_loop_closed (fields : pbf_message) :
    ∀ (init v w : mvt_value), closed_value v ∨ v = init →
      decode_value_loop v fields = some w → closed_value w ∨ w = init := by
  induction fields with
  | nil => intro init v w hv h; cases h; exact hv
  | cons f fs ih =>
    intro init v w hv h
    rw [decode_value_loop] at h
    cases h1 : decode_value_field v f with
    | none => rw [h1] at h; cases h
    | some v1 =>
      rw [h1] at h
      refine ih init v1 w ?_ h
      rcases decode_value_field_closed v v1 f h1 with hc | hc
      · exact Or.inl hc
      · rw [hc]; exact hv

theorem decode_value_field_unknown (v : mvt_value) (f : Nat × pbf_data)
    (h : f.1 = 0 ∨ 8 ≤ f.1) : decode_value_field v f = some v := by
  unfold decode_value_field
  split <;> first | (exfalso; omega) | rfl

theorem decode_value_loop_unknown (fields : pbf_message) :
    ∀ v : mvt_value, (∀ f ∈ fields, f.1 = 0 ∨ 8 ≤ f.1) →
      decode_value_loop v fields = some v := by
  induction fields with
  | nil => intro v _; rfl
  | cons f fs ih =>
    intro v h
    rw [decode_value_loop, decode_value_field_unknown v f (h f (by simp))]
    exact ih v (fun g hg => h g (List.mem_cons_of_mem _ hg))

theorem decode_layer_field_values (env : mvt_env) (layer l : mvt_layer) (f : Nat × pbf_data)
    (h : decode_layer_field env layer f = some l)
    (hl : ∀ v ∈ layer.values, closed_value v ∨ v = env.value_init) :
    ∀ v ∈ l.values, closed_value v ∨ v = env.value_init := by
  unfold decode_layer_field at h
  split at h
  · split at h
    · cases h; exact hl
    · cases h
  · split at h
    · cases h; exact hl
    · cases h
  · split at h
    · split at h
      · cases h
      · rename_i hv
        cases h
        intro v hmem
        simp only [List.mem_append, List.mem_singleton] at hmem
        rcases hmem with hmem | hmem
        · exact hl v hmem
        · rw [hmem]
          exact decode_value_loop_closed _ env.value_init env.value_init _ (Or.inr rfl) hv
    · cases h
  · split at h
    · cases h; exact hl
    · cases h
  · split at h
    · split at h
      · cases h
      · cases h; exact hl
    · cases h
  · cases h; exact hl

theorem decode_layer_loop_values (env : mvt_env) (fields : pbf_message) :
    ∀ (layer l : mvt_layer), decode_layer_loop env layer fields = some l →
      (∀ v ∈ layer.values, closed_value v ∨ v = env.value_init) →
      ∀ v ∈ l.values, closed_value v ∨ v = env.value_init := by
  induction fields with
  | nil => intro layer l h hl; cases h; exact hl
  | cons f fs ih =>
    intro layer l h hl
    rw [decode_layer_loop] at h
    cases h1 : decode_layer_field env layer f with
    | none => rw [h1] at h; cases h
    | some l1 =>
      rw [h1] at h
      exact ih l1 l h (decode_layer_field_values env layer l1 f h1 hl)

theorem decode_layer_values (env : mvt_env) (fields : pbf_message) (layer : mvt_layer)
    (h : decode_layer env fields = some layer) :
    ∀ v ∈ layer.values, closed_value v ∨ v = env.value_init := by
  unfold decode_layer at h
  cases h1 : decode_layer_loop env mvt_layer_init fields with
  | none => rw [h1] at h; cases h
  | some l =>
    rw [h1] at h
    have := decode_layer_loop_values env fields _ _ h1 (by simp [mvt_layer_init])
    cases h
    exact this

theorem decode_layer_unset_value (env : mvt_env) (unknown : pbf_message)
    (hu : ∀ f ∈ unknown, f.1 = 0 ∨ 8 ≤ f.1) :
    decode_layer env [(4, .message unknown)]
      = some { mvt_layer_init with values := [env.value_init],
                                   value_map := [(env.value_init, 0)] } := by
  unfold decode_layer
  have h1 : decode_layer_loop env mvt_layer_init [(4, .message unknown)]
      = some { mvt_layer_init with values := [env.value_init] } := by
    rw [decode_layer_loop]
    have : decode_layer_field env mvt_layer_init (4, .message unknown)
        = some { mvt_layer_init with values := [env.value_init] } := by
      unfold decode_layer_field
      simp only
      rw [decode_value_loop_unknown unknown env.value_init hu]
      rfl
    rw [this]
    rfl
  rw [h1]
  rfl

/-- C19, what the code does: a value that no field assigns keeps the initial
value of `mvt_value value;`.  Every entry of the values table of a decoded
layer is one of the six alternatives or that initial value; a Value message
with no field or only unrecognised sub-fields yields exactly the initial
value, and when the initial value is none of the six alternatives (the null
of the variant) encoding the decoded layer ends in the "can't happen" exit. -/
theorem unset_value_keeps_initial (env : mvt_env) (unknown : pbf_message)
    (hu : ∀ f ∈ unknown, f.1 = 0 ∨ 8 ≤ f.1) :
    (∀ (fields : pbf_message) (layer : mvt_layer), decode_layer env fields = some layer →
      ∀ v ∈ layer.values, closed_value v ∨ v = env.value_init) ∧
    (∃ layer, decode_layer env [(4, .message unknown)] = some layer ∧
      layer.values = [env.value_init] ∧
      (¬ closed_value env.value_init →
        mvt_tile.encode env { layers := [layer] } = none)) := by
  refine ⟨fun fields layer h => decode_layer_values env fields layer h, ?_⟩
  refine ⟨_, decode_layer_unset_value env unknown hu, rfl, ?_⟩
  intro hn
  have hw : write_visitor env.value_init = none := by
    cases hv : env.value_init with
    | null => rfl
    | vector => rfl
    | map => rfl
    | string _ => rw [hv] at hn; exact absurd trivial hn
    | float _ => rw [hv] at hn; exact absurd trivial hn
    | double _ => rw [hv] at hn; exact absurd trivial hn
    | int64 _ => rw [hv] at hn; exact absurd trivial hn
    | uint64 _ => rw [hv] at hn; exact absurd trivial hn
    | bool _ => rw [hv] at hn; exact absurd trivial hn
  simp only [mvt_tile.encode, encode_layers, encode_layer, encode_values, hw]

/-- C19 on a Value message with the single unrecognised sub-field 9 and on the
empty Value message, with the null initial value: the values table holds a
null value and encoding the decoded layer exits. -/
theorem unset_value_keeps_initial_witness :
    (∀ f ∈ [((9 : Nat), pbf_data.varint 1)], f.1 = 0 ∨ 8 ≤ f.1) ∧
    sample_env.value_init = .null ∧
    (decode_layer sample_env [(4, .message [])]).map (fun l => l.values) = some [.null] ∧
    ((∀ (fields : pbf_message) (layer : mvt_layer),
        decode_layer sample_env fields = some layer →
        ∀ v ∈ layer.values, closed_value v ∨ v = sample_env.value_init) ∧
      (∃ layer, decode_layer sample_env [(4, .message [(9, .varint 1)])] = some layer ∧
        layer.values = [sample_env.value_init] ∧
        (¬ closed_value sample_env.value_init →
          mvt_tile.encode sample_env { layers := [layer] } = none))) :=
  ⟨by simp, rfl, by decide, unset_value_keeps_initial sample_env [(9, .varint 1)] (by simp)⟩

/-- C20: comparator equality.  Under `mvt_value_cmp` two values are equivalent
(neither orders before the other) exactly when their stringified projections
are the same text; values of different alternatives of the variant are never
equivalent (int64 5 and uint64 5, float 1.0 and double 1.0, string "true" and
bool true among them), and two strings, two int64, two uint64 or two bool are
equivalent if and only if their payloads are equal. -/
theorem comparator_equality (env : mvt_env) :
    (∀ a b : mvt_value, (!mvt_value_cmp env a b && !mvt_value_cmp env b a) = true
      ↔ stringify_visitor env a = stringify_visitor env b) ∧
    (∀ a b : mvt_value, value_kind a ≠ value_kind b →
      ¬ (!mvt_value_cmp env a b && !mvt_value_cmp env b a) = true) ∧
    (∀ a b : String, (!mvt_value_cmp env (.string a) (.string b)
      && !mvt_value_cmp env (.string b) (.string a)) = true ↔ a = b) ∧
    (∀ a b : Int, (!mvt_value_cmp env (.int64 a) (.int64 b)
      && !mvt_value_cmp env (.int64 b) (.int64 a)) = true ↔ a = b) ∧
    (∀ a b : Nat, (!mvt_value_cmp env (.uint64 a) (.uint64 b)
      && !mvt_value_cmp env (.uint64 b) (.uint64 a)) = true ↔ a = b) ∧
    (∀ a b : Bool, (!mvt_value_cmp env (.bool a) (.bool b)
      && !mvt_value_cmp env (.bool b) (.bool a)) = true ↔ a = b) ∧
    ¬ (!mvt_value_cmp env (.int64 5) (.uint64 5)
      && !mvt_value_cmp env (.uint64 5) (.int64 5)) = true ∧
    ¬ (!mvt_value_cmp env (.float 1065353216) (.double 4607182418800017408)
      && !mvt_value_cmp env (.double 4607182418800017408) (.float 1065353216)) = true ∧
    ¬ (!mvt_value_cmp env (.string "true") (.bool true)
      && !mvt_value_cmp env (.bool true) (.string "true")) = true := by
  have hkind : ∀ a b : mvt_value, value_kind a ≠ value_kind b →
      ¬ (!mvt_value_cmp env a b && !mvt_value_cmp env b a) = true := by
    intro a b hk he
    exact hk (stringify_kind env a b ((value_equiv_iff env a b).1 he))
  refine ⟨value_equiv_iff env, hkind, ?_, ?_, ?_, ?_, hkind _ _ (by decide),
    hkind _ _ (by decide), hkind _ _ (by decide)⟩
  · intro a b
    rw [value_equiv_iff]
    exact tagged_eq_iff "s" a b
  · intro a b
    rw [value_equiv_iff]
    constructor
    · intro h
      exact int_toString_injective a b ((tagged_eq_iff "i" _ _).1 h)
    · rintro rfl; rfl
  · intro a b
    rw [value_equiv_iff]
    constructor
    · intro h
      exact nat_repr_injective a b ((tagged_eq_iff "u" _ _).1 h)
    · rintro rfl; rfl
  · intro a b
    rw [value_equiv_iff]
    cases a <;> cases b <;> simp [stringify_visitor]

end Mvt
